import Mathlib

/-! ## git-worktree-sync: the resource synchronisation engine

A shallow embedding of `internal/sync/sync.go` (`SyncResources`, `syncResource`,
`createSymlink`, `copyFile`, `copyDir`, `CheckSyncStatus`) over an explicit model of
the process environment: Go path strings (`path/filepath`), Go error values, and a
file system with directories, regular files and symbolic links.

Stateful Go code is embedded by explicit state passing: a function that may change
the file system returns its Go result together with the file system it leaves behind.

On top of it: `internal/config` (`ResolveWorktreePath`, `GetDefaultConfig`,
`GetTemplate`, `DetectProjectType`), the computation of the worktree path in
`runCreate` of `internal/cli/create.go`, and `parseWorktreeList` of
`internal/git/worktree.go`, with the functions of the Go `strings` package they call.
-/

namespace GitWorktreeSync

/-! ## Go path strings (`path/filepath` on Unix) -/

/-- The path separator, the character `/`. -/
def sepChar : Char := Char.ofNat 47

/-- Cut a character sequence at every separator (always at least one piece). -/
def splitChars : List Char → List (List Char)
  | [] => [[]]
  | c :: cs =>
    match splitChars cs with
    | [] => [[]]
    | w :: ws => if c = sepChar then [] :: w :: ws else (c :: w) :: ws

/-- The separator-delimited elements of a path string. -/
def splitPath (s : String) : List String :=
  (splitChars s.data).map String.mk

/-- Whether a path string starts with the separator (is absolute on Unix). -/
def isRooted (s : String) : Bool :=
  match s.data with
  | [] => false
  | c :: _ => decide (c = sepChar)

/-- One step of lexical cleaning. The accumulator is the stack of kept elements,
innermost first. Empty and `.` elements are dropped; `..` removes the preceding
element, is dropped at the root of a rooted path and is kept at the head of a
relative one. -/
def cleanStep (rooted : Bool) (acc : List String) (c : String) : List String :=
  if c = "" ∨ c = "." then acc
  else if c = ".." then
    match acc with
    | [] => if rooted then [] else [".."]
    | top :: below => if top = ".." then ".." :: top :: below else below
  else c :: acc

/-- The elements that survive lexical cleaning, outermost first. -/
def cleanComps (rooted : Bool) (cs : List String) : List String :=
  (cs.foldl (cleanStep rooted) []).reverse

/-- Join elements with the separator between them. -/
def joinSep : List String → String
  | [] => ""
  | [c] => c
  | c :: d :: rest => c ++ "/" ++ joinSep (d :: rest)

/-- Put cleaned elements back together as a path string. -/
def renderPath (rooted : Bool) (cs : List String) : String :=
  match cs with
  | [] => if rooted then "/" else "."
  | _ :: _ => (if rooted then "/" else "") ++ joinSep cs

/-- Go `filepath.Clean`: the shortest path name equivalent to `s` by purely lexical
processing. -/
def filepathClean (s : String) : String :=
  renderPath (isRooted s) (cleanComps (isRooted s) (splitPath s))

/-- Go `filepath.Join` of two elements: empty elements are ignored, the rest are
joined by the separator and cleaned; when both are empty the result is empty. -/
def filepathJoin (a b : String) : String :=
  if a = "" then (if b = "" then "" else filepathClean b)
  else filepathClean (a ++ "/" ++ b)

/-- Go `filepath.Dir`: everything up to the last separator, cleaned. -/
def filepathDir (s : String) : String :=
  renderPath (isRooted s) (cleanComps (isRooted s) (splitPath s).dropLast)

/-- The kernel limit on the length in bytes of a path argument, terminator
included. -/
def PATH_MAX : Nat := 4096

/-- The kernel limit on the length in bytes of one path element. -/
def NAME_MAX : Nat := 255

/-- The number of symbolic links the kernel follows while resolving one path. -/
def MAXSYMLINKS : Nat := 40

/-- The number of bytes of a character in UTF-8. -/
def utf8Len (c : Char) : Nat :=
  if c.toNat < 0x80 then 1 else if c.toNat < 0x800 then 2 else if c.toNat < 0x10000 then 3 else 4

/-- The length of a Go string: its number of bytes. -/
def byteLen (s : String) : Nat :=
  (s.data.map utf8Len).sum

/-! ## Go error values -/

/-- Error numbers reported by system calls. -/
inductive Errno
  | ENOENT | ENOTDIR | EEXIST | EISDIR | ELOOP | ENAMETOOLONG
  | EACCES | EPERM | EROFS | ENOSPC | EIO
  deriving DecidableEq, Repr

/-- A Go `error` value: a failed system call (`*os.PathError`, `*os.LinkError`), a
plain `fmt.Errorf` message, or a `fmt.Errorf("...: %w", err)` wrapping a cause. -/
inductive GoError
  | sys (op : String) (path : String) (errno : Errno)
  | errorf (msg : String)
  | wrap (msg : String) (cause : GoError)
  deriving DecidableEq, Repr

/-- Go `os.IsNotExist`: true exactly for a system-call error carrying `ENOENT`
(errors wrapped by `fmt.Errorf` are not looked into). -/
def osIsNotExist : Option GoError → Bool
  | some (.sys _ _ .ENOENT) => true
  | _ => false

/-- The system-call error at the bottom of a chain of wrapped errors, if any. -/
def GoError.rootCause : GoError → Option (String × String × Errno)
  | .sys op path e => some (op, path, e)
  | .errorf _ => none
  | .wrap _ c => c.rootCause

/-! ## The file system -/

/-- A file-system object: a regular file with permission bits and content, a
directory with permission bits, or a symbolic link with its target string. -/
inductive Node
  | file (perm : Nat) (data : List Nat)
  | dir (perm : Nat)
  | symlink (target : String)
  deriving DecidableEq, Repr

/-- The canonical location of an object: its names from the root, with no `.`, `..`
or symbolic link on the way. -/
abbrev Key := List String

/-- The operations on which the environment may inject a failure. -/
inductive Op
  | mkdir | symlink | openRead | create | copy | chmod | readdir | getwd
  deriving DecidableEq, Repr

/-- The state of the process environment. `nodes` binds locations to objects, the
first binding of a location being the current one; the root directory always
exists, with mode 0755. `fault` lets the environment refuse an operation on a path (permission
denied, read-only or full device, I/O error); looking a path up (`lstat`, `stat`)
is decided by the tree alone. -/
structure FS where
  nodes : List (Key × Node)
  cwd : Key
  umask : Nat
  fault : Op → String → Option Errno

/-- First binding of a location in a binding list. -/
def assoc (k : Key) : List (Key × Node) → Option Node
  | [] => none
  | (k1, n) :: rest => if k1 = k then some n else assoc k rest

/-- The object at a location, if any. -/
def FS.get (fs : FS) (k : Key) : Option Node :=
  match k with
  | [] => some (.dir 0o755)
  | _ :: _ => assoc k fs.nodes

/-- Bind a location to an object, shadowing any earlier binding. -/
def FS.put (fs : FS) (k : Key) (n : Node) : FS :=
  ⟨(k, n) :: fs.nodes, fs.cwd, fs.umask, fs.fault⟩

/-- A name a directory entry can have. -/
def validName (n : String) : Bool :=
  decide (n ≠ "" ∧ n ≠ "." ∧ n ≠ ".." ∧ sepChar ∉ n.data)

/-- Byte-wise ordering of names. -/
def charsLe : List Char → List Char → Bool
  | [], _ => true
  | _ :: _, [] => false
  | a :: as, b :: bs =>
    if a.toNat < b.toNat then true
    else if a.toNat = b.toNat then charsLe as bs
    else false

/-- Insert a name into a sorted list of distinct names. -/
def insertName (n : String) : List String → List String
  | [] => [n]
  | m :: ms =>
    if n = m then m :: ms
    else if charsLe n.data m.data then n :: m :: ms
    else m :: insertName n ms

/-- Sort names and drop repetitions. -/
def sortNames : List String → List String
  | [] => []
  | n :: ns => insertName n (sortNames ns)

/-- The names bound directly under a directory location, sorted by name. A binding
under a name no directory can hold (not a proper name, or longer than `NAME_MAX`
bytes) is not an entry. -/
def FS.childNames (fs : FS) (k : Key) : List String :=
  sortNames ((fs.nodes.filterMap (fun e =>
    match e.1.getLast? with
    | some n =>
      if e.1.dropLast = k ∧ validName n ∧ byteLen n ≤ NAME_MAX then some n else none
    | none => none)))

/-- Where the resolution of a path stands after a run over its elements: at the
object the path names, or at a symbolic link to follow, with the directory to go
on from and the elements still to consume. -/
inductive WalkStep
  | done (k : Key) (obj : Option Node)
  | link (cur : Key) (comps : List String)
  deriving DecidableEq, Repr

/-- Path resolution up to the next symbolic link. From directory `cur`, consume the
remaining elements: `.` and empty elements stay, `..` goes to the parent, a name is
looked up in the current directory and refused when longer than `NAME_MAX` bytes.
At a symbolic link the run stops with the target put in front of the elements that
remain; a link in the last position is followed only when `follow` is set. An
absent last element of an existing directory is reported with no object, so that
the caller can create it. -/
def walkSeg (fs : FS) : Key → List String → Bool → Except Errno WalkStep
  | cur, [], _ => .ok (.done cur (fs.get cur))
  | cur, c :: rest, follow =>
    if c = "" ∨ c = "." then walkSeg fs cur rest follow
    else if c = ".." then walkSeg fs cur.dropLast rest follow
    else if NAME_MAX < byteLen c then .error .ENAMETOOLONG
    else
      match fs.get (cur ++ [c]) with
      | none => if rest = [] then .ok (.done (cur ++ [c]) none) else .error .ENOENT
      | some (.dir p) =>
        if rest = [] then .ok (.done (cur ++ [c]) (some (.dir p)))
        else walkSeg fs (cur ++ [c]) rest follow
      | some (.file p d) =>
        if rest = [] then .ok (.done (cur ++ [c]) (some (.file p d))) else .error .ENOTDIR
      | some (.symlink t) =>
        if rest = [] ∧ follow = false then .ok (.done (cur ++ [c]) (some (.symlink t)))
        else if t = "" then .error .ENOENT
        else .ok (.link (if isRooted t then [] else cur) (splitPath t ++ rest))

/-- Path resolution. The first argument is the number of symbolic links that may
still be followed; one link more fails with `ELOOP`. The result is the location
reached and the object there. -/
def walk (fs : FS) : Nat → Key → List String → Bool → Except Errno (Key × Option Node)
  | 0, cur, comps, follow =>
    match walkSeg fs cur comps follow with
    | .error e => .error e
    | .ok (.done k obj) => .ok (k, obj)
    | .ok (.link _ _) => .error .ELOOP
  | links + 1, cur, comps, follow =>
    match walkSeg fs cur comps follow with
    | .error e => .error e
    | .ok (.done k obj) => .ok (k, obj)
    | .ok (.link cur1 comps1) => walk fs links cur1 comps1 follow

/-- Resolve a path argument of a system call: a path of `PATH_MAX` bytes or more
and the empty path are refused, a rooted path starts at the root and any other at
the working directory, which must still exist. -/
def resolve (fs : FS) (path : String) (follow : Bool) : Except Errno (Key × Option Node) :=
  if PATH_MAX ≤ byteLen path then .error .ENAMETOOLONG
  else if path = "" then .error .ENOENT
  else if isRooted path then walk fs MAXSYMLINKS [] (splitPath path) follow
  else
    match fs.get fs.cwd with
    | some (.dir _) => walk fs MAXSYMLINKS fs.cwd (splitPath path) follow
    | _ => .error .ENOENT

/-- What `os.FileInfo` tells the program about an object. -/
structure FileInfo where
  isDir : Bool
  perm : Nat
  deriving DecidableEq, Repr

/-- The `FileInfo` of an object. -/
def Node.info : Node → FileInfo
  | .file p _ => ⟨false, p⟩
  | .dir p => ⟨true, p⟩
  | .symlink _ => ⟨false, 0o777⟩

/-- Go `os.Lstat`: describe the object a path names, without following a symbolic
link in the last position. -/
def osLstat (fs : FS) (path : String) : Except GoError FileInfo :=
  match resolve fs path false with
  | .error e => .error (.sys "lstat" path e)
  | .ok (_, none) => .error (.sys "lstat" path .ENOENT)
  | .ok (_, some n) => .ok n.info

/-- Go `os.Stat`: describe the object a path names, following symbolic links. -/
def osStat (fs : FS) (path : String) : Except GoError FileInfo :=
  match resolve fs path true with
  | .error e => .error (.sys "stat" path e)
  | .ok (_, none) => .error (.sys "stat" path .ENOENT)
  | .ok (_, some n) => .ok n.info

/-- Permission bits left after the process file-mode creation mask. -/
def applyUmask (perm umask : Nat) : Nat :=
  perm - (perm &&& umask)

/-- Go `os.Mkdir`: create one directory whose permission bits are `perm` before
umask. The last element must not exist and its parent must. -/
def osMkdir (fs : FS) (path : String) (perm : Nat) : Option GoError × FS :=
  match fs.fault .mkdir path with
  | some e => (some (.sys "mkdir" path e), fs)
  | none =>
    match resolve fs path false with
    | .error e => (some (.sys "mkdir" path e), fs)
    | .ok (_, some _) => (some (.sys "mkdir" path .EEXIST), fs)
    | .ok (k, none) => (none, fs.put k (.dir (applyUmask perm fs.umask)))

/-- The proper ancestors of a path that `os.MkdirAll` visits, the nearest first:
each is the previous path cut before its last separator, as long as that is not
empty. -/
def parentChain (path : String) : List String :=
  let cs := splitPath path
  ((List.range (cs.length - 1)).reverse.map
    (fun i => joinSep (cs.take (i + 1)))).filter (fun p => decide (p ≠ ""))

/-- The recursion of Go `os.MkdirAll` over a path and its ancestors: a path that
`Stat` finds is accepted when a directory and refused otherwise; else the parent
is ensured first and the path is then created with `Mkdir`, whose failure is
forgiven when `Lstat` finds a directory after all. -/
def mkdirAllChain (perm : Nat) : List String → FS → Option GoError × FS
  | [], fs => (none, fs)
  | path :: parents, fs =>
    match osStat fs path with
    | .ok info =>
      if info.isDir then (none, fs) else (some (.sys "mkdir" path .ENOTDIR), fs)
    | .error _ =>
      match mkdirAllChain perm parents fs with
      | (some err, fs1) => (some err, fs1)
      | (none, fs1) =>
        match osMkdir fs1 path perm with
        | (none, fs2) => (none, fs2)
        | (some err, fs2) =>
          match osLstat fs2 path with
          | .ok info => if info.isDir then (none, fs2) else (some err, fs2)
          | .error _ => (some err, fs2)

/-- Go `os.MkdirAll`: create a directory and any missing parents, all with
permission bits `perm` before umask. -/
def osMkdirAll (fs : FS) (path : String) (perm : Nat) : Option GoError × FS :=
  mkdirAllChain perm (path :: parentChain path) fs

/-- Go `os.Symlink`: create a symbolic link at `path` holding `target`. The target
must not be empty nor reach `PATH_MAX` bytes; the last element of `path` must not
exist and its parent must. -/
def osSymlink (fs : FS) (target path : String) : Option GoError × FS :=
  match fs.fault .symlink path with
  | some e => (some (.sys "symlink" path e), fs)
  | none =>
    if target = "" then (some (.sys "symlink" path .ENOENT), fs)
    else if PATH_MAX ≤ byteLen target then (some (.sys "symlink" path .ENAMETOOLONG), fs)
    else
      match resolve fs path false with
      | .error e => (some (.sys "symlink" path e), fs)
      | .ok (_, some _) => (some (.sys "symlink" path .EEXIST), fs)
      | .ok (k, none) => (none, fs.put k (.symlink target))

/-- Go `os.Getwd`: the working directory as a rooted path. -/
def osGetwd (fs : FS) : Except GoError String :=
  match fs.fault .getwd "" with
  | some e => .error (.sys "getwd" "" e)
  | none => .ok (renderPath true fs.cwd)

/-- Go `filepath.Abs`: a rooted path is cleaned, any other is joined to the
working directory. -/
def filepathAbs (fs : FS) (path : String) : Except GoError String :=
  if isRooted path then .ok (filepathClean path)
  else
    match osGetwd fs with
    | .error e => .error e
    | .ok wd => .ok (filepathJoin wd path)

/-- Go `os.Open`: open for reading, following symbolic links. The open file is
identified by the location of its object. -/
def osOpen (fs : FS) (path : String) : Except GoError Key :=
  match fs.fault .openRead path with
  | some e => .error (.sys "open" path e)
  | none =>
    match resolve fs path true with
    | .error e => .error (.sys "open" path e)
    | .ok (_, none) => .error (.sys "open" path .ENOENT)
    | .ok (k, some _) => .ok k

/-- Go `os.Create`: open for writing, following symbolic links; an absent file is
created with mode 0666 before umask, an existing one is truncated. -/
def osCreate (fs : FS) (path : String) : Except GoError Key × FS :=
  match fs.fault .create path with
  | some e => (.error (.sys "open" path e), fs)
  | none =>
    match resolve fs path true with
    | .error e => (.error (.sys "open" path e), fs)
    | .ok (k, none) => (.ok k, fs.put k (.file (applyUmask 0o666 fs.umask) []))
    | .ok (k, some (.file p _)) => (.ok k, fs.put k (.file p []))
    | .ok (_, some _) => (.error (.sys "open" path .EISDIR), fs)

/-- Go `io.Copy` between two open files: the whole content of the source is
written to the destination. Reading a directory fails. -/
def ioCopy (fs : FS) (dst src : Key) (srcPath : String) : Option GoError × FS :=
  match fs.fault .copy srcPath with
  | some e => (some (.sys "read" srcPath e), fs)
  | none =>
    match fs.get src, fs.get dst with
    | some (.file _ data), some (.file p _) => (none, fs.put dst (.file p data))
    | _, _ => (some (.sys "read" srcPath .EISDIR), fs)

/-- Go `os.Chmod`: set the permission bits of the object a path names, following
symbolic links. -/
def osChmod (fs : FS) (path : String) (perm : Nat) : Option GoError × FS :=
  match fs.fault .chmod path with
  | some e => (some (.sys "chmod" path e), fs)
  | none =>
    match resolve fs path true with
    | .error e => (some (.sys "chmod" path e), fs)
    | .ok (_, none) => (some (.sys "chmod" path .ENOENT), fs)
    | .ok (k, some (.file _ d)) => (none, fs.put k (.file perm d))
    | .ok (k, some (.dir _)) => (none, fs.put k (.dir perm))
    | .ok (_, some (.symlink _)) => (some (.sys "chmod" path .ELOOP), fs)

/-- A directory entry as returned by `os.ReadDir`. -/
structure DirEntry where
  name : String
  isDir : Bool
  deriving DecidableEq, Repr

/-- Go `os.ReadDir`: the entries of a directory, sorted by file name. -/
def osReadDir (fs : FS) (path : String) : Except GoError (List DirEntry) :=
  match fs.fault .readdir path with
  | some e => .error (.sys "open" path e)
  | none =>
    match resolve fs path true with
    | .error e => .error (.sys "open" path e)
    | .ok (_, none) => .error (.sys "open" path .ENOENT)
    | .ok (k, some (.dir _)) =>
      .ok ((fs.childNames k).map (fun n =>
        ⟨n, match fs.get (k ++ [n]) with
            | some (.dir _) => true
            | _ => false⟩))
    | .ok (_, some _) => .error (.sys "readdirent" path .ENOTDIR)

/-! ## `internal/config`: the configuration the engine is given -/

/-- Go `config.Resources`: which resources to sync, and how. -/
structure Resources where
  Symlink : List String
  Copy : List String
  deriving DecidableEq, Repr

/-- Go `config.Config`, the content of `.gwt.yml`. -/
structure Config where
  Resources : Resources
  WorktreePath : String
  Exclude : List String
  Hooks : List (String × String)
  deriving DecidableEq, Repr

/-! ## `internal/sync` -/

/-- Go `SyncMode`: how resources should be synced. -/
inductive SyncMode
  | SyncModeSymlink
  | SyncModeCopy
  deriving DecidableEq, Repr

/-- Go `SyncResult`: the result of a sync operation. -/
structure SyncResult where
  Resource : String
  Mode : String
  Success : Bool
  Error : Option GoError
  deriving DecidableEq, Repr

/-- Go `createSymlink`: link `dest` to the absolute form of `source`. -/
def createSymlink (fs : FS) (source dest : String) : Option GoError × FS :=
  match filepathAbs fs source with
  | .error err => (some (.wrap "failed to get absolute path" err), fs)
  | .ok absSource =>
    match osSymlink fs absSource dest with
    | (some err, fs1) => (some (.wrap "failed to create symlink" err), fs1)
    | (none, fs1) => (none, fs1)

/-- Go `copyFile`: open the source, create the destination, copy the content, then
give the destination the permission bits of the source. -/
def copyFile (fs : FS) (source dest : String) : Option GoError × FS :=
  match osOpen fs source with
  | .error err => (some (.wrap "failed to open source file" err), fs)
  | .ok sourceFile =>
    match osCreate fs dest with
    | (.error err, fs1) => (some (.wrap "failed to create destination file" err), fs1)
    | (.ok destFile, fs1) =>
      match ioCopy fs1 destFile sourceFile source with
      | (some err, fs2) => (some (.wrap "failed to copy file" err), fs2)
      | (none, fs2) =>
        match osStat fs2 source with
        | .error err => (some (.wrap "failed to stat source file" err), fs2)
        | .ok sourceInfo =>
          match osChmod fs2 dest sourceInfo.perm with
          | (some err, fs3) => (some (.wrap "failed to set permissions" err), fs3)
          | (none, fs3) => (none, fs3)

/-- The loop of `copyDir` over the directory entries, with the recursive call for
subdirectories passed in as `recur`. The first failure ends the loop. -/
def copyEntries (recur : FS → String → String → Option GoError × FS)
    (source dest : String) : List DirEntry → FS → Option GoError × FS
  | [], fs => (none, fs)
  | entry :: entries, fs =>
    let sourcePath := filepathJoin source entry.name
    let destPath := filepathJoin dest entry.name
    if entry.isDir then
      match recur fs sourcePath destPath with
      | (some err, fs1) => (some err, fs1)
      | (none, fs1) => copyEntries recur source dest entries fs1
    else
      match copyFile fs sourcePath destPath with
      | (some err, fs1) => (some err, fs1)
      | (none, fs1) => copyEntries recur source dest entries fs1

/-- Go `copyDir`: create the destination directory with the mode of the source,
then copy every entry, recursing into subdirectories. The first argument bounds
the depth of the recursion. Each level lengthens the destination path, and
`os.MkdirAll` refuses a path of `PATH_MAX` bytes, so the recursion ends by
itself before a bound that large is used up (`copyDir_fuel_irrelevant`); at the
bound the function reports that failure of `os.MkdirAll`. -/
def copyDir : Nat → FS → String → String → Option GoError × FS
  | 0, fs, _, dest =>
    (some (.wrap "failed to create destination directory"
      (.sys "mkdir" dest .ENAMETOOLONG)), fs)
  | fuel + 1, fs, source, dest =>
    match osStat fs source with
    | .error err => (some (.wrap "failed to stat source directory" err), fs)
    | .ok sourceInfo =>
      match osMkdirAll fs dest sourceInfo.perm with
      | (some err, fs1) => (some (.wrap "failed to create destination directory" err), fs1)
      | (none, fs1) =>
        match osReadDir fs1 source with
        | .error err => (some (.wrap "failed to read directory" err), fs1)
        | .ok entries => copyEntries (copyDir fuel) source dest entries fs1

/-- The recursion bound given to `copyDir` by `syncResource`. -/
def copyDepth : Nat := PATH_MAX + 2

/-- Go `syncResource`: sync one resource and report what was done. -/
def syncResource (fs : FS) (resource sourceDir destDir : String) (mode : SyncMode) :
    SyncResult × FS :=
  let sourcePath := filepathJoin sourceDir resource
  let destPath := filepathJoin destDir resource
  -- Check if source exists
  match osLstat fs sourcePath with
  | .error err =>
    if osIsNotExist (some err) then
      (⟨resource, "skip", false, some (.errorf ("source does not exist: " ++ resource))⟩, fs)
    else
      (⟨resource, "error", false, some (.wrap "failed to stat source" err)⟩, fs)
  | .ok sourceInfo =>
    -- Check if destination already exists
    match osLstat fs destPath with
    | .ok _ => (⟨resource, "exists", true, none⟩, fs)
    | .error _ =>
      -- Ensure parent directory exists
      let parentDir := filepathDir destPath
      match osMkdirAll fs parentDir 0o755 with
      | (some err, fs1) =>
        (⟨resource, "error", false, some (.wrap "failed to create parent directory" err)⟩, fs1)
      | (none, fs1) =>
        -- Perform sync based on mode
        if mode = .SyncModeSymlink then
          match createSymlink fs1 sourcePath destPath with
          | (some err, fs2) => (⟨resource, "symlink", false, some err⟩, fs2)
          | (none, fs2) => (⟨resource, "symlink", true, none⟩, fs2)
        else if sourceInfo.isDir then
          match copyDir copyDepth fs1 sourcePath destPath with
          | (some err, fs2) => (⟨resource, "copy", false, some err⟩, fs2)
          | (none, fs2) => (⟨resource, "copy", true, none⟩, fs2)
        else
          match copyFile fs1 sourcePath destPath with
          | (some err, fs2) => (⟨resource, "copy", false, some err⟩, fs2)
          | (none, fs2) => (⟨resource, "copy", true, none⟩, fs2)

/-- One `for _, resource := range ...` loop of `SyncResources`: sync every resource
of the list in order with the given mode, appending each result. -/
def syncLoop (sourceDir destDir : String) (mode : SyncMode) :
    List String → List SyncResult → FS → List SyncResult × FS
  | [], results, fs => (results, fs)
  | resource :: rest, results, fs =>
    let (result, fs1) := syncResource fs resource sourceDir destDir mode
    syncLoop sourceDir destDir mode rest (results ++ [result]) fs1

/-- Go `SyncResources`: synchronise resources from source to destination based on
the config. Returns the results and the (always nil) error, and the file system
left behind. -/
def SyncResources (fs : FS) (cfg : Config) (sourceDir destDir : String) (forceCopy : Bool) :
    (List SyncResult × Option GoError) × FS :=
  let results : List SyncResult := []
  -- Sync symlink resources
  let (results, fs1) :=
    if !forceCopy then
      syncLoop sourceDir destDir .SyncModeSymlink cfg.Resources.Symlink results fs
    else
      -- If force copy, treat symlink resources as copy
      syncLoop sourceDir destDir .SyncModeCopy cfg.Resources.Symlink results fs
  -- Sync copy resources
  let (results, fs2) := syncLoop sourceDir destDir .SyncModeCopy cfg.Resources.Copy results fs1
  ((results, none), fs2)

/-- The loop of `CheckSyncStatus`: the first resource whose destination `Lstat`
reports as not existing ends it with false. -/
def checkLoop (fs : FS) (destDir : String) : List String → Bool
  | [] => true
  | resource :: rest =>
    let destPath := filepathJoin destDir resource
    let err : Option GoError :=
      match osLstat fs destPath with
      | .ok _ => none
      | .error e => some e
    if osIsNotExist err then false else checkLoop fs destDir rest

/-- Go `CheckSyncStatus`: check if resources are synced in the destination. Returns
the answer and the (always nil) error; the source directory is not used. -/
def CheckSyncStatus (fs : FS) (cfg : Config) (_sourceDir destDir : String) :
    Bool × Option GoError :=
  -- Check all resources
  let allResources := cfg.Resources.Symlink ++ cfg.Resources.Copy
  (checkLoop fs destDir allResources, none)

/-! ## Relations between states -/

/-- Two objects of the same kind: both regular files, both directories, or both
symbolic links with the same target. -/
def Node.sameKind : Node → Node → Prop
  | .file _ _, .file _ _ => True
  | .dir _, .dir _ => True
  | .symlink t, .symlink u => t = u
  | _, _ => False

/-- The later state keeps every object of the earlier one, as an object of the same
kind, and the working directory: nothing was removed, renamed or retargeted. -/
def FS.Le (fs fs1 : FS) : Prop :=
  fs1.cwd = fs.cwd ∧
  ∀ k n, fs.get k = some n → ∃ n1, fs1.get k = some n1 ∧ n.sameKind n1

/-- Every symbolic link of the later state was already there in the earlier one. -/
def FS.NoNewLink (fs fs1 : FS) : Prop :=
  ∀ k t, fs1.get k = some (.symlink t) → fs.get k = some (.symlink t)

/-- The later state grew out of the earlier one without any new symbolic link. -/
def FS.LeCopy (fs fs1 : FS) : Prop :=
  fs.Le fs1 ∧ fs.NoNewLink fs1

/-! ## Example states -/

/-- An environment that injects no failure. -/
def noFault : Op → String → Option Errno := fun _ _ => none

/-- The main worktree `/main` holds `node_modules/` (mode 0775, with one file) and
`.env` (mode 0600); the new worktree `/wt` is empty; the umask is 022. -/
def exampleFS : FS :=
  ⟨[(["main"], .dir 0o755),
    (["main", "node_modules"], .dir 0o775),
    (["main", "node_modules", "a.js"], .file 0o644 [97]),
    (["main", ".env"], .file 0o600 [75, 61, 49]),
    (["wt"], .dir 0o755)],
   ["main"], 0o022, noFault⟩

/-- An environment in which nothing can be created under `/wt`. -/
def readOnlyDest : Op → String → Option Errno := fun op path =>
  if (op = .symlink ∨ op = .create ∨ op = .mkdir) ∧ (splitPath path).take 2 = ["", "wt"]
  then some .EROFS else none

/-- The example state with a destination that cannot be written to. -/
def readOnlyDestFS : FS := ⟨exampleFS.nodes, exampleFS.cwd, exampleFS.umask, readOnlyDest⟩

/-- An environment that refuses every change of permission bits. -/
def chmodRefused : Op → String → Option Errno := fun op _ =>
  if op = .chmod then some .EPERM else none

/-- The example state where permission bits cannot be changed. -/
def chmodRefusedFS : FS := ⟨exampleFS.nodes, exampleFS.cwd, exampleFS.umask, chmodRefused⟩

/-- The config of the example scenarios: link `node_modules`, copy `.env`. -/
def exampleCfg : Config := ⟨⟨["node_modules"], [".env"]⟩, "../{branch}", [], []⟩

/-- The example state with a `.env` of other content already in the destination. -/
def destHasEnvFS : FS :=
  ⟨(["wt", ".env"], .file 0o644 [79, 76, 68]) :: exampleFS.nodes,
   exampleFS.cwd, exampleFS.umask, noFault⟩

/-- A source tree without `node_modules`. -/
def noModulesFS : FS :=
  ⟨[(["main"], .dir 0o755),
    (["main", ".env"], .file 0o600 [75, 61, 49]),
    (["wt"], .dir 0o755)],
   ["main"], 0o022, noFault⟩

/-- The source has `config/master.key`; in the destination `config` is a regular
file, so nothing can exist below it. -/
def fileInTheWayFS : FS :=
  ⟨[(["main"], .dir 0o755),
    (["main", "config"], .dir 0o755),
    (["main", "config", "master.key"], .file 0o600 [107]),
    (["wt"], .dir 0o755),
    (["wt", "config"], .file 0o644 [])],
   ["main"], 0o022, noFault⟩

/-- A config that copies `config/master.key`. -/
def keyCfg : Config := ⟨⟨[], ["config/master.key"]⟩, "../{branch}", [], []⟩


/-- The default configuration as a value. -/
def defaultCfg : Config :=
  ⟨⟨["node_modules"], [".env"]⟩, "../{branch}", ["*.log", "tmp/*"], []⟩

/-- A Rails project that also has a `go.mod`. -/
def railsFS : FS :=
  ⟨[(["app"], .dir 0o755),
    (["app", "Gemfile"], .file 0o644 []),
    (["app", "config"], .dir 0o755),
    (["app", "config", "application.rb"], .file 0o644 []),
    (["app", "go.mod"], .file 0o644 [])],
   ["app"], 0o022, noFault⟩

/-! ## `SyncResources` as one sequence of jobs -/

/-- The resources of a config in the order in which `SyncResources` processes
them, each with the mode it is processed in: the symlink list (as copies when
`forceCopy` is set), then the copy list. -/
def syncJobs (cfg : Config) (forceCopy : Bool) : List (String × SyncMode) :=
  cfg.Resources.Symlink.map
    (fun r => (r, if forceCopy then SyncMode.SyncModeCopy else SyncMode.SyncModeSymlink)) ++
  cfg.Resources.Copy.map (fun r => (r, SyncMode.SyncModeCopy))

/-- Run `syncResource` on each job in order, threading the file system. It is what
the loops of `SyncResources` compute (`SyncResources_eq_runJobs`). -/
def runJobs (sourceDir destDir : String) : List (String × SyncMode) → FS → List SyncResult × FS
  | [], fs => ([], fs)
  | job :: rest, fs =>
    ((syncResource fs job.1 sourceDir destDir job.2).1 ::
        (runJobs sourceDir destDir rest
          (syncResource fs job.1 sourceDir destDir job.2).2).1,
      (runJobs sourceDir destDir rest (syncResource fs job.1 sourceDir destDir job.2).2).2)

/-! ## Cleaned paths -/

/-- An element that lexical cleaning keeps: not empty, not `.`, free of separators. -/
def IsElem (c : String) : Prop :=
  c ≠ "" ∧ c ≠ "." ∧ sepChar ∉ c.data

/-- A stack of kept elements, innermost first, as lexical cleaning leaves it: every
element is a kept element, and `..` occurs only in a relative path with nothing but
`..` outside it. -/
def CleanStack (rooted : Bool) : List String → Prop
  | [] => True
  | c :: below =>
    IsElem c ∧ CleanStack rooted below ∧ (c = ".." → rooted = false ∧ ∀ d ∈ below, d = "..")

/-- The length in bytes of a path as far as `copyDir` can lengthen it: `.` and the empty
path count as nothing. -/
def pathWeight (p : String) : Nat :=
  if p = "." then 0 else byteLen p

/-- A path string as `filepath.Join` returns it: empty or already clean. -/
def CleanOrEmpty (p : String) : Prop :=
  p = "" ∨ filepathClean p = p

/-! ## Go `strings` -/

/-- Go `strings.HasPrefix` on character sequences: whether `s` begins with `pre`. -/
def hasPrefixChars : List Char → List Char → Bool
  | _, [] => true
  | [], _ :: _ => false
  | c :: cs, p :: ps => decide (c = p) && hasPrefixChars cs ps

/-- Go `strings.HasPrefix`. -/
def stringsHasPrefix (s pre : String) : Bool :=
  hasPrefixChars s.data pre.data

/-- Go `strings.TrimPrefix`: `s` without the leading `pre`, or `s` itself when it
does not begin with `pre`. -/
def stringsTrimPrefix (s pre : String) : String :=
  if stringsHasPrefix s pre then String.mk (s.data.drop pre.data.length) else s

/-- Whether `old` occurs somewhere in a character sequence. -/
def containsChars : List Char → List Char → Bool
  | [], old => hasPrefixChars [] old
  | c :: cs, old => hasPrefixChars (c :: cs) old || containsChars cs old

/-- Go `strings.Contains`. -/
def stringsContains (s sub : String) : Bool :=
  containsChars s.data sub.data

/-- Replacement of every non-overlapping occurrence of a non-empty `old`, scanning
from the left. The counter is the number of characters still to be passed over as
part of the occurrence just replaced. -/
def replaceAllChars (old new : List Char) : Nat → List Char → List Char
  | _, [] => []
  | skip + 1, _ :: cs => replaceAllChars old new skip cs
  | 0, c :: cs =>
    if hasPrefixChars (c :: cs) old then new ++ replaceAllChars old new (old.length - 1) cs
    else c :: replaceAllChars old new 0 cs

/-- Go `strings.ReplaceAll`. An empty `old` matches before every character and at
the end. -/
def stringsReplaceAll (s old new : String) : String :=
  match old.data with
  | [] => String.mk (new.data ++ s.data.flatMap (fun c => c :: new.data))
  | _ :: _ => String.mk (replaceAllChars old.data new.data 0 s.data)

/-! ## `internal/config`: paths and templates -/

/-- A Go `*Config` result: `none` is the nil pointer. -/
abbrev ConfigPtr := Option Config

/-- Go `Config.ResolveWorktreePath`: resolve the worktree path with branch name
substitution. -/
def Config.ResolveWorktreePath (c : Config) (branchName : String) : String :=
  stringsReplaceAll c.WorktreePath "{branch}" branchName

/-- Go `GetDefaultConfig`: a default configuration. -/
def GetDefaultConfig : ConfigPtr :=
  some ⟨⟨["node_modules"], [".env"]⟩, "../{branch}", ["*.log", "tmp/*"], []⟩

/-- Go `ProjectType`, a string type. -/
abbrev ProjectType := String

/-- Go `ProjectTypeNode`. -/
def ProjectTypeNode : ProjectType := "node"

/-- Go `ProjectTypeRails`. -/
def ProjectTypeRails : ProjectType := "rails"

/-- Go `ProjectTypeGo`. -/
def ProjectTypeGo : ProjectType := "go"

/-- Go `ProjectTypeRust`. -/
def ProjectTypeRust : ProjectType := "rust"

/-- Go `ProjectTypeDefault`. -/
def ProjectTypeDefault : ProjectType := "default"

/-- Go `getNodeTemplate`. -/
def getNodeTemplate : ConfigPtr :=
  some ⟨⟨["node_modules", ".pnpm-store", "dist"], [".env", ".env.local"]⟩,
    "../{branch}", ["*.log", "tmp/*"], []⟩

/-- Go `getRailsTemplate`. -/
def getRailsTemplate : ConfigPtr :=
  some ⟨⟨["vendor", "node_modules", "tmp"], [".env", "config/master.key"]⟩,
    "../{branch}", ["*.log"], []⟩

/-- Go `getGoTemplate`. -/
def getGoTemplate : ConfigPtr :=
  some ⟨⟨["vendor"], [".env"]⟩, "../{branch}", ["*.log", "tmp/*"], []⟩

/-- Go `getRustTemplate`. -/
def getRustTemplate : ConfigPtr :=
  some ⟨⟨["target"], [".env"]⟩, "../{branch}", ["*.log", "tmp/*"], []⟩

/-- Go `GetTemplate`: a configuration template for the specified project type. -/
def GetTemplate (projectType : ProjectType) : ConfigPtr :=
  if projectType = ProjectTypeNode then getNodeTemplate
  else if projectType = ProjectTypeRails then getRailsTemplate
  else if projectType = ProjectTypeGo then getGoTemplate
  else if projectType = ProjectTypeRust then getRustTemplate
  else GetDefaultConfig

/-- Go `filepath.Join` of any number of elements: leading empty elements are
ignored, the rest are joined by the separator and cleaned; with no non-empty
element the result is empty. -/
def filepathJoinList : List String → String
  | [] => ""
  | e :: rest => if e = "" then filepathJoinList rest else filepathClean (joinSep (e :: rest))

/-- Go `fileExists` of `templates.go`: whether `os.Stat` finds the path. -/
def fileExists (fs : FS) (path : String) : Bool :=
  match osStat fs path with
  | .ok _ => true
  | .error _ => false

/-- Go `DetectProjectType`: detect the project type based on files in the
directory. -/
def DetectProjectType (fs : FS) (dir : String) : ProjectType :=
  -- Check for Node.js
  if fileExists fs (filepathJoinList [dir, "package.json"]) then ProjectTypeNode
  -- Check for Rails
  else if fileExists fs (filepathJoinList [dir, "Gemfile"]) &&
      fileExists fs (filepathJoinList [dir, "config", "application.rb"]) then ProjectTypeRails
  -- Check for Go
  else if fileExists fs (filepathJoinList [dir, "go.mod"]) then ProjectTypeGo
  -- Check for Rust
  else if fileExists fs (filepathJoinList [dir, "Cargo.toml"]) then ProjectTypeRust
  else ProjectTypeDefault

/-! ## `internal/cli`: the worktree path of `create` -/

/-- Go `filepath.IsAbs` on Unix: the path begins with the separator. -/
def filepathIsAbs (path : String) : Bool :=
  isRooted path

/-- Go `filepath.Base`: the last element of the path, trailing separators removed;
`.` for the empty path and the separator for a path of separators only. -/
def filepathBase (path : String) : String :=
  if path = "" then "."
  else
    match (splitPath path).reverse.dropWhile (fun c => decide (c = "")) with
    | [] => "/"
    | c :: _ => c

/-- The worktree path that Go `runCreate` computes from the current directory, the
`--path` flag, the loaded config and the branch name ("Resolve worktree path" and
"Make path absolute if it's relative"). -/
def runCreateWorktreePath (currentDir path : String) (cfg : Config) (branchName : String) :
    String :=
  -- Resolve worktree path
  let worktreePath := if path ≠ "" then path else cfg.ResolveWorktreePath branchName
  -- Make path absolute if it's relative
  if !filepathIsAbs worktreePath then
    filepathJoin (filepathDir currentDir) (filepathBase worktreePath)
  else worktreePath

/-! ## `internal/git`: parsing `git worktree list --porcelain`

`strings.TrimSpace` and `strings.Split` of the Go library, the `Worktree` struct, and
`parseWorktreeList` of `worktree.go`. The loop over the lines is a left fold of
`parseLine` over the state of the loop: the slice `worktrees` and the pointer
`current` (`none` for nil). -/

/-- White space as `unicode.IsSpace` defines it. -/
def isSpace (c : Char) : Bool :=
  let n := c.toNat
  (0x09 ≤ n && n ≤ 0x0D) || n = 0x20 || n = 0x85 || n = 0xA0 || n = 0x1680 ||
  (0x2000 ≤ n && n ≤ 0x200A) || n = 0x2028 || n = 0x2029 || n = 0x202F ||
  n = 0x205F || n = 0x3000

def trimSpaceChars (l : List Char) : List Char :=
  ((l.dropWhile isSpace).reverse.dropWhile isSpace).reverse

/-- `strings.TrimSpace`. -/
def stringsTrimSpace (s : String) : String := String.mk (trimSpaceChars s.data)

/-- Pieces of a text between the non-overlapping occurrences of a non-empty
separator, found from the left; the counter skips the rest of a separator just
found. -/
def splitOnChars (sep : List Char) : Nat → List Char → List (List Char)
  | _, [] => [[]]
  | skip + 1, _ :: cs => splitOnChars sep skip cs
  | 0, c :: cs =>
    if hasPrefixChars (c :: cs) sep then [] :: splitOnChars sep (sep.length - 1) cs
    else
      match splitOnChars sep 0 cs with
      | [] => [[c]]
      | p :: ps => (c :: p) :: ps

/-- `strings.Split`: with an empty separator the text is cut into its characters. -/
def stringsSplit (s sep : String) : List String :=
  match sep.data with
  | [] => s.data.map (fun c => String.mk [c])
  | _ :: _ => (splitOnChars sep.data 0 s.data).map String.mk

structure Worktree where
  Path : String
  Branch : String
  IsMain : Bool
deriving DecidableEq, Repr

/-- One turn of the loop of `parseWorktreeList`. -/
def parseLine (st : List Worktree × Option Worktree) (rawLine : String) :
    List Worktree × Option Worktree :=
  let line := stringsTrimSpace rawLine
  if line = "" then
    match st.2 with
    | some current => (st.1 ++ [current], none)
    | none => st
  else if stringsHasPrefix line "worktree " then
    match st.2 with
    | some current => (st.1 ++ [current], some ⟨stringsTrimPrefix line "worktree ", "", false⟩)
    | none => (st.1, some ⟨stringsTrimPrefix line "worktree ", "", false⟩)
  else if stringsHasPrefix line "branch " then
    match st.2 with
    | some current =>
      match (stringsSplit (stringsTrimPrefix line "branch ") "/").getLast? with
      | some name => (st.1, some ⟨current.Path, name, current.IsMain⟩)
      | none => st
    | none => st
  else if stringsHasPrefix line "bare" then
    match st.2 with
    | some current => (st.1, some ⟨current.Path, current.Branch, true⟩)
    | none => st
  else st

def parseWorktreeList (output : String) : List Worktree :=
  let lines := stringsSplit (stringsTrimSpace output) "\n"
  let st := lines.foldl parseLine ([], none)
  let worktrees :=
    match st.2 with
    | some current => st.1 ++ [current]
    | none => st.1
  match worktrees with
  | [] => []
  | first :: rest =>
    if !first.IsMain then ⟨first.Path, first.Branch, true⟩ :: rest else first :: rest

/-! ### Porcelain texts -/

/-- One block of the porcelain output: the path of its `worktree` line and the
lines that follow it. -/
structure Block where
  path : String
  attrs : List String
deriving DecidableEq, Repr

def Block.lines (b : Block) : List String := ("worktree " ++ b.path) :: b.attrs

/-- The lines of a sequence of blocks, one blank line between two blocks. -/
def porcelainLines : List Block → List String
  | [] => []
  | [b] => b.lines
  | b :: c :: rest => b.lines ++ "" :: porcelainLines (c :: rest)

/-- Lines joined by a newline between each two. -/
def joinLines : List String → String
  | [] => ""
  | [l] => l
  | l :: m :: rest => l ++ "\n" ++ joinLines (m :: rest)

/-- The porcelain text of a sequence of blocks, followed by a trailer. -/
def porcelain (blocks : List Block) (trailer : String) : String :=
  joinLines (porcelainLines blocks) ++ trailer

/-- A line as the parser expects it after a `worktree` line: not blank, no white
space at either end, no newline, and not starting another worktree or marking a
bare repository. -/
def attrLine (a : String) : Bool :=
  decide (a ≠ "") && decide (stringsTrimSpace a = a) && !a.data.contains '\n' &&
  !stringsHasPrefix a "worktree " && !stringsHasPrefix a "bare"

/-- A path as the `worktree` line carries it: not empty, no white space at either
end, no newline. -/
def pathText (p : String) : Bool :=
  decide (p ≠ "") && decide (stringsTrimSpace p = p) && !p.data.contains '\n'

def Block.wellFormed (b : Block) : Bool := pathText b.path && b.attrs.all attrLine

/-- The output of `git worktree list --porcelain` for a main worktree and one
linked worktree on the branch `feature/login`. -/
def exampleBlocks : List Block :=
  [⟨"/repo/main", ["HEAD 1111111111111111111111111111111111111111", "branch refs/heads/main"]⟩,
   ⟨"/repo/login", ["HEAD 2222222222222222222222222222222222222222",
      "branch refs/heads/feature/login"]⟩]

/-! ## Theorems -/

/-! ### Every failure of an operation has a system-call error at its root -/

theorem rootCause_sys (op path : String) (e : Errno) :
    (GoError.sys op path e).rootCause.isSome = true := rfl

theorem rootCause_wrap (msg : String) (c : GoError) (h : c.rootCause.isSome = true) :
    (GoError.wrap msg c).rootCause.isSome = true := by
  simpa [GoError.rootCause] using h

theorem osMkdir_error_cause (fs : FS) (path : String) (perm : Nat) (err : GoError) (fs1 : FS)
    (h : osMkdir fs path perm = (some err, fs1)) : err.rootCause.isSome = true := by
  unfold osMkdir at h
  split at h
  · cases h; rfl
  · split at h
    · cases h; rfl
    · cases h; rfl
    · cases h

theorem mkdirAllChain_error_cause (perm : Nat) (chain : List String) (fs : FS) (err : GoError)
    (fs1 : FS) (h : mkdirAllChain perm chain fs = (some err, fs1)) :
    err.rootCause.isSome = true := by
  induction chain generalizing fs err fs1 with
  | nil => cases h
  | cons path parents ih =>
    unfold mkdirAllChain at h
    split at h
    · split at h
      · cases h
      · cases h; rfl
    · split at h
      · rename_i err1 fs2 heq
        cases h
        exact ih fs _ _ heq
      · split at h
        · cases h
        · rename_i err2 fs3 hmk
          have hc := osMkdir_error_cause _ _ _ _ _ hmk
          split at h
          · split at h
            · cases h
            · cases h; exact hc
          · cases h; exact hc

theorem osMkdirAll_error_cause (fs : FS) (path : String) (perm : Nat) (err : GoError) (fs1 : FS)
    (h : osMkdirAll fs path perm = (some err, fs1)) : err.rootCause.isSome = true := by
  exact mkdirAllChain_error_cause _ _ _ _ _ h

theorem osSymlink_error_cause (fs : FS) (target path : String) (err : GoError) (fs1 : FS)
    (h : osSymlink fs target path = (some err, fs1)) : err.rootCause.isSome = true := by
  unfold osSymlink at h
  split at h
  · cases h; rfl
  · split at h
    · cases h; rfl
    · split at h
      · cases h; rfl
      · split at h
        · cases h; rfl
        · cases h; rfl
        · cases h

theorem osGetwd_error_cause (fs : FS) (err : GoError)
    (h : osGetwd fs = .error err) : err.rootCause.isSome = true := by
  unfold osGetwd at h
  split at h
  · cases h; rfl
  · cases h

theorem filepathAbs_error_cause (fs : FS) (path : String) (err : GoError)
    (h : filepathAbs fs path = .error err) : err.rootCause.isSome = true := by
  unfold filepathAbs at h
  split at h
  · cases h
  · split at h
    · rename_i e he
      cases h
      exact osGetwd_error_cause _ _ he
    · cases h

theorem createSymlink_error_cause (fs : FS) (source dest : String) (err : GoError) (fs1 : FS)
    (h : createSymlink fs source dest = (some err, fs1)) : err.rootCause.isSome = true := by
  unfold createSymlink at h
  split at h
  · rename_i e habs
    cases h
    exact rootCause_wrap _ _ (filepathAbs_error_cause _ _ _ habs)
  · split at h
    · rename_i e fs2 hs
      cases h
      exact rootCause_wrap _ _ (osSymlink_error_cause _ _ _ _ _ hs)
    · cases h

theorem osOpen_error_cause (fs : FS) (path : String) (err : GoError)
    (h : osOpen fs path = .error err) : err.rootCause.isSome = true := by
  unfold osOpen at h
  split at h
  · cases h; rfl
  · split at h
    · cases h; rfl
    · cases h; rfl
    · cases h

theorem osCreate_error_cause (fs : FS) (path : String) (err : GoError) (fs1 : FS)
    (h : osCreate fs path = (.error err, fs1)) : err.rootCause.isSome = true := by
  unfold osCreate at h
  split at h
  · cases h; rfl
  · split at h
    · cases h; rfl
    · cases h
    · cases h
    · cases h; rfl

theorem ioCopy_error_cause (fs : FS) (dst src : Key) (p : String) (err : GoError) (fs1 : FS)
    (h : ioCopy fs dst src p = (some err, fs1)) : err.rootCause.isSome = true := by
  unfold ioCopy at h
  split at h
  · cases h; rfl
  · split at h
    · cases h
    · cases h; rfl

theorem osStat_error_cause (fs : FS) (path : String) (err : GoError)
    (h : osStat fs path = .error err) : err.rootCause.isSome = true := by
  unfold osStat at h
  split at h
  · cases h; rfl
  · cases h; rfl
  · cases h

theorem osChmod_error_cause (fs : FS) (path : String) (perm : Nat) (err : GoError) (fs1 : FS)
    (h : osChmod fs path perm = (some err, fs1)) : err.rootCause.isSome = true := by
  unfold osChmod at h
  split at h
  · cases h; rfl
  · split at h
    · cases h; rfl
    · cases h; rfl
    · cases h
    · cases h
    · cases h; rfl

theorem osReadDir_error_cause (fs : FS) (path : String) (err : GoError)
    (h : osReadDir fs path = .error err) : err.rootCause.isSome = true := by
  unfold osReadDir at h
  split at h
  · cases h; rfl
  · split at h
    · cases h; rfl
    · cases h; rfl
    · cases h
    · cases h; rfl

theorem copyFile_error_cause (fs : FS) (source dest : String) (err : GoError) (fs1 : FS)
    (h : copyFile fs source dest = (some err, fs1)) : err.rootCause.isSome = true := by
  unfold copyFile at h
  split at h
  · rename_i e he; cases h
    exact rootCause_wrap _ _ (osOpen_error_cause _ _ _ he)
  · split at h
    · rename_i e fs2 he; cases h
      exact rootCause_wrap _ _ (osCreate_error_cause _ _ _ _ he)
    · split at h
      · rename_i e fs2 he; cases h
        exact rootCause_wrap _ _ (ioCopy_error_cause _ _ _ _ _ _ he)
      · split at h
        · rename_i e he; cases h
          exact rootCause_wrap _ _ (osStat_error_cause _ _ _ he)
        · split at h
          · rename_i e fs2 he; cases h
            exact rootCause_wrap _ _ (osChmod_error_cause _ _ _ _ _ he)
          · cases h

theorem copyEntries_error_cause (recur : FS → String → String → Option GoError × FS)
    (hrec : ∀ fs s d err fs1, recur fs s d = (some err, fs1) → err.rootCause.isSome = true)
    (source dest : String) (entries : List DirEntry) (fs : FS) (err : GoError) (fs1 : FS)
    (h : copyEntries recur source dest entries fs = (some err, fs1)) :
    err.rootCause.isSome = true := by
  induction entries generalizing fs with
  | nil => cases h
  | cons entry rest ih =>
    unfold copyEntries at h
    simp only [] at h
    split at h
    · split at h
      · rename_i e fs2 he; cases h
        exact hrec _ _ _ _ _ he
      · exact ih _ h
    · split at h
      · rename_i e fs2 he; cases h
        exact copyFile_error_cause _ _ _ _ _ he
      · exact ih _ h

theorem copyDir_error_cause (fuel : Nat) (fs : FS) (source dest : String) (err : GoError)
    (fs1 : FS) (h : copyDir fuel fs source dest = (some err, fs1)) :
    err.rootCause.isSome = true := by
  induction fuel generalizing fs source dest err fs1 with
  | zero => unfold copyDir at h; cases h; rfl
  | succ n ih =>
    unfold copyDir at h
    split at h
    · rename_i e he; cases h
      exact rootCause_wrap _ _ (osStat_error_cause _ _ _ he)
    · split at h
      · rename_i e fs2 he; cases h
        exact rootCause_wrap _ _ (osMkdirAll_error_cause _ _ _ _ _ he)
      · split at h
        · rename_i e he; cases h
          exact rootCause_wrap _ _ (osReadDir_error_cause _ _ _ he)
        · exact copyEntries_error_cause _ (fun _ _ _ _ _ hh => ih _ _ _ _ _ hh) _ _ _ _ _ _ h

/-! ### Operations only extend the state -/

theorem Node.sameKind_refl (n : Node) : n.sameKind n := by
  cases n <;> simp [Node.sameKind]

theorem Node.sameKind_trans {a b c : Node} (h1 : a.sameKind b) (h2 : b.sameKind c) :
    a.sameKind c := by
  cases a <;> cases b <;> cases c <;> simp_all [Node.sameKind]

theorem FS.Le.le_refl (fs : FS) : fs.Le fs :=
  ⟨rfl, fun _ n h => ⟨n, h, Node.sameKind_refl n⟩⟩

theorem FS.Le.le_trans {a b c : FS} (h1 : a.Le b) (h2 : b.Le c) : a.Le c := by
  refine ⟨h2.1.trans h1.1, fun k n h => ?_⟩
  obtain ⟨n1, hn1, hk1⟩ := h1.2 k n h
  obtain ⟨n2, hn2, hk2⟩ := h2.2 k n1 hn1
  exact ⟨n2, hn2, Node.sameKind_trans hk1 hk2⟩

theorem FS.NoNewLink.link_refl (fs : FS) : fs.NoNewLink fs := fun _ _ h => h

theorem FS.NoNewLink.link_trans {a b c : FS} (h1 : a.NoNewLink b) (h2 : b.NoNewLink c) :
    a.NoNewLink c := fun k t h => h1 k t (h2 k t h)

theorem FS.LeCopy.copy_refl (fs : FS) : fs.LeCopy fs := ⟨FS.Le.le_refl fs, FS.NoNewLink.link_refl fs⟩

theorem FS.LeCopy.copy_trans {a b c : FS} (h1 : a.LeCopy b) (h2 : b.LeCopy c) : a.LeCopy c :=
  ⟨h1.1.le_trans h2.1, h1.2.link_trans h2.2⟩

theorem FS.get_put (fs : FS) (k : Key) (n : Node) (k1 : Key) :
    (fs.put k n).get k1 = if k1 = [] then some (.dir 0o755)
      else if k = k1 then some n else fs.get k1 := by
  cases k1 with
  | nil => simp [FS.get]
  | cons a as => simp [FS.get, FS.put, assoc]

theorem FS.get_nil (fs : FS) : fs.get [] = some (.dir 0o755) := rfl

theorem FS.put_Le (fs : FS) (k : Key) (n : Node)
    (h : ∀ n0, fs.get k = some n0 → n0.sameKind n) : fs.Le (fs.put k n) := by
  refine ⟨rfl, fun k1 n1 h1 => ?_⟩
  rw [FS.get_put]
  by_cases hk1 : k1 = []
  · subst hk1
    rw [FS.get_nil] at h1
    cases h1
    exact ⟨.dir 0o755, by simp, by simp [Node.sameKind]⟩
  · simp only [hk1, if_false]
    by_cases hk : k = k1
    · subst hk
      exact ⟨n, by simp, h _ h1⟩
    · exact ⟨n1, by simp [hk, h1], Node.sameKind_refl _⟩

theorem FS.put_NoNewLink (fs : FS) (k : Key) (n : Node) (h : ∀ t, n ≠ .symlink t) :
    fs.NoNewLink (fs.put k n) := by
  intro k1 t h1
  rw [FS.get_put] at h1
  by_cases hk1 : k1 = []
  · simp [hk1] at h1
  · simp only [hk1, if_false] at h1
    by_cases hk : k = k1
    · simp only [hk, if_true, Option.some.injEq] at h1
      exact absurd h1 (h t)
    · simpa [hk] using h1

theorem FS.put_LeCopy (fs : FS) (k : Key) (n : Node)
    (h : ∀ n0, fs.get k = some n0 → n0.sameKind n) (hn : ∀ t, n ≠ .symlink t) :
    fs.LeCopy (fs.put k n) := ⟨FS.put_Le fs k n h, FS.put_NoNewLink fs k n hn⟩

theorem walkSeg_get (fs : FS) (cur : Key) (cs : List String) (follow : Bool)
    (k : Key) (obj : Option Node) (h : walkSeg fs cur cs follow = .ok (.done k obj)) :
    fs.get k = obj := by
  induction cs generalizing cur with
  | nil =>
    simp only [walkSeg, Except.ok.injEq, WalkStep.done.injEq] at h
    rw [← h.1]; exact h.2
  | cons c rest ih =>
    simp only [walkSeg] at h
    split at h
    · exact ih _ h
    · split at h
      · exact ih _ h
      · split at h
        · cases h
        · split at h
          · rename_i hg
            split at h
            · simp only [Except.ok.injEq, WalkStep.done.injEq] at h
              rw [← h.1, ← h.2]; exact hg
            · cases h
          · rename_i p hg
            split at h
            · simp only [Except.ok.injEq, WalkStep.done.injEq] at h
              rw [← h.1, ← h.2]; exact hg
            · exact ih _ h
          · rename_i p d hg
            split at h
            · simp only [Except.ok.injEq, WalkStep.done.injEq] at h
              rw [← h.1, ← h.2]; exact hg
            · cases h
          · rename_i t hg
            split at h
            · simp only [Except.ok.injEq, WalkStep.done.injEq] at h
              rw [← h.1, ← h.2]; exact hg
            · split at h <;> cases h

theorem walk_get (fs : FS) (links : Nat) (cur : Key) (cs : List String) (follow : Bool)
    (k : Key) (obj : Option Node) (h : walk fs links cur cs follow = .ok (k, obj)) :
    fs.get k = obj := by
  induction links generalizing cur cs with
  | zero =>
    simp only [walk] at h
    split at h
    · cases h
    · rename_i k1 obj1 hs
      simp only [Except.ok.injEq, Prod.mk.injEq] at h
      rw [← h.1, ← h.2]
      exact walkSeg_get _ _ _ _ _ _ hs
    · cases h
  | succ l ih =>
    simp only [walk] at h
    split at h
    · cases h
    · rename_i k1 obj1 hs
      simp only [Except.ok.injEq, Prod.mk.injEq] at h
      rw [← h.1, ← h.2]
      exact walkSeg_get _ _ _ _ _ _ hs
    · exact ih _ _ h

theorem resolve_get (fs : FS) (path : String) (follow : Bool) (k : Key) (obj : Option Node)
    (h : resolve fs path follow = .ok (k, obj)) : fs.get k = obj := by
  unfold resolve at h
  split at h
  · cases h
  · split at h
    · cases h
    · split at h
      · exact walk_get _ _ _ _ _ _ _ h
      · split at h
        · exact walk_get _ _ _ _ _ _ _ h
        · cases h

theorem osMkdir_LeCopy (fs : FS) (path : String) (perm : Nat) :
    fs.LeCopy (osMkdir fs path perm).2 := by
  unfold osMkdir
  split
  · exact FS.LeCopy.copy_refl fs
  · split
    · exact FS.LeCopy.copy_refl fs
    · exact FS.LeCopy.copy_refl fs
    · rename_i k hr
      have hg := resolve_get _ _ _ _ _ hr
      exact FS.put_LeCopy _ _ _ (fun n0 h0 => by rw [hg] at h0; cases h0) (fun t => by simp)

theorem osSymlink_Le (fs : FS) (target path : String) :
    fs.Le (osSymlink fs target path).2 := by
  unfold osSymlink
  split
  · exact FS.Le.le_refl fs
  · split
    · exact FS.Le.le_refl fs
    · split
      · exact FS.Le.le_refl fs
      · split
        · exact FS.Le.le_refl fs
        · exact FS.Le.le_refl fs
        · rename_i k hr
          have hg := resolve_get _ _ _ _ _ hr
          exact FS.put_Le _ _ _ (fun n0 h0 => by rw [hg] at h0; cases h0)

theorem osCreate_LeCopy (fs : FS) (path : String) : fs.LeCopy (osCreate fs path).2 := by
  unfold osCreate
  split
  · exact FS.LeCopy.copy_refl fs
  · split
    · exact FS.LeCopy.copy_refl fs
    · rename_i k hr
      have hg := resolve_get _ _ _ _ _ hr
      exact FS.put_LeCopy _ _ _ (fun n0 h0 => by rw [hg] at h0; cases h0) (fun t => by simp)
    · rename_i k p d hr
      have hg := resolve_get _ _ _ _ _ hr
      exact FS.put_LeCopy _ _ _
        (fun n0 h0 => by rw [hg] at h0; cases h0; simp [Node.sameKind]) (fun t => by simp)
    · exact FS.LeCopy.copy_refl fs

theorem ioCopy_LeCopy (fs : FS) (dst src : Key) (srcPath : String) :
    fs.LeCopy (ioCopy fs dst src srcPath).2 := by
  unfold ioCopy
  split
  · exact FS.LeCopy.copy_refl fs
  · split
    · rename_i p0 data p d hs hd
      exact FS.put_LeCopy _ _ _
        (fun n0 h0 => by rw [hd] at h0; cases h0; simp [Node.sameKind]) (fun t => by simp)
    · exact FS.LeCopy.copy_refl fs

theorem osChmod_LeCopy (fs : FS) (path : String) (perm : Nat) :
    fs.LeCopy (osChmod fs path perm).2 := by
  unfold osChmod
  split
  · exact FS.LeCopy.copy_refl fs
  · split
    · exact FS.LeCopy.copy_refl fs
    · exact FS.LeCopy.copy_refl fs
    · rename_i k p d hr
      have hg := resolve_get _ _ _ _ _ hr
      exact FS.put_LeCopy _ _ _
        (fun n0 h0 => by rw [hg] at h0; cases h0; simp [Node.sameKind]) (fun t => by simp)
    · rename_i k p hr
      have hg := resolve_get _ _ _ _ _ hr
      exact FS.put_LeCopy _ _ _
        (fun n0 h0 => by rw [hg] at h0; cases h0; simp [Node.sameKind]) (fun t => by simp)
    · exact FS.LeCopy.copy_refl fs

theorem mkdirAllChain_LeCopy (perm : Nat) (chain : List String) (fs : FS) :
    fs.LeCopy (mkdirAllChain perm chain fs).2 := by
  induction chain generalizing fs with
  | nil => exact FS.LeCopy.copy_refl fs
  | cons path parents ih =>
    unfold mkdirAllChain
    split
    · split <;> exact FS.LeCopy.copy_refl fs
    · have h1 := ih fs
      split
      · rename_i err fs1 heq
        rw [heq] at h1; exact h1
      · rename_i fs1 heq
        rw [heq] at h1
        have h2 := osMkdir_LeCopy fs1 path perm
        split
        · rename_i fs2 hmk
          rw [hmk] at h2; exact h1.copy_trans h2
        · rename_i err fs2 hmk
          rw [hmk] at h2
          have h3 := h1.copy_trans h2
          split
          · split <;> exact h3
          · exact h3

theorem osMkdirAll_LeCopy (fs : FS) (path : String) (perm : Nat) :
    fs.LeCopy (osMkdirAll fs path perm).2 :=
  mkdirAllChain_LeCopy _ _ _

theorem copyFile_LeCopy (fs : FS) (source dest : String) :
    fs.LeCopy (copyFile fs source dest).2 := by
  unfold copyFile
  split
  · exact FS.LeCopy.copy_refl fs
  · rename_i sourceFile hopen
    have h1 := osCreate_LeCopy fs dest
    split
    · rename_i err fs1 hc
      rw [hc] at h1; exact h1
    · rename_i destFile fs1 hc
      rw [hc] at h1
      have h2 := ioCopy_LeCopy fs1 destFile sourceFile source
      split
      · rename_i err fs2 hio
        rw [hio] at h2; exact h1.copy_trans h2
      · rename_i fs2 hio
        rw [hio] at h2
        split
        · exact h1.copy_trans h2
        · rename_i sourceInfo hst
          have h3 := osChmod_LeCopy fs2 dest sourceInfo.perm
          split
          · rename_i err fs3 hch
            rw [hch] at h3; exact (h1.copy_trans h2).copy_trans h3
          · rename_i fs3 hch
            rw [hch] at h3; exact (h1.copy_trans h2).copy_trans h3

theorem copyEntries_LeCopy (recur : FS → String → String → Option GoError × FS)
    (hrec : ∀ (fs : FS) (s d : String), fs.LeCopy (recur fs s d).2)
    (source dest : String) (entries : List DirEntry) (fs : FS) :
    fs.LeCopy (copyEntries recur source dest entries fs).2 := by
  induction entries generalizing fs with
  | nil => exact FS.LeCopy.copy_refl fs
  | cons entry rest ih =>
    unfold copyEntries
    simp only []
    split
    · have h1 := hrec fs (filepathJoin source entry.name) (filepathJoin dest entry.name)
      split
      · rename_i err fs1 heq
        rw [heq] at h1; exact h1
      · rename_i fs1 heq
        rw [heq] at h1; exact h1.copy_trans (ih fs1)
    · have h1 := copyFile_LeCopy fs (filepathJoin source entry.name)
        (filepathJoin dest entry.name)
      split
      · rename_i err fs1 heq
        rw [heq] at h1; exact h1
      · rename_i fs1 heq
        rw [heq] at h1; exact h1.copy_trans (ih fs1)

theorem copyDir_LeCopy (fuel : Nat) (fs : FS) (source dest : String) :
    fs.LeCopy (copyDir fuel fs source dest).2 := by
  induction fuel generalizing fs source dest with
  | zero => exact FS.LeCopy.copy_refl fs
  | succ n ih =>
    unfold copyDir
    split
    · exact FS.LeCopy.copy_refl fs
    · rename_i sourceInfo hst
      have h1 := osMkdirAll_LeCopy fs dest sourceInfo.perm
      split
      · rename_i err fs1 heq
        rw [heq] at h1; exact h1
      · rename_i fs1 heq
        rw [heq] at h1
        split
        · exact h1
        · exact h1.copy_trans (copyEntries_LeCopy _ (fun _ _ _ => ih _ _ _) _ _ _ _)

theorem createSymlink_Le (fs : FS) (source dest : String) :
    fs.Le (createSymlink fs source dest).2 := by
  unfold createSymlink
  split
  · exact FS.Le.le_refl fs
  · rename_i absSource habs
    have h1 := osSymlink_Le fs absSource dest
    split
    · rename_i err fs1 heq
      rw [heq] at h1; exact h1
    · rename_i fs1 heq
      rw [heq] at h1; exact h1

theorem syncResource_Le (fs : FS) (resource sourceDir destDir : String) (mode : SyncMode) :
    fs.Le (syncResource fs resource sourceDir destDir mode).2 := by
  unfold syncResource
  simp only []
  split
  · split <;> exact FS.Le.le_refl fs
  · split
    · exact FS.Le.le_refl fs
    · have h1 := (osMkdirAll_LeCopy fs (filepathDir (filepathJoin destDir resource)) 0o755).1
      split
      · rename_i err fs1 heq
        rw [heq] at h1; exact h1
      · rename_i fs1 heq
        rw [heq] at h1
        split
        · have h2 := createSymlink_Le fs1 (filepathJoin sourceDir resource)
            (filepathJoin destDir resource)
          split
          · rename_i err fs2 hs
            rw [hs] at h2; exact h1.le_trans h2
          · rename_i fs2 hs
            rw [hs] at h2; exact h1.le_trans h2
        · split
          · have h2 := (copyDir_LeCopy copyDepth fs1 (filepathJoin sourceDir resource)
              (filepathJoin destDir resource)).1
            split
            · rename_i err fs2 hs
              rw [hs] at h2; exact h1.le_trans h2
            · rename_i fs2 hs
              rw [hs] at h2; exact h1.le_trans h2
          · have h2 := (copyFile_LeCopy fs1 (filepathJoin sourceDir resource)
              (filepathJoin destDir resource)).1
            split
            · rename_i err fs2 hs
              rw [hs] at h2; exact h1.le_trans h2
            · rename_i fs2 hs
              rw [hs] at h2; exact h1.le_trans h2

theorem syncResource_copy_NoNewLink (fs : FS) (resource sourceDir destDir : String) :
    fs.NoNewLink (syncResource fs resource sourceDir destDir .SyncModeCopy).2 := by
  unfold syncResource
  simp only []
  split
  · split <;> exact FS.NoNewLink.link_refl fs
  · split
    · exact FS.NoNewLink.link_refl fs
    · have h1 := (osMkdirAll_LeCopy fs (filepathDir (filepathJoin destDir resource)) 0o755).2
      split
      · rename_i err fs1 heq
        rw [heq] at h1; exact h1
      · rename_i fs1 heq
        rw [heq] at h1
        simp only [reduceCtorEq, if_false]
        split
        · have h2 := (copyDir_LeCopy copyDepth fs1 (filepathJoin sourceDir resource)
            (filepathJoin destDir resource)).2
          split
          · rename_i err fs2 hs
            rw [hs] at h2; exact h1.link_trans h2
          · rename_i fs2 hs
            rw [hs] at h2; exact h1.link_trans h2
        · have h2 := (copyFile_LeCopy fs1 (filepathJoin sourceDir resource)
            (filepathJoin destDir resource)).2
          split
          · rename_i err fs2 hs
            rw [hs] at h2; exact h1.link_trans h2
          · rename_i fs2 hs
            rw [hs] at h2; exact h1.link_trans h2

theorem syncLoop_Le (s d : String) (m : SyncMode) (rs : List String) (acc : List SyncResult)
    (fs : FS) : fs.Le (syncLoop s d m rs acc fs).2 := by
  induction rs generalizing acc fs with
  | nil => exact FS.Le.le_refl fs
  | cons r rest ih =>
    simp only [syncLoop]
    exact (syncResource_Le fs r s d m).le_trans (ih _ _)

theorem syncLoop_copy_NoNewLink (s d : String) (rs : List String) (acc : List SyncResult)
    (fs : FS) : fs.NoNewLink (syncLoop s d .SyncModeCopy rs acc fs).2 := by
  induction rs generalizing acc fs with
  | nil => exact FS.NoNewLink.link_refl fs
  | cons r rest ih =>
    simp only [syncLoop]
    exact (syncResource_copy_NoNewLink fs r s d).link_trans (ih _ _)

/-! ### Path resolution in an extended state -/

theorem walkSeg_mono_done {fs fs1 : FS} (hle : fs.Le fs1) (cur : Key) (cs : List String)
    (follow : Bool) (k : Key) (n : Node)
    (h : walkSeg fs cur cs follow = .ok (.done k (some n))) :
    ∃ n1, walkSeg fs1 cur cs follow = .ok (.done k (some n1)) ∧ n.sameKind n1 := by
  induction cs generalizing cur with
  | nil =>
    simp only [walkSeg, Except.ok.injEq, WalkStep.done.injEq] at h
    obtain ⟨n1, hn1, hk⟩ := hle.2 cur n h.2
    obtain ⟨hcur, _⟩ := h
    subst hcur
    exact ⟨n1, by simp [walkSeg, hn1], hk⟩
  | cons c rest ih =>
    simp only [walkSeg] at h ⊢
    split at h
    · rename_i hc
      rw [if_pos hc]
      exact ih _ h
    · rename_i hc
      rw [if_neg hc]
      split at h
      · rename_i hc2
        rw [if_pos hc2]
        exact ih _ h
      · rename_i hc2
        rw [if_neg hc2]
        split at h
        · cases h
        · rename_i hc3
          rw [if_neg hc3]
          split at h
          · split at h
            · simp at h
            · cases h
          · rename_i p hg
            obtain ⟨n1, hn1, hk⟩ := hle.2 _ _ hg
            cases n1 with
            | file p1 d1 => simp [Node.sameKind] at hk
            | symlink t1 => simp [Node.sameKind] at hk
            | dir p1 =>
              simp only [hn1]
              split at h
              · rename_i hr
                simp only [Except.ok.injEq, WalkStep.done.injEq, Option.some.injEq] at h
                rw [if_pos hr]
                exact ⟨_, by rw [h.1], by rw [← h.2]; simp [Node.sameKind]⟩
              · rename_i hr
                rw [if_neg hr]
                exact ih _ h
          · rename_i p d hg
            obtain ⟨n1, hn1, hk⟩ := hle.2 _ _ hg
            cases n1 with
            | dir p1 => simp [Node.sameKind] at hk
            | symlink t1 => simp [Node.sameKind] at hk
            | file p1 d1 =>
              simp only [hn1]
              split at h
              · rename_i hr
                simp only [Except.ok.injEq, WalkStep.done.injEq, Option.some.injEq] at h
                rw [if_pos hr]
                exact ⟨_, by rw [h.1], by rw [← h.2]; simp [Node.sameKind]⟩
              · cases h
          · rename_i t hg
            obtain ⟨n1, hn1, hk⟩ := hle.2 _ _ hg
            cases n1 with
            | dir p1 => simp [Node.sameKind] at hk
            | file p1 d1 => simp [Node.sameKind] at hk
            | symlink t1 =>
              simp only [Node.sameKind] at hk
              subst hk
              simp only [hn1]
              split at h
              · rename_i hr
                simp only [Except.ok.injEq, WalkStep.done.injEq, Option.some.injEq] at h
                rw [if_pos hr]
                exact ⟨_, by rw [h.1], by rw [← h.2]; simp [Node.sameKind]⟩
              · split at h <;> cases h

theorem walkSeg_mono_link {fs fs1 : FS} (hle : fs.Le fs1) (cur : Key) (cs : List String)
    (follow : Bool) (cur1 : Key) (cs1 : List String)
    (h : walkSeg fs cur cs follow = .ok (.link cur1 cs1)) :
    walkSeg fs1 cur cs follow = .ok (.link cur1 cs1) := by
  induction cs generalizing cur with
  | nil => simp [walkSeg] at h
  | cons c rest ih =>
    simp only [walkSeg] at h ⊢
    split at h
    · rename_i hc
      rw [if_pos hc]
      exact ih _ h
    · rename_i hc
      rw [if_neg hc]
      split at h
      · rename_i hc2
        rw [if_pos hc2]
        exact ih _ h
      · rename_i hc2
        rw [if_neg hc2]
        split at h
        · cases h
        · rename_i hc3
          rw [if_neg hc3]
          split at h
          · split at h
            · simp at h
            · cases h
          · rename_i p hg
            obtain ⟨n1, hn1, hk⟩ := hle.2 _ _ hg
            cases n1 with
            | file p1 d1 => simp [Node.sameKind] at hk
            | symlink t1 => simp [Node.sameKind] at hk
            | dir p1 =>
              simp only [hn1]
              split at h
              · simp at h
              · rename_i hr
                rw [if_neg hr]
                exact ih _ h
          · split at h
            · simp at h
            · cases h
          · rename_i t hg
            obtain ⟨n1, hn1, hk⟩ := hle.2 _ _ hg
            cases n1 with
            | dir p1 => simp [Node.sameKind] at hk
            | file p1 d1 => simp [Node.sameKind] at hk
            | symlink t1 =>
              simp only [Node.sameKind] at hk
              subst hk
              simp only [hn1]
              split at h
              · simp at h
              · rename_i hr
                rw [if_neg hr]
                split at h
                · cases h
                · rename_i ht
                  rw [if_neg ht]
                  exact h

theorem walk_mono {fs fs1 : FS} (hle : fs.Le fs1) (links : Nat) (cur : Key) (cs : List String)
    (follow : Bool) (k : Key) (n : Node)
    (h : walk fs links cur cs follow = .ok (k, some n)) :
    ∃ n1, walk fs1 links cur cs follow = .ok (k, some n1) ∧ n.sameKind n1 := by
  induction links generalizing cur cs with
  | zero =>
    simp only [walk] at h ⊢
    split at h
    · cases h
    · rename_i k1 obj1 hs
      simp only [Except.ok.injEq, Prod.mk.injEq] at h
      obtain ⟨h1, h2⟩ := h
      subst h1 h2
      obtain ⟨n1, hn1, hk⟩ := walkSeg_mono_done hle _ _ _ _ _ hs
      exact ⟨n1, by rw [hn1], hk⟩
    · cases h
  | succ l ih =>
    simp only [walk] at h ⊢
    split at h
    · cases h
    · rename_i k1 obj1 hs
      simp only [Except.ok.injEq, Prod.mk.injEq] at h
      obtain ⟨h1, h2⟩ := h
      subst h1 h2
      obtain ⟨n1, hn1, hk⟩ := walkSeg_mono_done hle _ _ _ _ _ hs
      exact ⟨n1, by rw [hn1], hk⟩
    · rename_i c1 cs1 hs
      rw [walkSeg_mono_link hle _ _ _ _ _ hs]
      exact ih _ _ h

theorem resolve_mono {fs fs1 : FS} (hle : fs.Le fs1) (path : String) (follow : Bool)
    (k : Key) (n : Node) (h : resolve fs path follow = .ok (k, some n)) :
    ∃ n1, resolve fs1 path follow = .ok (k, some n1) ∧ n.sameKind n1 := by
  unfold resolve at h ⊢
  split at h
  · cases h
  · rename_i h1
    simp only [h1, if_false]
    split at h
    · cases h
    · rename_i h2
      simp only [h2, if_false]
      split at h
      · rename_i h3
        simp only [h3, if_true]
        exact walk_mono hle _ _ _ _ _ _ h
      · rename_i h3
        simp only [h3]
        split at h
        · rename_i p hcwd
          obtain ⟨n1, hn1, hk⟩ := hle.2 _ _ hcwd
          cases n1 with
          | file p1 d1 => simp [Node.sameKind] at hk
          | symlink t1 => simp [Node.sameKind] at hk
          | dir p1 =>
            rw [hle.1]
            simp only [hn1, Bool.false_eq_true, if_false]
            exact walk_mono hle _ _ _ _ _ _ h
        · cases h

theorem osLstat_mono {fs fs1 : FS} (hle : fs.Le fs1) (path : String) (info : FileInfo)
    (h : osLstat fs path = .ok info) : ∃ info1, osLstat fs1 path = .ok info1 := by
  unfold osLstat at h ⊢
  split at h
  · cases h
  · cases h
  · rename_i k n hr
    obtain ⟨n1, hn1, _⟩ := resolve_mono hle _ _ _ _ hr
    exact ⟨n1.info, by simp [hn1]⟩

theorem walkSeg_nofollow_done (fs : FS) (cur : Key) (cs : List String) (r : WalkStep)
    (h : walkSeg fs cur cs true = .ok r) :
    walkSeg fs cur cs false = .ok r ∨
      ∃ k1 n1, walkSeg fs cur cs false = .ok (.done k1 (some n1)) := by
  induction cs generalizing cur with
  | nil =>
    simp only [walkSeg] at h ⊢
    exact Or.inl h
  | cons c rest ih =>
    simp only [walkSeg] at h ⊢
    split at h
    · rename_i hc
      rw [if_pos hc]
      exact ih _ h
    · rename_i hc
      rw [if_neg hc]
      split at h
      · rename_i hc2
        rw [if_pos hc2]
        exact ih _ h
      · rename_i hc2
        rw [if_neg hc2]
        split at h
        · cases h
        · rename_i hc3
          rw [if_neg hc3]
          split at h
          · exact Or.inl h
          · rename_i p hg
            split at h
            · rename_i hr
              rw [if_pos hr]
              exact Or.inl h
            · rename_i hr
              rw [if_neg hr]
              exact ih _ h
          · exact Or.inl h
          · rename_i t hg
            split at h
            · rename_i hr
              simp at hr
            · rename_i hr
              by_cases hrest : rest = []
              · rw [if_pos ⟨hrest, trivial⟩]
                exact Or.inr ⟨_, _, rfl⟩
              · rw [if_neg (fun hh => hrest hh.1)]
                exact Or.inl h

theorem walk_nofollow_of_follow (fs : FS) (links : Nat) (cur : Key) (cs : List String)
    (k : Key) (n : Node) (h : walk fs links cur cs true = .ok (k, some n)) :
    ∃ k1 n1, walk fs links cur cs false = .ok (k1, some n1) := by
  induction links generalizing cur cs with
  | zero =>
    simp only [walk] at h ⊢
    split at h
    · cases h
    · rename_i k1 obj1 hs
      simp only [Except.ok.injEq, Prod.mk.injEq] at h
      obtain ⟨h1, h2⟩ := h
      subst h1 h2
      rcases walkSeg_nofollow_done _ _ _ _ hs with h1 | ⟨k2, n2, h2⟩
      · exact ⟨_, _, by rw [h1]⟩
      · exact ⟨_, _, by rw [h2]⟩
    · cases h
  | succ l ih =>
    simp only [walk] at h ⊢
    split at h
    · cases h
    · rename_i k1 obj1 hs
      simp only [Except.ok.injEq, Prod.mk.injEq] at h
      obtain ⟨h1, h2⟩ := h
      subst h1 h2
      rcases walkSeg_nofollow_done _ _ _ _ hs with h1 | ⟨k2, n2, h2⟩
      · exact ⟨_, _, by rw [h1]⟩
      · exact ⟨_, _, by rw [h2]⟩
    · rename_i c1 cs1 hs
      rcases walkSeg_nofollow_done _ _ _ _ hs with h1 | ⟨k2, n2, h2⟩
      · rw [h1]
        exact ih _ _ h
      · exact ⟨_, _, by rw [h2]⟩

theorem walkSeg_put_final (fs : FS) (cur : Key) (cs : List String) (follow : Bool)
    (k : Key) (n : Node) (hn : follow = false ∨ ∀ t, n ≠ .symlink t)
    (hk : fs.get k = none) (r : WalkStep) (h : walkSeg fs cur cs follow = .ok r) :
    (r = .done k none → walkSeg (fs.put k n) cur cs follow = .ok (.done k (some n))) ∧
    (∀ c1 cs1, r = .link c1 cs1 → walkSeg (fs.put k n) cur cs follow = .ok (.link c1 cs1)) := by
  have hne : k ≠ [] := by
    intro h0; rw [h0, FS.get_nil] at hk; cases hk
  have hother : ∀ k1 n1, fs.get k1 = some n1 → (fs.put k n).get k1 = some n1 := by
    intro k1 n1 h1
    rw [FS.get_put]
    by_cases hk1 : k1 = []
    · subst hk1; rw [FS.get_nil] at h1; simpa using h1
    · have : k ≠ k1 := by
        intro hh; rw [hh, h1] at hk; cases hk
      simp [hk1, this, h1]
  have hself : (fs.put k n).get k = some n := by
    rw [FS.get_put]; simp [hne]
  induction cs generalizing cur with
  | nil =>
    simp only [walkSeg, Except.ok.injEq] at h
    subst h
    refine ⟨fun hr => ?_, fun c1 cs1 hr => by cases hr⟩
    simp only [WalkStep.done.injEq] at hr
    obtain ⟨hcur, _⟩ := hr
    subst hcur
    simp [walkSeg, hself]
  | cons c rest ih =>
    simp only [walkSeg] at h ⊢
    split at h
    · rename_i hc
      rw [if_pos hc]
      exact ih _ h
    · rename_i hc
      rw [if_neg hc]
      split at h
      · rename_i hc2
        rw [if_pos hc2]
        exact ih _ h
      · rename_i hc2
        rw [if_neg hc2]
        split at h
        · cases h
        · rename_i hc3
          rw [if_neg hc3]
          split at h
          · rename_i hg
            split at h
            · rename_i hr
              simp only [Except.ok.injEq] at h
              subst h
              refine ⟨fun hd => ?_, fun c1 cs1 hd => by cases hd⟩
              simp only [WalkStep.done.injEq, and_true] at hd
              rw [hd, hself]
              cases n with
              | dir p => simp [hr]
              | file p d => simp [hr]
              | symlink t =>
                cases hn with
                | inl hf => simp [hr, hf]
                | inr hs => exact absurd rfl (hs t)
            · cases h
          · rename_i p hg
            rw [hother _ _ hg]
            split at h
            · simp only [Except.ok.injEq] at h
              subst h
              refine ⟨fun hd => ?_, fun c1 cs1 hd => by cases hd⟩
              simp at hd
            · rename_i hr
              simp only []
              rw [if_neg hr]
              exact ih _ h
          · rename_i p d hg
            split at h
            · simp only [Except.ok.injEq] at h
              subst h
              refine ⟨fun hd => ?_, fun c1 cs1 hd => by cases hd⟩
              simp at hd
            · cases h
          · rename_i t hg
            rw [hother _ _ hg]
            simp only []
            split at h
            · simp only [Except.ok.injEq] at h
              subst h
              refine ⟨fun hd => ?_, fun c1 cs1 hd => by cases hd⟩
              simp at hd
            · rename_i hr
              rw [if_neg hr]
              split at h
              · cases h
              · rename_i ht
                rw [if_neg ht]
                simp only [Except.ok.injEq] at h
                subst h
                exact ⟨fun hd => (by cases hd), fun c1 cs1 hd => (by rw [hd])⟩

theorem walk_put_final (fs : FS) (links : Nat) (cur : Key) (cs : List String) (follow : Bool)
    (k : Key) (n : Node) (hn : follow = false ∨ ∀ t, n ≠ .symlink t)
    (h : walk fs links cur cs follow = .ok (k, none)) :
    walk (fs.put k n) links cur cs follow = .ok (k, some n) := by
  have hk : fs.get k = none := walk_get _ _ _ _ _ _ _ h
  induction links generalizing cur cs with
  | zero =>
    simp only [walk] at h ⊢
    split at h
    · cases h
    · rename_i k1 obj1 hs
      simp only [Except.ok.injEq, Prod.mk.injEq] at h
      obtain ⟨h1, h2⟩ := h
      subst h1 h2
      rw [(walkSeg_put_final fs cur cs follow k1 n hn hk _ hs).1 rfl]
    · cases h
  | succ l ih =>
    simp only [walk] at h ⊢
    split at h
    · cases h
    · rename_i k1 obj1 hs
      simp only [Except.ok.injEq, Prod.mk.injEq] at h
      obtain ⟨h1, h2⟩ := h
      subst h1 h2
      rw [(walkSeg_put_final fs cur cs follow k1 n hn hk _ hs).1 rfl]
    · rename_i c1 cs1 hs
      rw [(walkSeg_put_final fs cur cs follow k n hn hk _ hs).2 _ _ rfl]
      exact ih _ _ h

/-! ### What a successful operation leaves behind -/

theorem FS.get_put_of_none (fs : FS) (k : Key) (n : Node) (hk : fs.get k = none)
    (k1 : Key) (n1 : Node) (h1 : fs.get k1 = some n1) : (fs.put k n).get k1 = some n1 := by
  rw [FS.get_put]
  by_cases hk1 : k1 = []
  · subst hk1; rw [FS.get_nil] at h1; simpa using h1
  · have : k ≠ k1 := by
      intro hh; rw [hh, h1] at hk; cases hk
    simp [hk1, this, h1]

theorem resolve_put_final (fs : FS) (path : String) (follow : Bool) (k : Key) (n : Node)
    (hn : follow = false ∨ ∀ t, n ≠ .symlink t)
    (h : resolve fs path follow = .ok (k, none)) :
    resolve (fs.put k n) path follow = .ok (k, some n) := by
  have hk := resolve_get _ _ _ _ _ h
  unfold resolve at h ⊢
  split at h
  · cases h
  · rename_i h1
    rw [if_neg h1]
    split at h
    · cases h
    · rename_i h2
      rw [if_neg h2]
      split at h
      · rename_i h3
        rw [if_pos h3]
        exact walk_put_final _ _ _ _ _ _ _ hn h
      · rename_i h3
        rw [if_neg h3]
        split at h
        · rename_i p hcwd
          have hc : (fs.put k n).get (fs.put k n).cwd = some (.dir p) :=
            FS.get_put_of_none fs k n hk _ _ hcwd
          simp only [hc]
          exact walk_put_final _ _ _ _ _ _ _ hn h
        · cases h

theorem resolve_nofollow_of_follow (fs : FS) (path : String) (k : Key) (n : Node)
    (h : resolve fs path true = .ok (k, some n)) :
    ∃ k1 n1, resolve fs path false = .ok (k1, some n1) := by
  unfold resolve at h ⊢
  split at h
  · cases h
  · rename_i h1
    rw [if_neg h1]
    split at h
    · cases h
    · rename_i h2
      rw [if_neg h2]
      split at h
      · rename_i h3
        rw [if_pos h3]
        exact walk_nofollow_of_follow _ _ _ _ _ _ h
      · rename_i h3
        rw [if_neg h3]
        split at h
        · exact walk_nofollow_of_follow _ _ _ _ _ _ h
        · cases h

theorem osLstat_ok_of_resolve (fs : FS) (path : String) (follow : Bool) (k : Key) (n : Node)
    (h : resolve fs path follow = .ok (k, some n)) : ∃ info, osLstat fs path = .ok info := by
  have h2 : ∃ k1 n1, resolve fs path false = .ok (k1, some n1) := by
    cases follow with
    | false => exact ⟨k, n, h⟩
    | true => exact resolve_nofollow_of_follow _ _ _ _ h
  obtain ⟨k1, n1, h3⟩ := h2
  exact ⟨n1.info, by simp [osLstat, h3]⟩

theorem osLstat_ok_of_osStat (fs : FS) (path : String) (info : FileInfo)
    (h : osStat fs path = .ok info) : ∃ info1, osLstat fs path = .ok info1 := by
  unfold osStat at h
  split at h
  · cases h
  · cases h
  · rename_i k n hr
    exact osLstat_ok_of_resolve _ _ _ _ _ hr

theorem osMkdir_post (fs : FS) (path : String) (perm : Nat) (fs1 : FS)
    (h : osMkdir fs path perm = (none, fs1)) : ∃ info, osLstat fs1 path = .ok info := by
  unfold osMkdir at h
  split at h
  · cases h
  · split at h
    · cases h
    · cases h
    · rename_i k hr
      cases h
      exact osLstat_ok_of_resolve _ _ _ _ _ (resolve_put_final _ _ _ _ _ (Or.inl rfl) hr)

theorem osSymlink_post (fs : FS) (target path : String) (fs1 : FS)
    (h : osSymlink fs target path = (none, fs1)) : ∃ info, osLstat fs1 path = .ok info := by
  unfold osSymlink at h
  split at h
  · cases h
  · split at h
    · cases h
    · split at h
      · cases h
      · split at h
        · cases h
        · cases h
        · rename_i k hr
          cases h
          exact osLstat_ok_of_resolve _ _ _ _ _ (resolve_put_final _ _ _ _ _ (Or.inl rfl) hr)

theorem osCreate_post (fs : FS) (path : String) (k : Key) (fs1 : FS)
    (h : osCreate fs path = (.ok k, fs1)) : ∃ info, osLstat fs1 path = .ok info := by
  unfold osCreate at h
  split at h
  · cases h
  · split at h
    · cases h
    · rename_i k1 hr
      cases h
      exact osLstat_ok_of_resolve _ _ _ _ _
        (resolve_put_final _ _ _ _ _ (Or.inr (fun t => by simp)) hr)
    · rename_i k1 p d hr
      have hg := resolve_get _ _ _ _ _ hr
      have hle : fs.Le (fs.put k1 (.file p [])) :=
        FS.put_Le _ _ _ (fun n0 h0 => by rw [hg] at h0; cases h0; simp [Node.sameKind])
      obtain ⟨n1, hn1, _⟩ := resolve_mono hle _ _ _ _ hr
      cases h
      exact osLstat_ok_of_resolve _ _ _ _ _ hn1
    · cases h

theorem mkdirAllChain_post (perm : Nat) (path : String) (parents : List String) (fs fs1 : FS)
    (h : mkdirAllChain perm (path :: parents) fs = (none, fs1)) :
    ∃ info, osLstat fs1 path = .ok info := by
  unfold mkdirAllChain at h
  split at h
  · rename_i info hst
    split at h
    · cases h
      exact osLstat_ok_of_osStat _ _ _ hst
    · cases h
  · split at h
    · cases h
    · split at h
      · rename_i fs2 hmk
        cases h
        exact osMkdir_post _ _ _ _ hmk
      · split at h
        · rename_i info hl
          split at h
          · cases h
            exact ⟨info, hl⟩
          · cases h
        · cases h

theorem copyFile_post (fs : FS) (source dest : String) (fs1 : FS)
    (h : copyFile fs source dest = (none, fs1)) : ∃ info, osLstat fs1 dest = .ok info := by
  unfold copyFile at h
  split at h
  · cases h
  · rename_i sourceFile hopen
    split at h
    · cases h
    · rename_i destFile fsa hc
      obtain ⟨i0, h0⟩ := osCreate_post _ _ _ _ hc
      have h2 := ioCopy_LeCopy fsa destFile sourceFile source
      split at h
      · cases h
      · rename_i fsb hio
        rw [hio] at h2
        split at h
        · cases h
        · rename_i sourceInfo hst
          have h3 := osChmod_LeCopy fsb dest sourceInfo.perm
          split at h
          · cases h
          · rename_i fsc hch
            rw [hch] at h3
            cases h
            exact osLstat_mono (h2.1.le_trans h3.1) _ _ h0

theorem copyDir_post (fuel : Nat) (fs : FS) (source dest : String) (fs1 : FS)
    (h : copyDir fuel fs source dest = (none, fs1)) : ∃ info, osLstat fs1 dest = .ok info := by
  cases fuel with
  | zero => unfold copyDir at h; cases h
  | succ n =>
    unfold copyDir at h
    split at h
    · cases h
    · split at h
      · cases h
      · rename_i fsa hmk
        obtain ⟨i0, h0⟩ := mkdirAllChain_post _ _ _ _ _ hmk
        split at h
        · cases h
        · rename_i entries hrd
          have h2 := copyEntries_LeCopy (copyDir n) (fun _ _ _ => copyDir_LeCopy _ _ _ _)
            source dest entries fsa
          rw [h] at h2
          exact osLstat_mono h2.1 _ _ h0

theorem createSymlink_post (fs : FS) (source dest : String) (fs1 : FS)
    (h : createSymlink fs source dest = (none, fs1)) : ∃ info, osLstat fs1 dest = .ok info := by
  unfold createSymlink at h
  split at h
  · cases h
  · split at h
    · cases h
    · rename_i fs2 hs
      cases h
      exact osSymlink_post _ _ _ _ hs

theorem syncResource_exists_of_lstat (fs : FS) (resource sourceDir destDir : String)
    (mode : SyncMode) (sourceInfo destInfo : FileInfo)
    (hsrc : osLstat fs (filepathJoin sourceDir resource) = .ok sourceInfo)
    (hdst : osLstat fs (filepathJoin destDir resource) = .ok destInfo) :
    syncResource fs resource sourceDir destDir mode
      = (⟨resource, "exists", true, none⟩, fs) := by
  unfold syncResource
  simp only [hsrc, hdst]

theorem syncResource_attempt (fs : FS) (resource sourceDir destDir : String)
    (mode : SyncMode) (sourceInfo : FileInfo) (e : GoError)
    (hsrc : osLstat fs (filepathJoin sourceDir resource) = .ok sourceInfo)
    (hdst : osLstat fs (filepathJoin destDir resource) = .error e) :
    match osMkdirAll fs (filepathDir (filepathJoin destDir resource)) 0o755 with
    | (some err, fs1) =>
      syncResource fs resource sourceDir destDir mode
        = (⟨resource, "error", false,
            some (.wrap "failed to create parent directory" err)⟩, fs1)
      ∧ err.rootCause.isSome = true
    | (none, fs1) =>
      match (if mode = .SyncModeSymlink then
               createSymlink fs1 (filepathJoin sourceDir resource) (filepathJoin destDir resource)
             else if sourceInfo.isDir then
               copyDir copyDepth fs1 (filepathJoin sourceDir resource)
                 (filepathJoin destDir resource)
             else
               copyFile fs1 (filepathJoin sourceDir resource) (filepathJoin destDir resource)) with
      | (some err, fs2) =>
        syncResource fs resource sourceDir destDir mode
          = (⟨resource, if mode = .SyncModeSymlink then "symlink" else "copy", false,
              some err⟩, fs2)
        ∧ err.rootCause.isSome = true
      | (none, fs2) =>
        syncResource fs resource sourceDir destDir mode
          = (⟨resource, if mode = .SyncModeSymlink then "symlink" else "copy", true,
              none⟩, fs2) := by
  unfold syncResource
  simp only [hsrc, hdst]
  split
  · rename_i err fs1 hmk
    simp only [hmk, true_and]
    exact osMkdirAll_error_cause _ _ _ _ _ hmk
  · rename_i fs1 hmk
    simp only [hmk]
    by_cases hm : mode = .SyncModeSymlink
    · simp only [hm, if_true]
      split
      · rename_i err fs2 hs
        exact ⟨rfl, createSymlink_error_cause _ _ _ _ _ hs⟩
      · rfl
    · simp only [hm, if_false]
      by_cases hd : sourceInfo.isDir = true
      · simp only [hd, if_true]
        split
        · rename_i err fs2 hs
          exact ⟨rfl, copyDir_error_cause _ _ _ _ _ _ hs⟩
        · rfl
      · have hd1 : sourceInfo.isDir = false := by simpa using hd
        simp only [hd1, Bool.false_eq_true, if_false]
        split
        · rename_i err fs2 hs
          exact ⟨rfl, copyFile_error_cause _ _ _ _ _ hs⟩
        · rfl

theorem syncResource_success_post (fs : FS) (resource sourceDir destDir : String)
    (mode : SyncMode)
    (h : (syncResource fs resource sourceDir destDir mode).1.Success = true) :
    (∃ info, osLstat (syncResource fs resource sourceDir destDir mode).2
        (filepathJoin sourceDir resource) = .ok info) ∧
    (∃ info, osLstat (syncResource fs resource sourceDir destDir mode).2
        (filepathJoin destDir resource) = .ok info) := by
  have hle := syncResource_Le fs resource sourceDir destDir mode
  cases hsrc : osLstat fs (filepathJoin sourceDir resource) with
  | error e =>
    unfold syncResource at h
    simp only [hsrc] at h
    split at h <;> simp at h
  | ok sourceInfo =>
    refine ⟨osLstat_mono hle _ _ hsrc, ?_⟩
    cases hdst : osLstat fs (filepathJoin destDir resource) with
    | ok destInfo =>
      rw [syncResource_exists_of_lstat _ _ _ _ _ _ _ hsrc hdst]
      exact ⟨_, hdst⟩
    | error e =>
      have ha := syncResource_attempt fs resource sourceDir destDir mode sourceInfo e hsrc hdst
      split at ha
      · rw [ha.1] at h; simp at h
      · rename_i fsa hmk
        split at ha
        · rw [ha.1] at h; simp at h
        · rename_i fsb hstep
          rw [ha]
          simp only []
          by_cases hm : mode = .SyncModeSymlink
          · rw [if_pos hm] at hstep
            exact createSymlink_post _ _ _ _ hstep
          · rw [if_neg hm] at hstep
            by_cases hd : sourceInfo.isDir = true
            · rw [if_pos hd] at hstep
              exact copyDir_post _ _ _ _ _ hstep
            · rw [if_neg hd] at hstep
              exact copyFile_post _ _ _ _ hstep

/-! ### The loops of `SyncResources` -/

theorem syncLoop_resources (s d : String) (m : SyncMode) (rs : List String)
    (acc : List SyncResult) (fs : FS) :
    (syncLoop s d m rs acc fs).1.map SyncResult.Resource
      = acc.map SyncResult.Resource ++ rs := by
  induction rs generalizing acc fs with
  | nil => simp [syncLoop]
  | cons r rest ih =>
    simp only [syncLoop]
    rw [ih]
    have h : (syncResource fs r s d m).1.Resource = r := by
      unfold syncResource
      simp only []
      split <;> [skip; split] <;> (repeat' split) <;> rfl
    simp [h]

theorem syncLoop_eq_runJobs (s d : String) (m : SyncMode) (rs : List String)
    (acc : List SyncResult) (fs : FS) :
    syncLoop s d m rs acc fs
      = (acc ++ (runJobs s d (rs.map (fun r => (r, m))) fs).1,
         (runJobs s d (rs.map (fun r => (r, m))) fs).2) := by
  induction rs generalizing acc fs with
  | nil => simp [syncLoop, runJobs]
  | cons r rest ih =>
    simp only [syncLoop, List.map_cons, runJobs]
    rw [ih]
    simp

theorem runJobs_append (s d : String) (a b : List (String × SyncMode)) (fs : FS) :
    runJobs s d (a ++ b) fs
      = ((runJobs s d a fs).1 ++ (runJobs s d b (runJobs s d a fs).2).1,
         (runJobs s d b (runJobs s d a fs).2).2) := by
  induction a generalizing fs with
  | nil => simp [runJobs]
  | cons j rest ih =>
    have h := ih (syncResource fs j.1 s d j.2).2
    simp only [List.cons_append, runJobs, List.append_eq] at h ⊢
    rw [h]

theorem SyncResources_eq_runJobs (fs : FS) (cfg : Config) (s d : String) (forceCopy : Bool) :
    SyncResources fs cfg s d forceCopy
      = (((runJobs s d (syncJobs cfg forceCopy) fs).1, none),
         (runJobs s d (syncJobs cfg forceCopy) fs).2) := by
  unfold SyncResources syncJobs
  cases forceCopy <;> simp [syncLoop_eq_runJobs, runJobs_append]

theorem runJobs_length (s d : String) (jobs : List (String × SyncMode)) (fs : FS) :
    (runJobs s d jobs fs).1.length = jobs.length := by
  induction jobs generalizing fs with
  | nil => simp [runJobs]
  | cons j rest ih => simp [runJobs, ih]

theorem runJobs_Le (s d : String) (jobs : List (String × SyncMode)) (fs : FS) :
    fs.Le (runJobs s d jobs fs).2 := by
  induction jobs generalizing fs with
  | nil => exact FS.Le.le_refl fs
  | cons j rest ih =>
    simp only [runJobs]
    exact (syncResource_Le fs j.1 s d j.2).le_trans (ih _)

theorem runJobs_NoNewLink (s d : String) (jobs : List (String × SyncMode)) (fs : FS)
    (hjobs : ∀ job ∈ jobs, job.2 = SyncMode.SyncModeCopy) :
    fs.NoNewLink (runJobs s d jobs fs).2 := by
  induction jobs generalizing fs with
  | nil => exact FS.NoNewLink.link_refl fs
  | cons j rest ih =>
    simp only [runJobs]
    have hj : j.2 = SyncMode.SyncModeCopy := hjobs j (List.mem_cons_self _ _)
    rw [hj]
    exact (syncResource_copy_NoNewLink fs j.1 s d).link_trans
      (ih _ (fun job hmem => hjobs job (List.mem_cons_of_mem _ hmem)))

theorem runJobs_forall (s d : String) (P : SyncResult → Prop)
    (jobs : List (String × SyncMode)) (fs : FS)
    (hP : ∀ job ∈ jobs, ∀ fs0 : FS, P (syncResource fs0 job.1 s d job.2).1) :
    ∀ res ∈ (runJobs s d jobs fs).1, P res := by
  induction jobs generalizing fs with
  | nil => simp [runJobs]
  | cons j rest ih =>
    intro res hres
    simp only [runJobs, List.mem_cons] at hres
    cases hres with
    | inl h => rw [h]; exact hP j (List.mem_cons_self _ _) fs
    | inr h => exact ih _ (fun job hmem => hP job (List.mem_cons_of_mem _ hmem)) res h

theorem runJobs_take_step (s d : String) (jobs : List (String × SyncMode)) (fs : FS) (i : Nat)
    (job : String × SyncMode) (h : jobs[i]? = some job) :
    (runJobs s d jobs fs).1[i]?
        = some (syncResource (runJobs s d (jobs.take i) fs).2 job.1 s d job.2).1 ∧
    (runJobs s d (jobs.take (i + 1)) fs).2
        = (syncResource (runJobs s d (jobs.take i) fs).2 job.1 s d job.2).2 := by
  induction jobs generalizing fs i with
  | nil => simp at h
  | cons j rest ih =>
    cases i with
    | zero =>
      simp only [List.getElem?_cons_zero, Option.some.injEq] at h
      subst h
      simp [runJobs]
    | succ i =>
      simp only [List.getElem?_cons_succ] at h
      have := ih (syncResource fs j.1 s d j.2).2 i h
      simpa [runJobs] using this

theorem runJobs_take_Le (s d : String) (jobs : List (String × SyncMode)) (fs : FS) (i : Nat) :
    (runJobs s d (jobs.take i) fs).2.Le (runJobs s d jobs fs).2 := by
  have h := runJobs_append s d (jobs.take i) (jobs.drop i) fs
  rw [List.take_append_drop] at h
  rw [h]
  exact runJobs_Le _ _ _ _

theorem syncResource_resource (fs : FS) (resource sourceDir destDir : String)
    (mode : SyncMode) : (syncResource fs resource sourceDir destDir mode).1.Resource = resource := by
  unfold syncResource
  simp only []
  split <;> [skip; split] <;> (repeat' split) <;> rfl

theorem runJobs_second_run (fs : FS) (s d : String) (jobs : List (String × SyncMode)) (i : Nat)
    (res1 : SyncResult) (h1 : (runJobs s d jobs fs).1[i]? = some res1)
    (hok : res1.Success = true) :
    ∃ job, jobs[i]? = some job ∧
      syncResource (runJobs s d (jobs.take i) (runJobs s d jobs fs).2).2 job.1 s d job.2
        = (⟨res1.Resource, "exists", true, none⟩,
            (runJobs s d (jobs.take i) (runJobs s d jobs fs).2).2) ∧
      (runJobs s d jobs (runJobs s d jobs fs).2).1[i]?
        = some ⟨res1.Resource, "exists", true, none⟩ := by
  have hi : i < jobs.length := by
    have := (List.getElem?_eq_some.mp h1).1
    rwa [runJobs_length] at this
  have hjob : jobs[i]? = some jobs[i] := List.getElem?_eq_getElem hi
  refine ⟨jobs[i], hjob, ?_⟩
  obtain ⟨hres, hstate⟩ := runJobs_take_step s d jobs fs i _ hjob
  rw [hres] at h1
  simp only [Option.some.injEq] at h1
  have hsucc : (syncResource (runJobs s d (jobs.take i) fs).2 jobs[i].1 s d jobs[i].2).1.Success
      = true := by rw [h1]; exact hok
  obtain ⟨⟨si, hsi⟩, ⟨di, hdi⟩⟩ := syncResource_success_post _ _ _ _ _ hsucc
  rw [← hstate] at hsi hdi
  have hle1 := runJobs_take_Le s d jobs fs (i + 1)
  have hle2 := runJobs_Le s d (jobs.take i) (runJobs s d jobs fs).2
  obtain ⟨si2, hsi2⟩ := osLstat_mono (hle1.le_trans hle2) _ _ hsi
  obtain ⟨di2, hdi2⟩ := osLstat_mono (hle1.le_trans hle2) _ _ hdi
  have hex := syncResource_exists_of_lstat _ jobs[i].1 s d jobs[i].2 _ _ hsi2 hdi2
  have hname : res1.Resource = jobs[i].1 := by
    rw [← h1]; exact syncResource_resource _ _ _ _ _
  rw [hname]
  refine ⟨hex, ?_⟩
  rw [(runJobs_take_step s d jobs _ i _ hjob).1, hex]

/-- When every outcome of a first run is a success, a second run with the same
inputs changes nothing in the file system. -/
theorem runJobs_second_run_unchanged (fs : FS) (s d : String) (jobs : List (String × SyncMode))
    (hall : ∀ res ∈ (runJobs s d jobs fs).1, res.Success = true) :
    (runJobs s d jobs (runJobs s d jobs fs).2).2 = (runJobs s d jobs fs).2 := by
  have hstep : ∀ i, i ≤ jobs.length →
      (runJobs s d (jobs.take i) (runJobs s d jobs fs).2).2 = (runJobs s d jobs fs).2 := by
    intro i
    induction i with
    | zero => intro _; simp [runJobs]
    | succ i ih =>
      intro hi
      have hi1 : i < jobs.length := hi
      have hlen : i < (runJobs s d jobs fs).1.length := by rw [runJobs_length]; exact hi1
      have hres : (runJobs s d jobs fs).1[i]? = some (runJobs s d jobs fs).1[i] :=
        List.getElem?_eq_getElem hlen
      have hok := hall _ (List.getElem_mem hlen)
      obtain ⟨job, hjob, hex, _⟩ := runJobs_second_run fs s d jobs i _ hres hok
      rw [(runJobs_take_step s d jobs _ i job hjob).2, hex]
      exact ih (Nat.le_of_lt hi1)
  have := hstep jobs.length (Nat.le_refl _)
  rwa [List.take_length] at this

/-- When every outcome of a first run of `SyncResources` is a success, a second run
with the same inputs leaves the file system as the first run left it. -/
theorem SyncResources_second_run_unchanged (fs : FS) (cfg : Config) (s d : String)
    (forceCopy : Bool)
    (hall : ∀ res ∈ (SyncResources fs cfg s d forceCopy).1.1, res.Success = true) :
    (SyncResources (SyncResources fs cfg s d forceCopy).2 cfg s d forceCopy).2
      = (SyncResources fs cfg s d forceCopy).2 := by
  simp only [SyncResources_eq_runJobs] at hall ⊢
  exact runJobs_second_run_unchanged fs s d _ hall

/-! ### Copy mode and the status check -/

theorem syncResource_copy_modes (fs : FS) (resource sourceDir destDir : String) :
    (syncResource fs resource sourceDir destDir .SyncModeCopy).1.Mode = "copy" ∨
    (syncResource fs resource sourceDir destDir .SyncModeCopy).1.Mode = "skip" ∨
    (syncResource fs resource sourceDir destDir .SyncModeCopy).1.Mode = "error" ∨
    (syncResource fs resource sourceDir destDir .SyncModeCopy).1.Mode = "exists" := by
  unfold syncResource
  simp only [reduceCtorEq, if_false]
  repeat' split
  all_goals simp

theorem syncJobs_force_copy (cfg : Config) :
    syncJobs cfg true
      = (cfg.Resources.Symlink ++ cfg.Resources.Copy).map (fun r => (r, SyncMode.SyncModeCopy)) := by
  simp [syncJobs]

/-- The loop of `CheckSyncStatus` answers true exactly when no destination `Lstat`
fails with `ENOENT`; any other failure of `Lstat` is passed over. -/
theorem checkLoop_eq_true_iff (fs : FS) (destDir : String) (rs : List String) :
    checkLoop fs destDir rs = true ↔
      ∀ r ∈ rs, osLstat fs (filepathJoin destDir r)
        ≠ .error (.sys "lstat" (filepathJoin destDir r) .ENOENT) := by
  induction rs with
  | nil => simp [checkLoop]
  | cons r rest ih =>
    simp only [checkLoop, List.mem_cons, forall_eq_or_imp]
    rw [← ih]
    cases hl : osLstat fs (filepathJoin destDir r) with
    | ok info => simp [osIsNotExist]
    | error e =>
      unfold osLstat at hl
      split at hl
      · rename_i e1 hr
        cases hl
        cases e1 <;> simp [osIsNotExist]
      · cases hl; simp [osIsNotExist]
      · cases hl

/-! ### Lexical cleaning of paths -/

theorem splitChars_ne_nil (l : List Char) : splitChars l ≠ [] := by
  cases l with
  | nil => simp [splitChars]
  | cons c cs =>
    simp only [splitChars]
    split
    · simp
    · split <;> simp

theorem splitChars_append_sep (a b : List Char) :
    splitChars (a ++ sepChar :: b) = splitChars a ++ splitChars b := by
  induction a with
  | nil =>
    simp only [List.nil_append, splitChars]
    cases hb : splitChars b with
    | nil => exact absurd hb (splitChars_ne_nil b)
    | cons w ws => simp
  | cons c a ih =>
    show splitChars (c :: (a ++ sepChar :: b)) = splitChars (c :: a) ++ splitChars b
    rw [splitChars, splitChars, ih]
    cases ha : splitChars a with
    | nil => exact absurd ha (splitChars_ne_nil a)
    | cons w ws =>
      simp only [List.cons_append]
      split <;> simp

theorem splitChars_sepfree (w : List Char) (h : sepChar ∉ w) : splitChars w = [w] := by
  induction w with
  | nil => simp [splitChars]
  | cons c w ih =>
    simp only [List.mem_cons, not_or] at h
    simp only [splitChars, ih h.2]
    have : c ≠ sepChar := fun hc => h.1 hc.symm
    simp [this]

theorem data_sep : ("/" : String).data = [sepChar] := by decide

theorem splitPath_append_sep (a b : String) :
    splitPath (a ++ "/" ++ b) = splitPath a ++ splitPath b := by
  unfold splitPath
  rw [String.data_append, String.data_append, data_sep, List.append_assoc,
    List.singleton_append, splitChars_append_sep, List.map_append]

theorem splitPath_sepfree (n : String) (h : sepChar ∉ n.data) : splitPath n = [n] := by
  simp [splitPath, splitChars_sepfree _ h]

theorem splitChars_mem_sepfree (l : List Char) : ∀ w ∈ splitChars l, sepChar ∉ w := by
  induction l with
  | nil => simp [splitChars]
  | cons c cs ih =>
    simp only [splitChars]
    cases hs : splitChars cs with
    | nil => simp
    | cons w ws =>
      rw [hs] at ih
      simp only
      intro v hv
      split at hv
      · simp only [List.mem_cons] at hv
        rcases hv with hv | hv | hv
        · simp [hv]
        · exact ih v (by simp [hv])
        · exact ih v (by simp [hv])
      · rename_i hc
        simp only [List.mem_cons] at hv
        rcases hv with hv | hv
        · rw [hv]
          simp only [List.mem_cons, not_or]
          exact ⟨fun h => hc h.symm, ih w (by simp)⟩
        · exact ih v (by simp [hv])

theorem splitPath_mem_sepfree (s : String) : ∀ c ∈ splitPath s, sepChar ∉ c.data := by
  intro c hc
  simp only [splitPath, List.mem_map] at hc
  obtain ⟨w, hw, rfl⟩ := hc
  exact splitChars_mem_sepfree _ w hw

theorem isElem_dotdot : IsElem ".." := by
  refine ⟨by decide, by decide, by decide⟩

theorem cleanStep_CleanStack (r : Bool) (acc : List String) (c : String)
    (hacc : CleanStack r acc) (hc : sepChar ∉ c.data) : CleanStack r (cleanStep r acc c) := by
  unfold cleanStep
  split
  · exact hacc
  · rename_i h1
    simp only [not_or] at h1
    split
    · rename_i h2
      cases acc with
      | nil =>
        simp only
        cases r with
        | true => simp [CleanStack]
        | false => simp [CleanStack, isElem_dotdot]
      | cons top below =>
        simp only
        obtain ⟨ht, hb, hdd⟩ := hacc
        split
        · rename_i h3
          refine ⟨isElem_dotdot, ⟨ht, hb, hdd⟩, fun _ => ?_⟩
          obtain ⟨hr, hall⟩ := hdd h3
          refine ⟨hr, fun d hd => ?_⟩
          simp only [List.mem_cons] at hd
          rcases hd with hd | hd
          · rw [hd, h3]
          · exact hall d hd
        · exact hb
    · rename_i h2
      exact ⟨⟨h1.1, h1.2, hc⟩, hacc, fun h => absurd h h2⟩

theorem foldl_cleanStep_CleanStack (r : Bool) (cs : List String) (acc : List String)
    (hacc : CleanStack r acc) (hcs : ∀ c ∈ cs, sepChar ∉ c.data) :
    CleanStack r (cs.foldl (cleanStep r) acc) := by
  induction cs generalizing acc with
  | nil => exact hacc
  | cons c rest ih =>
    simp only [List.foldl_cons]
    exact ih _ (cleanStep_CleanStack r acc c hacc (hcs c (List.mem_cons_self _ _)))
      (fun d hd => hcs d (List.mem_cons_of_mem _ hd))

theorem foldl_cleanStep_reverse (r : Bool) (acc : List String) (hacc : CleanStack r acc) :
    acc.reverse.foldl (cleanStep r) [] = acc := by
  induction acc with
  | nil => rfl
  | cons c below ih =>
    obtain ⟨hc, hb, hdd⟩ := hacc
    rw [List.reverse_cons, List.foldl_append, ih hb]
    simp only [List.foldl_cons, List.foldl_nil]
    unfold cleanStep
    have h1 : ¬(c = "" ∨ c = ".") := fun h => h.elim hc.1 hc.2.1
    rw [if_neg h1]
    by_cases h2 : c = ".."
    · rw [if_pos h2]
      obtain ⟨hr, hall⟩ := hdd h2
      cases below with
      | nil => simp [hr, h2]
      | cons top b =>
        have : top = ".." := hall top (List.mem_cons_self _ _)
        simp [this, h2]
    · rw [if_neg h2]

theorem cleanComps_CleanStack (r : Bool) (cs : List String)
    (hcs : ∀ c ∈ cs, sepChar ∉ c.data) :
    ∃ acc, CleanStack r acc ∧ cleanComps r cs = acc.reverse :=
  ⟨_, foldl_cleanStep_CleanStack r cs [] trivial hcs, rfl⟩

theorem cleanComps_reverse (r : Bool) (acc : List String) (hacc : CleanStack r acc) :
    cleanComps r acc.reverse = acc.reverse := by
  unfold cleanComps
  rw [foldl_cleanStep_reverse r acc hacc]

theorem CleanStack_mem (r : Bool) (acc : List String) (hacc : CleanStack r acc) :
    ∀ c ∈ acc, IsElem c := by
  induction acc with
  | nil => simp
  | cons c below ih =>
    intro d hd
    simp only [List.mem_cons] at hd
    rcases hd with hd | hd
    · rw [hd]; exact hacc.1
    · exact ih hacc.2.1 d hd

theorem cleanComps_append_elem (r : Bool) (cs : List String) (n : String)
    (h1 : n ≠ "") (h2 : n ≠ ".") (h3 : n ≠ "..") :
    cleanComps r (cs ++ [n]) = cleanComps r cs ++ [n] := by
  unfold cleanComps
  rw [List.foldl_append]
  simp only [List.foldl_cons, List.foldl_nil]
  unfold cleanStep
  rw [if_neg (fun h => h.elim h1 h2), if_neg h3]
  simp

theorem joinSep_cons_cons (c d : String) (rest : List String) :
    joinSep (c :: d :: rest) = c ++ "/" ++ joinSep (d :: rest) := rfl

theorem joinSep_append_elem (X : List String) (n : String) (hX : X ≠ []) :
    joinSep (X ++ [n]) = joinSep X ++ "/" ++ n := by
  induction X with
  | nil => exact absurd rfl hX
  | cons c rest ih =>
    cases rest with
    | nil => rfl
    | cons d rest2 =>
      show joinSep (c :: (d :: rest2 ++ [n])) = _
      rw [List.cons_append, joinSep_cons_cons, joinSep_cons_cons]
      have := ih (by simp)
      rw [List.cons_append] at this
      rw [this]
      simp only [String.append_assoc]

theorem splitPath_joinSep (X : List String) (hX : X ≠ [])
    (hfree : ∀ c ∈ X, sepChar ∉ c.data) : splitPath (joinSep X) = X := by
  induction X with
  | nil => exact absurd rfl hX
  | cons c rest ih =>
    cases rest with
    | nil => exact splitPath_sepfree c (hfree c (List.mem_cons_self _ _))
    | cons d rest2 =>
      rw [joinSep_cons_cons, splitPath_append_sep,
        splitPath_sepfree c (hfree c (List.mem_cons_self _ _)),
        ih (by simp) (fun e he => hfree e (List.mem_cons_of_mem _ he))]
      rfl

theorem isRooted_append (a b : String) (ha : a ≠ "") : isRooted (a ++ b) = isRooted a := by
  unfold isRooted
  rw [String.data_append]
  cases hd : a.data with
  | nil =>
    exact absurd (String.ext hd) ha
  | cons x xs => rfl

theorem isRooted_sepfree (c : String) (h : sepChar ∉ c.data) : isRooted c = false := by
  unfold isRooted
  cases hd : c.data with
  | nil => rfl
  | cons x xs =>
    rw [hd] at h
    simp only [List.mem_cons, not_or] at h
    simp only [decide_eq_false_iff_not]
    exact fun hx => h.1 hx.symm

theorem isRooted_joinSep (c : String) (rest : List String) (hc : c ≠ "") :
    isRooted (joinSep (c :: rest)) = isRooted c := by
  cases rest with
  | nil => rfl
  | cons d rest2 =>
    rw [joinSep_cons_cons, String.append_assoc, isRooted_append _ _ hc]

theorem isRooted_renderPath (r : Bool) (X : List String) (hX : ∀ c ∈ X, IsElem c) :
    isRooted (renderPath r X) = r := by
  cases X with
  | nil => cases r <;> decide
  | cons c rest =>
    unfold renderPath
    cases r with
    | true =>
      simp only [if_true]
      rw [isRooted_append _ _ (by decide)]
      decide
    | false =>
      have hc := hX c (List.mem_cons_self _ _)
      simp only [Bool.false_eq_true, if_false, String.empty_append]
      rw [isRooted_joinSep _ _ hc.1]
      exact isRooted_sepfree c hc.2.2

theorem cleanComps_empty_cons (r : Bool) (X : List String) :
    cleanComps r ("" :: X) = cleanComps r X := by
  unfold cleanComps
  simp [cleanStep]

theorem cleanComps_splitPath_renderPath (r : Bool) (acc : List String)
    (hacc : CleanStack r acc) :
    cleanComps r (splitPath (renderPath r acc.reverse)) = acc.reverse := by
  have helem := CleanStack_mem r acc hacc
  have hfree : ∀ c ∈ acc.reverse, sepChar ∉ c.data :=
    fun c hc => (helem c (List.mem_reverse.mp hc)).2.2
  cases hrev : acc.reverse with
  | nil =>
    cases r <;> decide
  | cons c rest =>
    rw [hrev] at hfree
    have hsplit : splitPath (joinSep (c :: rest)) = c :: rest :=
      splitPath_joinSep _ (by simp) hfree
    have hcl : cleanComps r (c :: rest) = c :: rest := by
      rw [← hrev]; exact cleanComps_reverse r acc hacc
    unfold renderPath
    cases r with
    | true =>
      simp only [if_true]
      have : ("/" : String) ++ joinSep (c :: rest) = "" ++ "/" ++ joinSep (c :: rest) := by
        simp
      rw [this, splitPath_append_sep, hsplit]
      have h0 : splitPath "" = [""] := by decide
      rw [h0]
      simp only [List.singleton_append]
      rw [cleanComps_empty_cons, hcl]
    | false =>
      simp only [Bool.false_eq_true, if_false, String.empty_append]
      rw [hsplit, hcl]

/-- Go `filepath.Clean` is idempotent. -/
theorem filepathClean_idem (x : String) : filepathClean (filepathClean x) = filepathClean x := by
  obtain ⟨acc, hacc, heq⟩ :=
    cleanComps_CleanStack (isRooted x) (splitPath x) (splitPath_mem_sepfree x)
  have helem : ∀ c ∈ acc.reverse, IsElem c :=
    fun c hc => CleanStack_mem _ acc hacc c (List.mem_reverse.mp hc)
  unfold filepathClean
  rw [heq, isRooted_renderPath _ _ helem, cleanComps_splitPath_renderPath _ _ hacc]

theorem filepathJoin_CleanOrEmpty (a b : String) : CleanOrEmpty (filepathJoin a b) := by
  unfold filepathJoin CleanOrEmpty
  split
  · split
    · exact Or.inl rfl
    · exact Or.inr (filepathClean_idem _)
  · exact Or.inr (filepathClean_idem _)

theorem utf8Len_pos (c : Char) : 1 ≤ utf8Len c := by
  unfold utf8Len
  split
  · exact Nat.le_refl _
  · split
    · decide
    · split <;> decide

theorem byteLen_append (a b : String) : byteLen (a ++ b) = byteLen a + byteLen b := by
  unfold byteLen
  rw [String.data_append, List.map_append, List.sum_append]

theorem byteLen_sep : byteLen "/" = 1 := by decide

theorem pathWeight_le_byteLen (p : String) : pathWeight p ≤ byteLen p := by
  unfold pathWeight
  split
  · exact Nat.zero_le _
  · exact Nat.le_refl _

theorem pathWeight_of_two_le (p : String) (h : 2 ≤ byteLen p) : pathWeight p = byteLen p := by
  unfold pathWeight
  split
  · rename_i hp
    rw [hp] at h
    exact absurd h (by decide)
  · rfl

theorem length_pos_of_ne_empty (n : String) (h : n ≠ "") : 1 ≤ byteLen n := by
  unfold byteLen
  cases hd : n.data with
  | nil => exact absurd (String.ext hd) h
  | cons x xs =>
    have := utf8Len_pos x
    simp only [List.map_cons, List.sum_cons]
    omega

theorem validName_spec (n : String) (h : validName n = true) :
    n ≠ "" ∧ n ≠ "." ∧ n ≠ ".." ∧ sepChar ∉ n.data := by
  simpa [validName] using h

theorem filepathClean_validName (n : String) (h : validName n = true) : filepathClean n = n := by
  obtain ⟨h1, h2, h3, h4⟩ := validName_spec n h
  unfold filepathClean
  rw [isRooted_sepfree n h4, splitPath_sepfree n h4]
  have : cleanComps false [n] = [n] := by
    have := cleanComps_append_elem false [] n h1 h2 h3
    simpa [cleanComps] using this
  rw [this]
  simp [renderPath, joinSep]

theorem filepathJoin_clean_valid (dest n : String) (hd : dest ≠ "")
    (h : validName n = true) :
    filepathJoin dest n
      = renderPath (isRooted dest) (cleanComps (isRooted dest) (splitPath dest) ++ [n]) := by
  obtain ⟨h1, h2, h3, h4⟩ := validName_spec n h
  unfold filepathJoin
  rw [if_neg hd]
  unfold filepathClean
  have hr : isRooted (dest ++ "/" ++ n) = isRooted dest := by
    rw [String.append_assoc, isRooted_append _ _ hd]
  rw [hr, splitPath_append_sep, splitPath_sepfree n h4, cleanComps_append_elem _ _ _ h1 h2 h3]

theorem filepathJoin_weight (dest n : String) (hd : CleanOrEmpty dest)
    (h : validName n = true) : pathWeight dest + 1 ≤ pathWeight (filepathJoin dest n) := by
  obtain ⟨h1, h2, h3, h4⟩ := validName_spec n h
  have hn := length_pos_of_ne_empty n h1
  by_cases he : dest = ""
  · subst he
    unfold filepathJoin
    rw [if_pos rfl, if_neg h1, filepathClean_validName n h]
    unfold pathWeight
    rw [if_neg h2, if_neg (by decide)]
    have h0 : byteLen "" = 0 := by decide
    rw [h0]
    omega
  · have hclean : filepathClean dest = dest := hd.resolve_left he
    rw [filepathJoin_clean_valid dest n he h]
    have hdest : dest = renderPath (isRooted dest) (cleanComps (isRooted dest) (splitPath dest)) :=
      hclean.symm
    cases hX : cleanComps (isRooted dest) (splitPath dest) with
    | nil =>
      rw [hX] at hdest
      cases hr : isRooted dest with
      | true =>
        rw [hr] at hdest
        have hd1 : dest = "/" := by simpa [renderPath] using hdest
        simp only [List.nil_append, renderPath, if_true, joinSep]
        have h1l : byteLen "/" = 1 := byteLen_sep
        have hlen : byteLen ("/" ++ n) = 1 + byteLen n := by
          rw [byteLen_append, h1l]
        have hw := pathWeight_of_two_le ("/" ++ n) (by rw [hlen]; omega)
        have hwd := pathWeight_le_byteLen dest
        rw [hd1, h1l] at hwd
        rw [hw, hlen, hd1]
        omega
      | false =>
        rw [hr] at hdest
        have hd1 : dest = "." := by simpa [renderPath] using hdest
        simp only [List.nil_append, renderPath, Bool.false_eq_true, if_false, joinSep,
          String.empty_append]
        rw [hd1]
        unfold pathWeight
        rw [if_pos rfl, if_neg h2]
        omega
    | cons c rest =>
      rw [hX] at hdest
      have hne : c :: rest ≠ [] := by simp
      have hj : renderPath (isRooted dest) (c :: rest ++ [n]) = dest ++ "/" ++ n := by
        have hrd : renderPath (isRooted dest) (c :: rest)
            = (if isRooted dest then "/" else "") ++ joinSep (c :: rest) := rfl
        have hrj : renderPath (isRooted dest) (c :: rest ++ [n])
            = (if isRooted dest then "/" else "") ++ joinSep (c :: rest ++ [n]) := rfl
        rw [hrj, joinSep_append_elem _ _ hne]
        conv_rhs => rw [hdest, hrd]
        simp only [String.append_assoc]
      rw [hj]
      have hlen : byteLen (dest ++ "/" ++ n) = byteLen dest + 1 + byteLen n := by
        rw [byteLen_append, byteLen_append, byteLen_sep]
      have hw := pathWeight_of_two_le (dest ++ "/" ++ n) (by rw [hlen]; omega)
      have hwd := pathWeight_le_byteLen dest
      rw [hw, hlen]
      omega

/-! ### The recursion of `copyDir` ends by itself -/

theorem resolve_too_long (fs : FS) (path : String) (follow : Bool)
    (h : PATH_MAX ≤ byteLen path) : resolve fs path follow = .error .ENAMETOOLONG := by
  unfold resolve
  rw [if_pos h]

theorem osMkdirAll_too_long (fs : FS) (path : String) (perm : Nat)
    (h : PATH_MAX ≤ byteLen path) : ∃ err fs1, osMkdirAll fs path perm = (some err, fs1) := by
  unfold osMkdirAll mkdirAllChain
  have hst : osStat fs path = .error (.sys "stat" path .ENAMETOOLONG) := by
    unfold osStat; rw [resolve_too_long fs path true h]
  rw [hst]
  simp only []
  split
  · exact ⟨_, _, rfl⟩
  · rename_i fs1 hp
    have hmk : ∃ err, osMkdir fs1 path perm = (some err, fs1) := by
      unfold osMkdir
      split
      · exact ⟨_, rfl⟩
      · rw [resolve_too_long fs1 path false h]
        exact ⟨_, rfl⟩
    obtain ⟨err, hmk⟩ := hmk
    rw [hmk]
    simp only []
    have hl : osLstat fs1 path = .error (.sys "lstat" path .ENAMETOOLONG) := by
      unfold osLstat; rw [resolve_too_long fs1 path false h]
    rw [hl]
    exact ⟨_, _, rfl⟩

theorem insertName_mem (n : String) (l : List String) :
    ∀ m ∈ insertName n l, m = n ∨ m ∈ l := by
  induction l with
  | nil => simp [insertName]
  | cons a rest ih =>
    intro m hm
    unfold insertName at hm
    split at hm
    · exact Or.inr hm
    · split at hm
      · simp only [List.mem_cons] at hm
        rcases hm with hm | hm | hm
        · exact Or.inl hm
        · exact Or.inr (by simp [hm])
        · exact Or.inr (by simp [hm])
      · simp only [List.mem_cons] at hm
        rcases hm with hm | hm
        · exact Or.inr (by simp [hm])
        · rcases ih m hm with h | h
          · exact Or.inl h
          · exact Or.inr (by simp [h])

theorem sortNames_mem (l : List String) : ∀ m ∈ sortNames l, m ∈ l := by
  induction l with
  | nil => simp [sortNames]
  | cons a rest ih =>
    intro m hm
    unfold sortNames at hm
    rcases insertName_mem a _ m hm with h | h
    · simp [h]
    · exact List.mem_cons_of_mem _ (ih m h)

theorem childNames_valid (fs : FS) (k : Key) : ∀ n ∈ fs.childNames k, validName n = true := by
  intro n hn
  unfold FS.childNames at hn
  have := sortNames_mem _ n hn
  simp only [List.mem_filterMap] at this
  obtain ⟨e, _, he⟩ := this
  split at he
  · split at he
    · rename_i hcond
      simp only [Option.some.injEq] at he
      rw [← he]; exact hcond.2.1
    · cases he
  · cases he

theorem osReadDir_valid (fs : FS) (path : String) (entries : List DirEntry)
    (h : osReadDir fs path = .ok entries) : ∀ e ∈ entries, validName e.name = true := by
  unfold osReadDir at h
  split at h
  · cases h
  · split at h
    · cases h
    · cases h
    · rename_i k p hr
      simp only [Except.ok.injEq] at h
      intro e he
      rw [← h] at he
      simp only [List.mem_map] at he
      obtain ⟨n, hn, hne⟩ := he
      rw [← hne]
      exact childNames_valid fs k n hn
    · cases h

theorem copyEntries_congr (recur1 recur2 : FS → String → String → Option GoError × FS)
    (source dest : String) (entries : List DirEntry) (fs : FS)
    (h : ∀ e ∈ entries, ∀ fs0 : FS, recur1 fs0 (filepathJoin source e.name)
        (filepathJoin dest e.name)
      = recur2 fs0 (filepathJoin source e.name) (filepathJoin dest e.name)) :
    copyEntries recur1 source dest entries fs = copyEntries recur2 source dest entries fs := by
  induction entries generalizing fs with
  | nil => rfl
  | cons e rest ih =>
    unfold copyEntries
    simp only []
    rw [h e (List.mem_cons_self _ _) fs]
    have ih2 := fun fs1 => ih fs1 (fun e1 he1 => h e1 (List.mem_cons_of_mem _ he1))
    split
    · split
      · rfl
      · exact ih2 _
    · split
      · rfl
      · exact ih2 _

theorem copyDir_succ_stable (fuel : Nat) (hf : 1 ≤ fuel) (fs : FS) (source dest : String)
    (hd : CleanOrEmpty dest) (hw : PATH_MAX + 1 ≤ pathWeight dest + fuel) :
    copyDir (fuel + 1) fs source dest = copyDir fuel fs source dest := by
  induction fuel generalizing fs source dest with
  | zero => exact absurd hf (by decide)
  | succ g ih =>
    rw [copyDir]
    conv_rhs => rw [copyDir]
    split
    · rfl
    · rename_i sourceInfo hst
      cases hmk : osMkdirAll fs dest sourceInfo.perm with
      | mk oerr fs1 =>
        cases oerr with
        | some err => rfl
        | none =>
          simp only []
          cases hrd : osReadDir fs1 source with
          | error e => rfl
          | ok entries =>
            simp only []
            have hlen : byteLen dest < PATH_MAX := by
              by_contra hcon
              obtain ⟨err, fs2, h2⟩ := osMkdirAll_too_long fs dest sourceInfo.perm
                (Nat.le_of_not_lt hcon)
              rw [h2] at hmk
              cases hmk
            have hg : 1 ≤ g := by
              have := pathWeight_le_byteLen dest
              omega
            apply copyEntries_congr
            intro e he fs0
            have hv := osReadDir_valid _ _ _ hrd e he
            exact ih hg fs0 _ _ (filepathJoin_CleanOrEmpty _ _)
              (by have := filepathJoin_weight dest e.name hd hv; omega)

/-- The recursion bound of `copyDir` is never what ends the recursion: from
`copyDepth` on, a larger bound gives the same result. -/
theorem copyDir_fuel_irrelevant (k : Nat) (fs : FS) (source dest : String)
    (hd : CleanOrEmpty dest) :
    copyDir (copyDepth + k) fs source dest = copyDir copyDepth fs source dest := by
  induction k with
  | zero => rfl
  | succ j ih =>
    rw [← ih]
    exact copyDir_succ_stable (copyDepth + j) (by unfold copyDepth; omega) fs source dest hd
      (by unfold copyDepth; omega)

/-- The copy `syncResource` makes of a directory does not depend on the recursion
bound it gives to `copyDir`. -/
theorem syncResource_copyDir_total (k : Nat) (fs : FS) (source destDir resource : String) :
    copyDir (copyDepth + k) fs source (filepathJoin destDir resource)
      = copyDir copyDepth fs source (filepathJoin destDir resource) :=
  copyDir_fuel_irrelevant k fs source _ (filepathJoin_CleanOrEmpty _ _)

/-! ### The link made in symlink mode -/

theorem isRooted_filepathClean (s : String) : isRooted (filepathClean s) = isRooted s := by
  obtain ⟨acc, hacc, heq⟩ :=
    cleanComps_CleanStack (isRooted s) (splitPath s) (splitPath_mem_sepfree s)
  have helem : ∀ c ∈ acc.reverse, IsElem c :=
    fun c hc => CleanStack_mem _ acc hacc c (List.mem_reverse.mp hc)
  unfold filepathClean
  rw [heq, isRooted_renderPath _ _ helem]

theorem isRooted_ne_empty (s : String) (h : isRooted s = true) : s ≠ "" := by
  intro hs
  rw [hs] at h
  exact absurd h (by decide)

theorem isRooted_filepathJoin (a b : String) (h : isRooted a = true) :
    isRooted (filepathJoin a b) = true := by
  have ha := isRooted_ne_empty a h
  unfold filepathJoin
  rw [if_neg ha, isRooted_filepathClean, String.append_assoc, isRooted_append _ _ ha, h]

theorem filepathClean_filepathJoin (a b : String) (h : isRooted a = true) :
    filepathClean (filepathJoin a b) = filepathJoin a b := by
  have ha := isRooted_ne_empty a h
  unfold filepathJoin
  rw [if_neg ha, filepathClean_idem]

theorem FS.put_cwd (fs : FS) (k : Key) (n : Node) : (fs.put k n).cwd = fs.cwd := rfl

theorem FS.put_fault (fs : FS) (k : Key) (n : Node) : (fs.put k n).fault = fs.fault := rfl

theorem osMkdir_env (fs : FS) (path : String) (perm : Nat) :
    (osMkdir fs path perm).2.cwd = fs.cwd ∧ (osMkdir fs path perm).2.fault = fs.fault := by
  unfold osMkdir
  split
  · exact ⟨rfl, rfl⟩
  · split <;> exact ⟨rfl, rfl⟩

theorem mkdirAllChain_env (perm : Nat) (chain : List String) (fs : FS) :
    (mkdirAllChain perm chain fs).2.cwd = fs.cwd ∧
    (mkdirAllChain perm chain fs).2.fault = fs.fault := by
  induction chain generalizing fs with
  | nil => exact ⟨rfl, rfl⟩
  | cons path parents ih =>
    unfold mkdirAllChain
    split
    · split <;> exact ⟨rfl, rfl⟩
    · have h1 := ih fs
      split
      · rename_i err fs1 heq
        rw [heq] at h1; exact h1
      · rename_i fs1 heq
        rw [heq] at h1
        have h2 := osMkdir_env fs1 path perm
        have h3 : (osMkdir fs1 path perm).2.cwd = fs.cwd ∧
            (osMkdir fs1 path perm).2.fault = fs.fault :=
          ⟨h2.1.trans h1.1, h2.2.trans h1.2⟩
        split
        · rename_i fs2 hmk
          rw [hmk] at h3; exact h3
        · rename_i err fs2 hmk
          rw [hmk] at h3
          split
          · split <;> exact h3
          · exact h3

theorem filepathAbs_env (fs fs1 : FS) (path : String) (hc : fs1.cwd = fs.cwd)
    (hf : fs1.fault = fs.fault) : filepathAbs fs1 path = filepathAbs fs path := by
  unfold filepathAbs osGetwd
  rw [hc, hf]

theorem osGetwd_rooted (fs : FS) (wd : String) (h : osGetwd fs = .ok wd) :
    isRooted wd = true := by
  unfold osGetwd at h
  split at h
  · cases h
  · cases h
    cases fs.cwd with
    | nil => decide
    | cons c rest =>
      unfold renderPath
      simp only [if_true]
      rw [isRooted_append _ _ (by decide)]
      decide

theorem filepathAbs_rooted (fs : FS) (path target : String)
    (h : filepathAbs fs path = .ok target) : isRooted target = true := by
  unfold filepathAbs at h
  split at h
  · rename_i hr
    cases h
    rw [isRooted_filepathClean]; exact hr
  · split at h
    · cases h
    · rename_i wd hwd
      cases h
      exact isRooted_filepathJoin _ _ (osGetwd_rooted fs wd hwd)

theorem createSymlink_spec (fs : FS) (source dest : String) (fs1 : FS)
    (h : createSymlink fs source dest = (none, fs1)) :
    ∃ k target, filepathAbs fs source = .ok target ∧
      resolve fs1 dest false = .ok (k, some (.symlink target)) := by
  unfold createSymlink at h
  split at h
  · cases h
  · rename_i absSource habs
    split at h
    · cases h
    · rename_i fs2 hs
      cases h
      unfold osSymlink at hs
      split at hs
      · cases hs
      · split at hs
        · cases hs
        · split at hs
          · cases hs
          · split at hs
            · cases hs
            · cases hs
            · rename_i k hr
              cases hs
              exact ⟨k, absSource, habs, resolve_put_final _ _ _ _ _ (Or.inl rfl) hr⟩

theorem syncResource_symlink_spec (fs : FS) (resource sourceDir destDir : String)
    (hmode : (syncResource fs resource sourceDir destDir .SyncModeSymlink).1.Mode = "symlink")
    (hok : (syncResource fs resource sourceDir destDir .SyncModeSymlink).1.Success = true) :
    ∃ k target,
      resolve (syncResource fs resource sourceDir destDir .SyncModeSymlink).2
          (filepathJoin destDir resource) false = .ok (k, some (.symlink target)) ∧
      filepathAbs fs (filepathJoin sourceDir resource) = .ok target ∧
      isRooted target = true ∧
      (isRooted sourceDir = true → target = filepathJoin sourceDir resource) := by
  cases hsrc : osLstat fs (filepathJoin sourceDir resource) with
  | error e =>
    unfold syncResource at hok
    simp only [hsrc] at hok
    split at hok <;> simp at hok
  | ok sourceInfo =>
    cases hdst : osLstat fs (filepathJoin destDir resource) with
    | ok destInfo =>
      rw [syncResource_exists_of_lstat _ _ _ _ _ _ _ hsrc hdst] at hmode
      simp at hmode
    | error e =>
      have ha := syncResource_attempt fs resource sourceDir destDir .SyncModeSymlink
        sourceInfo e hsrc hdst
      split at ha
      · rw [ha.1] at hok; simp at hok
      · rename_i fsa hmk
        simp only [if_true] at ha
        split at ha
        · rw [ha.1] at hok; simp at hok
        · rename_i fsb hstep
          rw [ha]
          simp only []
          obtain ⟨k, target, habs, hres⟩ := createSymlink_spec _ _ _ _ hstep
          have henv := mkdirAllChain_env 0o755
            (filepathDir (filepathJoin destDir resource) ::
              parentChain (filepathDir (filepathJoin destDir resource))) fs
          have hmk2 : mkdirAllChain 0o755
              (filepathDir (filepathJoin destDir resource) ::
                parentChain (filepathDir (filepathJoin destDir resource))) fs = (none, fsa) := hmk
          rw [hmk2] at henv
          rw [filepathAbs_env fs fsa _ henv.1 henv.2] at habs
          refine ⟨k, target, hres, habs, filepathAbs_rooted _ _ _ habs, ?_⟩
          intro hr
          unfold filepathAbs at habs
          rw [if_pos (isRooted_filepathJoin _ _ hr), filepathClean_filepathJoin _ _ hr] at habs
          cases habs
          rfl

/-! ### `strings.ReplaceAll` and `ResolveWorktreePath` -/

theorem hasPrefixChars_self_append (o s : List Char) : hasPrefixChars (o ++ s) o = true := by
  induction o with
  | nil => cases s <;> rfl
  | cons c o ih => simp [hasPrefixChars, ih]

theorem hasPrefixChars_straddle (h : Char) (P : List Char) (hP : h ∉ P) (q rest : List Char)
    (hq : hasPrefixChars (q ++ h :: rest) P = true) : hasPrefixChars q P = true := by
  induction P generalizing q with
  | nil => cases q <;> rfl
  | cons x P ih =>
    simp only [List.mem_cons, not_or] at hP
    cases q with
    | nil =>
      simp only [List.nil_append, hasPrefixChars, Bool.and_eq_true, decide_eq_true_eq] at hq
      exact absurd hq.1 hP.1
    | cons c q =>
      simp only [List.cons_append, hasPrefixChars, Bool.and_eq_true, decide_eq_true_eq] at hq ⊢
      exact ⟨hq.1, ih hP.2 q hq.2⟩

theorem containsChars_cons_false (c : Char) (cs old : List Char)
    (h : containsChars (c :: cs) old = false) :
    hasPrefixChars (c :: cs) old = false ∧ containsChars cs old = false := by
  simpa [containsChars] using h

theorem replaceAllChars_skip (old new : List Char) (k : Nat) (l : List Char) :
    replaceAllChars old new k l = replaceAllChars old new 0 (l.drop k) := by
  induction l generalizing k with
  | nil => cases k <;> simp [replaceAllChars]
  | cons c cs ih =>
    cases k with
    | zero => rfl
    | succ k => simp only [replaceAllChars, List.drop_succ_cons]; exact ih k

theorem replaceAllChars_none (old new : List Char) (l : List Char)
    (h : containsChars l old = false) : replaceAllChars old new 0 l = l := by
  induction l with
  | nil => rfl
  | cons c cs ih =>
    obtain ⟨h1, h2⟩ := containsChars_cons_false c cs old h
    simp only [replaceAllChars, h1, Bool.false_eq_true, if_false, ih h2]

theorem replaceAllChars_zero_cons (old new : List Char) (c : Char) (cs : List Char) :
    replaceAllChars old new 0 (c :: cs)
      = if hasPrefixChars (c :: cs) old then new ++ replaceAllChars old new (old.length - 1) cs
        else c :: replaceAllChars old new 0 cs := rfl

theorem replaceAllChars_one (hd : Char) (T new : List Char) (hT : hd ∉ T)
    (p s : List Char) (hp : containsChars p (hd :: T) = false) :
    replaceAllChars (hd :: T) new 0 (p ++ (hd :: T) ++ s)
      = p ++ new ++ replaceAllChars (hd :: T) new 0 s := by
  induction p with
  | nil =>
    have hpre : hasPrefixChars (hd :: (T ++ s)) (hd :: T) = true :=
      hasPrefixChars_self_append (hd :: T) s
    show replaceAllChars (hd :: T) new 0 (hd :: (T ++ s)) = new ++ _
    rw [replaceAllChars_zero_cons, if_pos hpre, replaceAllChars_skip]
    have hlen : (hd :: T).length - 1 = T.length := by simp
    rw [hlen, List.drop_left]
  | cons c p ih =>
    obtain ⟨h1, h2⟩ := containsChars_cons_false c p _ hp
    have hno : hasPrefixChars (c :: (p ++ (hd :: T) ++ s)) (hd :: T) = false := by
      cases hcase : hasPrefixChars (c :: (p ++ (hd :: T) ++ s)) (hd :: T) with
      | false => rfl
      | true =>
        simp only [hasPrefixChars, Bool.and_eq_true, decide_eq_true_eq] at hcase
        have hq : hasPrefixChars p T = true := by
          apply hasPrefixChars_straddle hd T hT p (T ++ s)
          rw [← hcase.2]
          congr 1
          simp
        have : hasPrefixChars (c :: p) (hd :: T) = true := by
          simp [hasPrefixChars, hcase.1, hq]
        rw [this] at h1
        cases h1
    show replaceAllChars (hd :: T) new 0 (c :: (p ++ (hd :: T) ++ s)) = c :: (p ++ new ++ _)
    rw [replaceAllChars_zero_cons, if_neg (by rw [hno]; simp), ih h2]

theorem branch_data : ∃ hd T, ("{branch}" : String).data = hd :: T ∧ hd ∉ T :=
  ⟨Char.ofNat 123, ("branch\x7d" : String).data, by decide, by decide⟩

theorem ResolveWorktreePath_one (c : Config) (b pre suf : String)
    (hwp : c.WorktreePath = pre ++ "{branch}" ++ suf)
    (hpre : stringsContains pre "{branch}" = false)
    (hsuf : stringsContains suf "{branch}" = false) :
    c.ResolveWorktreePath b = pre ++ b ++ suf := by
  unfold Config.ResolveWorktreePath stringsReplaceAll
  unfold stringsContains at hpre hsuf
  obtain ⟨hd, T, hO, hT⟩ := branch_data
  rw [hO] at hpre hsuf ⊢
  show String.mk (replaceAllChars (hd :: T) b.data 0 c.WorktreePath.data) = _
  rw [hwp, String.data_append, String.data_append, hO,
    replaceAllChars_one _ _ _ hT _ _ hpre, replaceAllChars_none _ _ _ hsuf]
  apply String.ext
  rw [String.data_append, String.data_append]

theorem ResolveWorktreePath_none (c : Config) (b : String)
    (h : stringsContains c.WorktreePath "{branch}" = false) :
    c.ResolveWorktreePath b = c.WorktreePath := by
  unfold Config.ResolveWorktreePath stringsReplaceAll
  unfold stringsContains at h
  obtain ⟨hd, T, hO, hT⟩ := branch_data
  rw [hO] at h ⊢
  show String.mk (replaceAllChars (hd :: T) b.data 0 c.WorktreePath.data) = _
  rw [replaceAllChars_none _ _ _ h]

/-! ### A failing step fails the link or the copy -/

theorem createSymlink_steps (fs : FS) (source dest : String) :
    (∀ e, filepathAbs fs source = .error e →
      createSymlink fs source dest = (some (.wrap "failed to get absolute path" e), fs)) ∧
    (∀ absSource e fs1, filepathAbs fs source = .ok absSource →
      osSymlink fs absSource dest = (some e, fs1) →
      createSymlink fs source dest = (some (.wrap "failed to create symlink" e), fs1)) := by
  refine ⟨fun e h => ?_, fun absSource e fs1 ha hs => ?_⟩
  · unfold createSymlink
    rw [h]
  · unfold createSymlink
    rw [ha]
    simp only [hs]

theorem copyFile_steps (fs : FS) (source dest : String) :
    (∀ e, osOpen fs source = .error e →
      copyFile fs source dest = (some (.wrap "failed to open source file" e), fs)) ∧
    (∀ sourceFile e fs1, osOpen fs source = .ok sourceFile →
      osCreate fs dest = (.error e, fs1) →
      copyFile fs source dest = (some (.wrap "failed to create destination file" e), fs1)) ∧
    (∀ sourceFile destFile fs1 e fs2, osOpen fs source = .ok sourceFile →
      osCreate fs dest = (.ok destFile, fs1) →
      ioCopy fs1 destFile sourceFile source = (some e, fs2) →
      copyFile fs source dest = (some (.wrap "failed to copy file" e), fs2)) ∧
    (∀ sourceFile destFile fs1 fs2 e, osOpen fs source = .ok sourceFile →
      osCreate fs dest = (.ok destFile, fs1) →
      ioCopy fs1 destFile sourceFile source = (none, fs2) →
      osStat fs2 source = .error e →
      copyFile fs source dest = (some (.wrap "failed to stat source file" e), fs2)) ∧
    (∀ sourceFile destFile fs1 fs2 sourceInfo e fs3, osOpen fs source = .ok sourceFile →
      osCreate fs dest = (.ok destFile, fs1) →
      ioCopy fs1 destFile sourceFile source = (none, fs2) →
      osStat fs2 source = .ok sourceInfo →
      osChmod fs2 dest sourceInfo.perm = (some e, fs3) →
      copyFile fs source dest = (some (.wrap "failed to set permissions" e), fs3)) := by
  refine ⟨?_, ?_, ?_, ?_, ?_⟩
  · intro e h
    unfold copyFile
    rw [h]
  · intro sf e fs1 h1 h2
    unfold copyFile
    rw [h1]
    simp only [h2]
  · intro sf df fs1 e fs2 h1 h2 h3
    unfold copyFile
    rw [h1]
    simp only [h2, h3]
  · intro sf df fs1 fs2 e h1 h2 h3 h4
    unfold copyFile
    rw [h1]
    simp only [h2, h3, h4]
  · intro sf df fs1 fs2 info e fs3 h1 h2 h3 h4 h5
    unfold copyFile
    rw [h1]
    simp only [h2, h3, h4, h5]

theorem copyEntries_first_failure (recur : FS → String → String → Option GoError × FS)
    (source dest : String) (pre : List DirEntry) (entry : DirEntry) (post : List DirEntry)
    (fs fsk fs2 : FS) (e : GoError)
    (hpre : copyEntries recur source dest pre fs = (none, fsk))
    (hentry : (if entry.isDir then
        recur fsk (filepathJoin source entry.name) (filepathJoin dest entry.name)
      else copyFile fsk (filepathJoin source entry.name) (filepathJoin dest entry.name))
      = (some e, fs2)) :
    copyEntries recur source dest (pre ++ entry :: post) fs = (some e, fs2) := by
  induction pre generalizing fs with
  | nil =>
    simp only [copyEntries, Prod.mk.injEq, true_and] at hpre
    subst hpre
    simp only [List.nil_append, copyEntries]
    by_cases hd : entry.isDir = true
    · rw [if_pos hd] at hentry ⊢
      rw [hentry]
    · rw [if_neg hd] at hentry ⊢
      rw [hentry]
  | cons a rest ih =>
    simp only [List.cons_append, copyEntries] at hpre ⊢
    by_cases hd : a.isDir = true
    · rw [if_pos hd] at hpre ⊢
      split at hpre
      · cases hpre
      · rename_i fs1 h1
        exact ih _ hpre
    · rw [if_neg hd] at hpre ⊢
      split at hpre
      · cases hpre
      · rename_i fs1 h1
        exact ih _ hpre

theorem copyDir_unfold (fs : FS) (source dest : String) (hd : CleanOrEmpty dest) :
    copyDir copyDepth fs source dest =
      match osStat fs source with
      | .error err => (some (.wrap "failed to stat source directory" err), fs)
      | .ok sourceInfo =>
        match osMkdirAll fs dest sourceInfo.perm with
        | (some err, fs1) => (some (.wrap "failed to create destination directory" err), fs1)
        | (none, fs1) =>
          match osReadDir fs1 source with
          | .error err => (some (.wrap "failed to read directory" err), fs1)
          | .ok entries => copyEntries (copyDir copyDepth) source dest entries fs1 := by
  rw [← copyDir_fuel_irrelevant 1 fs source dest hd]
  show copyDir (copyDepth + 1) fs source dest = _
  rw [copyDir]

theorem copyDir_steps (fs : FS) (source dest : String) (hd : CleanOrEmpty dest) :
    (∀ e, osStat fs source = .error e →
      copyDir copyDepth fs source dest
        = (some (.wrap "failed to stat source directory" e), fs)) ∧
    (∀ sourceInfo e fs1, osStat fs source = .ok sourceInfo →
      osMkdirAll fs dest sourceInfo.perm = (some e, fs1) →
      copyDir copyDepth fs source dest
        = (some (.wrap "failed to create destination directory" e), fs1)) ∧
    (∀ sourceInfo fs1 e, osStat fs source = .ok sourceInfo →
      osMkdirAll fs dest sourceInfo.perm = (none, fs1) →
      osReadDir fs1 source = .error e →
      copyDir copyDepth fs source dest = (some (.wrap "failed to read directory" e), fs1)) ∧
    (∀ sourceInfo fs1 pre entry post fsk e fs2, osStat fs source = .ok sourceInfo →
      osMkdirAll fs dest sourceInfo.perm = (none, fs1) →
      osReadDir fs1 source = .ok (pre ++ entry :: post) →
      copyEntries (copyDir copyDepth) source dest pre fs1 = (none, fsk) →
      (if entry.isDir then
          copyDir copyDepth fsk (filepathJoin source entry.name) (filepathJoin dest entry.name)
        else copyFile fsk (filepathJoin source entry.name) (filepathJoin dest entry.name))
        = (some e, fs2) →
      copyDir copyDepth fs source dest = (some e, fs2)) := by
  refine ⟨?_, ?_, ?_, ?_⟩
  · intro e h
    rw [copyDir_unfold fs source dest hd, h]
  · intro info e fs1 h1 h2
    rw [copyDir_unfold fs source dest hd, h1]
    simp only [h2]
  · intro info fs1 e h1 h2 h3
    rw [copyDir_unfold fs source dest hd, h1]
    simp only [h2, h3]
  · intro info fs1 pre entry post fsk e fs2 h1 h2 h3 h4 h5
    rw [copyDir_unfold fs source dest hd, h1]
    simp only [h2, h3]
    exact copyEntries_first_failure _ _ _ _ _ _ _ _ _ _ h4 h5

/-! ### How looking the source up can fail -/

theorem walkSeg_error_cases (fs : FS) (cur : Key) (cs : List String) (follow : Bool)
    (e : Errno) (h : walkSeg fs cur cs follow = .error e) :
    e = .ENOENT ∨ e = .ENOTDIR ∨ e = .ELOOP ∨ e = .ENAMETOOLONG := by
  induction cs generalizing cur with
  | nil => simp [walkSeg] at h
  | cons c rest ih =>
    simp only [walkSeg] at h
    split at h
    · exact ih _ h
    · split at h
      · exact ih _ h
      · split at h
        · cases h; simp
        · split at h
          · split at h
            · cases h
            · cases h; simp
          · split at h
            · cases h
            · exact ih _ h
          · split at h
            · cases h
            · cases h; simp
          · split at h
            · cases h
            · split at h
              · cases h; simp
              · cases h

theorem walk_error_cases (fs : FS) (links : Nat) (cur : Key) (cs : List String)
    (follow : Bool) (e : Errno) (h : walk fs links cur cs follow = .error e) :
    e = .ENOENT ∨ e = .ENOTDIR ∨ e = .ELOOP ∨ e = .ENAMETOOLONG := by
  induction links generalizing cur cs with
  | zero =>
    simp only [walk] at h
    split at h
    · rename_i e1 hs
      cases h
      exact walkSeg_error_cases _ _ _ _ _ hs
    · cases h
    · cases h; simp
  | succ l ih =>
    simp only [walk] at h
    split at h
    · rename_i e1 hs
      cases h
      exact walkSeg_error_cases _ _ _ _ _ hs
    · cases h
    · exact ih _ _ h

theorem resolve_error_cases (fs : FS) (path : String) (follow : Bool) (e : Errno)
    (h : resolve fs path follow = .error e) :
    e = .ENOENT ∨ e = .ENOTDIR ∨ e = .ELOOP ∨ e = .ENAMETOOLONG := by
  unfold resolve at h
  split at h
  · cases h; simp
  · split at h
    · cases h; simp
    · split at h
      · exact walk_error_cases _ _ _ _ _ _ h
      · split at h
        · exact walk_error_cases _ _ _ _ _ _ h
        · cases h; simp

theorem osLstat_error_cases (fs : FS) (path : String) (err : GoError)
    (h : osLstat fs path = .error err) :
    ∃ errno, err = .sys "lstat" path errno ∧
      (errno = .ENOENT ∨ errno = .ENOTDIR ∨ errno = .ELOOP ∨ errno = .ENAMETOOLONG) := by
  unfold osLstat at h
  split at h
  · rename_i e hr
    cases h
    exact ⟨e, rfl, resolve_error_cases _ _ _ _ hr⟩
  · cases h
    exact ⟨.ENOENT, rfl, Or.inl rfl⟩
  · cases h

theorem syncResource_of_lstat_error (fs : FS) (resource sourceDir destDir : String)
    (mode : SyncMode) (errno : Errno)
    (hsrc : osLstat fs (filepathJoin sourceDir resource)
      = .error (.sys "lstat" (filepathJoin sourceDir resource) errno)) :
    (errno = .ENOENT →
      syncResource fs resource sourceDir destDir mode
        = (⟨resource, "skip", false,
            some (.errorf ("source does not exist: " ++ resource))⟩, fs)) ∧
    (errno ≠ .ENOENT →
      syncResource fs resource sourceDir destDir mode
        = (⟨resource, "error", false,
            some (.wrap "failed to stat source"
              (.sys "lstat" (filepathJoin sourceDir resource) errno))⟩, fs)) := by
  refine ⟨fun he => ?_, fun he => ?_⟩
  · subst he
    unfold syncResource
    simp only [hsrc, osIsNotExist, if_true]
  · unfold syncResource
    simp only [hsrc]
    cases errno <;> first | exact absurd rfl he | rfl

theorem syncResource_step_reached (fs : FS) (resource sourceDir destDir : String)
    (mode : SyncMode)
    (h : (syncResource fs resource sourceDir destDir mode).1.Mode = "symlink" ∨
      (syncResource fs resource sourceDir destDir mode).1.Mode = "copy") :
    ∃ sourceInfo e fs1,
      osLstat fs (filepathJoin sourceDir resource) = .ok sourceInfo ∧
      osLstat fs (filepathJoin destDir resource) = .error e ∧
      osMkdirAll fs (filepathDir (filepathJoin destDir resource)) 0o755 = (none, fs1) := by
  cases hsrc : osLstat fs (filepathJoin sourceDir resource) with
  | error err =>
    obtain ⟨errno, herr, _⟩ := osLstat_error_cases _ _ _ hsrc
    subst herr
    obtain ⟨h1, h2⟩ := syncResource_of_lstat_error fs resource sourceDir destDir mode errno hsrc
    by_cases he : errno = .ENOENT
    · rw [h1 he] at h
      simp at h
    · rw [h2 he] at h
      simp at h
  | ok sourceInfo =>
    cases hdst : osLstat fs (filepathJoin destDir resource) with
    | ok destInfo =>
      rw [syncResource_exists_of_lstat _ _ _ _ _ _ _ hsrc hdst] at h
      simp at h
    | error e =>
      have ha := syncResource_attempt fs resource sourceDir destDir mode sourceInfo e hsrc hdst
      cases hmk : osMkdirAll fs (filepathDir (filepathJoin destDir resource)) 0o755 with
      | mk oerr fs1 =>
        cases oerr with
        | some err =>
          rw [hmk] at ha
          rw [ha.1] at h
          simp at h
        | none => exact ⟨sourceInfo, e, fs1, rfl, rfl, rfl⟩

/-! ## The claims of the specification -/

/-- C1. For every config, roots, force-copy flag and file system, failing
resources included, `SyncResources` returns a nil error and one outcome per
declared resource: the `Resource` fields of the results are, in order, the symlink
list followed by the copy list. -/
theorem SyncResources_one_outcome_per_resource (fs : FS) (cfg : Config)
    (sourceDir destDir : String) (forceCopy : Bool) :
    (SyncResources fs cfg sourceDir destDir forceCopy).1.2 = none ∧
    (SyncResources fs cfg sourceDir destDir forceCopy).1.1.map SyncResult.Resource
      = cfg.Resources.Symlink ++ cfg.Resources.Copy := by
  unfold SyncResources
  cases forceCopy <;> simp [syncLoop_resources]

/-- C2, counterexample. On a destination that cannot be written to, linking
`node_modules` fails and the outcome has `Mode` "symlink" with `Success` false: a
mode of "symlink" does not make the outcome a success. -/
theorem syncResource_failed_link_keeps_mode :
    (syncResource readOnlyDestFS "node_modules" "/main" "/wt" .SyncModeSymlink).1
      = ⟨"node_modules", "symlink", false,
          some (.wrap "failed to create symlink"
            (.sys "symlink" "/wt/node_modules" .EROFS))⟩ := by
  decide

/-- C2, as amended. For every outcome of `syncResource`: `Mode` "exists" comes with
`Success` true; `Mode` "skip" or "error" comes with `Success` false; `Mode`
"symlink" or "copy" means that the source was found, the parent directories were
made and the link or copy step was run, and then `Success` is true exactly when
that step returned no error, the outcome carries the error of the step, and the
file system is the one the step left; a success is an "exists", "symlink" or
"copy" after which `Lstat` finds the destination; and there is no other `Mode`. -/
theorem syncResource_mode_success (fs : FS) (resource sourceDir destDir : String)
    (mode : SyncMode) :
    ((syncResource fs resource sourceDir destDir mode).1.Mode = "exists" →
      (syncResource fs resource sourceDir destDir mode).1.Success = true) ∧
    ((syncResource fs resource sourceDir destDir mode).1.Mode = "skip" ∨
        (syncResource fs resource sourceDir destDir mode).1.Mode = "error" →
      (syncResource fs resource sourceDir destDir mode).1.Success = false) ∧
    ((syncResource fs resource sourceDir destDir mode).1.Mode = "symlink" ∨
        (syncResource fs resource sourceDir destDir mode).1.Mode = "copy" →
      ∃ sourceInfo fs1,
        osLstat fs (filepathJoin sourceDir resource) = .ok sourceInfo ∧
        osMkdirAll fs (filepathDir (filepathJoin destDir resource)) 0o755 = (none, fs1) ∧
        (syncResource fs resource sourceDir destDir mode).1.Mode
          = (if mode = .SyncModeSymlink then "symlink" else "copy") ∧
        (syncResource fs resource sourceDir destDir mode).1.Success
          = (if mode = .SyncModeSymlink then
               createSymlink fs1 (filepathJoin sourceDir resource) (filepathJoin destDir resource)
             else if sourceInfo.isDir then
               copyDir copyDepth fs1 (filepathJoin sourceDir resource)
                 (filepathJoin destDir resource)
             else
               copyFile fs1 (filepathJoin sourceDir resource)
                 (filepathJoin destDir resource)).1.isNone ∧
        (syncResource fs resource sourceDir destDir mode).1.Error
          = (if mode = .SyncModeSymlink then
               createSymlink fs1 (filepathJoin sourceDir resource) (filepathJoin destDir resource)
             else if sourceInfo.isDir then
               copyDir copyDepth fs1 (filepathJoin sourceDir resource)
                 (filepathJoin destDir resource)
             else
               copyFile fs1 (filepathJoin sourceDir resource)
                 (filepathJoin destDir resource)).1 ∧
        (syncResource fs resource sourceDir destDir mode).2
          = (if mode = .SyncModeSymlink then
               createSymlink fs1 (filepathJoin sourceDir resource) (filepathJoin destDir resource)
             else if sourceInfo.isDir then
               copyDir copyDepth fs1 (filepathJoin sourceDir resource)
                 (filepathJoin destDir resource)
             else
               copyFile fs1 (filepathJoin sourceDir resource)
                 (filepathJoin destDir resource)).2) ∧
    ((syncResource fs resource sourceDir destDir mode).1.Success = true →
      ((syncResource fs resource sourceDir destDir mode).1.Mode = "exists" ∨
        (syncResource fs resource sourceDir destDir mode).1.Mode = "symlink" ∨
        (syncResource fs resource sourceDir destDir mode).1.Mode = "copy") ∧
      ∃ destInfo, osLstat (syncResource fs resource sourceDir destDir mode).2
        (filepathJoin destDir resource) = .ok destInfo) ∧
    ((syncResource fs resource sourceDir destDir mode).1.Mode = "exists" ∨
      (syncResource fs resource sourceDir destDir mode).1.Mode = "skip" ∨
      (syncResource fs resource sourceDir destDir mode).1.Mode = "error" ∨
      (syncResource fs resource sourceDir destDir mode).1.Mode = "symlink" ∨
      (syncResource fs resource sourceDir destDir mode).1.Mode = "copy") := by
  have hshape : ((syncResource fs resource sourceDir destDir mode).1.Mode = "exists" ∧
        (syncResource fs resource sourceDir destDir mode).1.Success = true) ∨
      ((syncResource fs resource sourceDir destDir mode).1.Mode = "skip" ∧
        (syncResource fs resource sourceDir destDir mode).1.Success = false) ∨
      ((syncResource fs resource sourceDir destDir mode).1.Mode = "error" ∧
        (syncResource fs resource sourceDir destDir mode).1.Success = false) ∨
      (syncResource fs resource sourceDir destDir mode).1.Mode = "symlink" ∨
      (syncResource fs resource sourceDir destDir mode).1.Mode = "copy" := by
    unfold syncResource
    simp only []
    repeat' split
    all_goals simp
  refine ⟨?_, ?_, ?_, ?_, ?_⟩
  · intro hm
    rcases hshape with h | h | h | h | h
    · exact h.2
    · rw [h.1] at hm; simp at hm
    · rw [h.1] at hm; simp at hm
    · rw [h] at hm; simp at hm
    · rw [h] at hm; simp at hm
  · intro hm
    rcases hshape with h | h | h | h | h
    · rw [h.1] at hm; simp at hm
    · exact h.2
    · exact h.2
    · rw [h] at hm; simp at hm
    · rw [h] at hm; simp at hm
  · intro hm
    obtain ⟨sourceInfo, e, fs1, hsrc, hdst, hmk⟩ :=
      syncResource_step_reached fs resource sourceDir destDir mode hm
    have ha := syncResource_attempt fs resource sourceDir destDir mode sourceInfo e hsrc hdst
    rw [hmk] at ha
    simp only [] at ha
    refine ⟨sourceInfo, fs1, hsrc, hmk, ?_⟩
    split at ha
    · rename_i err fs2 hstep
      rw [ha.1, hstep]
      exact ⟨rfl, rfl, rfl, rfl⟩
    · rename_i fs2 hstep
      rw [ha, hstep]
      exact ⟨rfl, rfl, rfl, rfl⟩
  · intro hs
    refine ⟨?_, (syncResource_success_post fs resource sourceDir destDir mode hs).2⟩
    rcases hshape with h | h | h | h | h
    · exact Or.inl h.1
    · rw [h.2] at hs; cases hs
    · rw [h.2] at hs; cases hs
    · exact Or.inr (Or.inl h)
    · exact Or.inr (Or.inr h)
  · rcases hshape with h | h | h | h | h
    · exact Or.inl h.1
    · exact Or.inr (Or.inl h.1)
    · exact Or.inr (Or.inr (Or.inl h.1))
    · exact Or.inr (Or.inr (Or.inr (Or.inl h)))
    · exact Or.inr (Or.inr (Or.inr (Or.inr h)))

/-- C2, witness: linking `node_modules` succeeds in the example state, where the
link step returns no error, and fails on a destination that cannot be written to,
where the link step returns one. -/
theorem syncResource_mode_success_witness :
    (syncResource exampleFS "node_modules" "/main" "/wt" .SyncModeSymlink).1
      = ⟨"node_modules", "symlink", true, none⟩ ∧
    (createSymlink readOnlyDestFS "/main/node_modules" "/wt/node_modules").1
      = some (.wrap "failed to create symlink" (.sys "symlink" "/wt/node_modules" .EROFS)) ∧
    ∃ sourceInfo fs1,
      osLstat readOnlyDestFS (filepathJoin "/main" "node_modules") = .ok sourceInfo ∧
      osMkdirAll readOnlyDestFS (filepathDir (filepathJoin "/wt" "node_modules")) 0o755
        = (none, fs1) ∧
      (syncResource readOnlyDestFS "node_modules" "/main" "/wt" .SyncModeSymlink).1.Mode
        = (if SyncMode.SyncModeSymlink = .SyncModeSymlink then "symlink" else "copy") ∧
      (syncResource readOnlyDestFS "node_modules" "/main" "/wt" .SyncModeSymlink).1.Success
        = (if SyncMode.SyncModeSymlink = .SyncModeSymlink then
             createSymlink fs1 (filepathJoin "/main" "node_modules")
               (filepathJoin "/wt" "node_modules")
           else if sourceInfo.isDir then
             copyDir copyDepth fs1 (filepathJoin "/main" "node_modules")
               (filepathJoin "/wt" "node_modules")
           else
             copyFile fs1 (filepathJoin "/main" "node_modules")
               (filepathJoin "/wt" "node_modules")).1.isNone ∧
      (syncResource readOnlyDestFS "node_modules" "/main" "/wt" .SyncModeSymlink).1.Error
        = (if SyncMode.SyncModeSymlink = .SyncModeSymlink then
             createSymlink fs1 (filepathJoin "/main" "node_modules")
               (filepathJoin "/wt" "node_modules")
           else if sourceInfo.isDir then
             copyDir copyDepth fs1 (filepathJoin "/main" "node_modules")
               (filepathJoin "/wt" "node_modules")
           else
             copyFile fs1 (filepathJoin "/main" "node_modules")
               (filepathJoin "/wt" "node_modules")).1 ∧
      (syncResource readOnlyDestFS "node_modules" "/main" "/wt" .SyncModeSymlink).2
        = (if SyncMode.SyncModeSymlink = .SyncModeSymlink then
             createSymlink fs1 (filepathJoin "/main" "node_modules")
               (filepathJoin "/wt" "node_modules")
           else if sourceInfo.isDir then
             copyDir copyDepth fs1 (filepathJoin "/main" "node_modules")
               (filepathJoin "/wt" "node_modules")
           else
             copyFile fs1 (filepathJoin "/main" "node_modules")
               (filepathJoin "/wt" "node_modules")).2 :=
  ⟨by decide, by decide,
    (syncResource_mode_success readOnlyDestFS "node_modules" "/main" "/wt"
      .SyncModeSymlink).2.2.1 (Or.inl (by decide))⟩

/-- C3, counterexample. The source `.env` exists, the destination `.env` does not,
creating the destination file fails, and the outcome has `Mode` "copy", not
"error". -/
theorem syncResource_failed_copy_not_error :
    (osLstat readOnlyDestFS (filepathJoin "/main" ".env")).toBool = true ∧
    (osLstat readOnlyDestFS (filepathJoin "/wt" ".env")).toBool = false ∧
    (syncResource readOnlyDestFS ".env" "/main" "/wt" .SyncModeCopy).1.Mode = "copy" ∧
    (syncResource readOnlyDestFS ".env" "/main" "/wt" .SyncModeCopy).1.Mode ≠ "error" ∧
    (syncResource readOnlyDestFS ".env" "/main" "/wt" .SyncModeCopy).1.Success = false := by
  decide

/-- C3, as amended. When the source exists and the destination does not: if
creating the parent directories fails, the outcome has `Mode` "error", `Success`
false and wraps the cause; if the link or copy step returns an error, the outcome
has `Success` false and carries that error, with `Mode` left at "symlink" or
"copy", and the error has a system-call error at its root; otherwise the outcome
is the successful "symlink" or "copy". And the link or copy step returns an error
whenever one of its own steps fails, wrapping the error of that step: for
`createSymlink`, making the path absolute and `os.Symlink`; for `copyFile`,
opening the source, creating the destination, `io.Copy`, `os.Stat` of the source
and `os.Chmod`; for `copyDir`, `os.Stat` of the source, `os.MkdirAll` of the
destination, `os.ReadDir`, and the copy of the first entry that fails, whose error
is returned as it is; every destination `copyDir` is called on is a cleaned path. -/
theorem syncResource_io_failure (fs : FS) (resource sourceDir destDir : String)
    (mode : SyncMode) (sourceInfo : FileInfo) (e : GoError)
    (hsrc : osLstat fs (filepathJoin sourceDir resource) = .ok sourceInfo)
    (hdst : osLstat fs (filepathJoin destDir resource) = .error e) :
    (match osMkdirAll fs (filepathDir (filepathJoin destDir resource)) 0o755 with
    | (some err, fs1) =>
      syncResource fs resource sourceDir destDir mode
        = (⟨resource, "error", false,
            some (.wrap "failed to create parent directory" err)⟩, fs1)
      ∧ err.rootCause.isSome = true
    | (none, fs1) =>
      match (if mode = .SyncModeSymlink then
               createSymlink fs1 (filepathJoin sourceDir resource) (filepathJoin destDir resource)
             else if sourceInfo.isDir then
               copyDir copyDepth fs1 (filepathJoin sourceDir resource)
                 (filepathJoin destDir resource)
             else
               copyFile fs1 (filepathJoin sourceDir resource) (filepathJoin destDir resource)) with
      | (some err, fs2) =>
        syncResource fs resource sourceDir destDir mode
          = (⟨resource, if mode = .SyncModeSymlink then "symlink" else "copy", false,
              some err⟩, fs2)
        ∧ err.rootCause.isSome = true
      | (none, fs2) =>
        syncResource fs resource sourceDir destDir mode
          = (⟨resource, if mode = .SyncModeSymlink then "symlink" else "copy", true,
              none⟩, fs2)) ∧
    (∀ (fs0 : FS) (source dest : String),
      (∀ e, filepathAbs fs0 source = .error e →
        createSymlink fs0 source dest
          = (some (.wrap "failed to get absolute path" e), fs0)) ∧
      (∀ absSource e fs1, filepathAbs fs0 source = .ok absSource →
        osSymlink fs0 absSource dest = (some e, fs1) →
        createSymlink fs0 source dest = (some (.wrap "failed to create symlink" e), fs1))) ∧
    (∀ (fs0 : FS) (source dest : String),
      (∀ e, osOpen fs0 source = .error e →
        copyFile fs0 source dest = (some (.wrap "failed to open source file" e), fs0)) ∧
      (∀ sourceFile e fs1, osOpen fs0 source = .ok sourceFile →
        osCreate fs0 dest = (.error e, fs1) →
        copyFile fs0 source dest
          = (some (.wrap "failed to create destination file" e), fs1)) ∧
      (∀ sourceFile destFile fs1 e fs2, osOpen fs0 source = .ok sourceFile →
        osCreate fs0 dest = (.ok destFile, fs1) →
        ioCopy fs1 destFile sourceFile source = (some e, fs2) →
        copyFile fs0 source dest = (some (.wrap "failed to copy file" e), fs2)) ∧
      (∀ sourceFile destFile fs1 fs2 e, osOpen fs0 source = .ok sourceFile →
        osCreate fs0 dest = (.ok destFile, fs1) →
        ioCopy fs1 destFile sourceFile source = (none, fs2) →
        osStat fs2 source = .error e →
        copyFile fs0 source dest = (some (.wrap "failed to stat source file" e), fs2)) ∧
      (∀ sourceFile destFile fs1 fs2 info e fs3, osOpen fs0 source = .ok sourceFile →
        osCreate fs0 dest = (.ok destFile, fs1) →
        ioCopy fs1 destFile sourceFile source = (none, fs2) →
        osStat fs2 source = .ok info →
        osChmod fs2 dest info.perm = (some e, fs3) →
        copyFile fs0 source dest = (some (.wrap "failed to set permissions" e), fs3))) ∧
    (∀ (fs0 : FS) (source dest : String), CleanOrEmpty dest →
      (∀ e, osStat fs0 source = .error e →
        copyDir copyDepth fs0 source dest
          = (some (.wrap "failed to stat source directory" e), fs0)) ∧
      (∀ info e fs1, osStat fs0 source = .ok info →
        osMkdirAll fs0 dest info.perm = (some e, fs1) →
        copyDir copyDepth fs0 source dest
          = (some (.wrap "failed to create destination directory" e), fs1)) ∧
      (∀ info fs1 e, osStat fs0 source = .ok info →
        osMkdirAll fs0 dest info.perm = (none, fs1) →
        osReadDir fs1 source = .error e →
        copyDir copyDepth fs0 source dest
          = (some (.wrap "failed to read directory" e), fs1)) ∧
      (∀ info fs1 pre entry post fsk e fs2, osStat fs0 source = .ok info →
        osMkdirAll fs0 dest info.perm = (none, fs1) →
        osReadDir fs1 source = .ok (pre ++ entry :: post) →
        copyEntries (copyDir copyDepth) source dest pre fs1 = (none, fsk) →
        (if entry.isDir then
            copyDir copyDepth fsk (filepathJoin source entry.name)
              (filepathJoin dest entry.name)
          else copyFile fsk (filepathJoin source entry.name) (filepathJoin dest entry.name))
          = (some e, fs2) →
        copyDir copyDepth fs0 source dest = (some e, fs2))) ∧
    (∀ dir name : String, CleanOrEmpty (filepathJoin dir name)) :=
  ⟨syncResource_attempt fs resource sourceDir destDir mode sourceInfo e hsrc hdst,
    fun fs0 source dest => createSymlink_steps fs0 source dest,
    fun fs0 source dest => copyFile_steps fs0 source dest,
    fun fs0 source dest hd => copyDir_steps fs0 source dest hd,
    fun dir name => filepathJoin_CleanOrEmpty dir name⟩

/-- C3, witness: copying `.env` where permission bits cannot be changed. The source
is opened, the destination created and written, and `os.Chmod` fails; the outcome
carries that failure. -/
theorem syncResource_io_failure_witness :
    osLstat chmodRefusedFS (filepathJoin "/main" ".env") = .ok ⟨false, 0o600⟩ ∧
    osLstat chmodRefusedFS (filepathJoin "/wt" ".env")
      = .error (.sys "lstat" "/wt/.env" .ENOENT) ∧
    (copyFile chmodRefusedFS "/main/.env" "/wt/.env").1
      = some (.wrap "failed to set permissions" (.sys "chmod" "/wt/.env" .EPERM)) ∧
    (syncResource chmodRefusedFS ".env" "/main" "/wt" .SyncModeCopy).1
      = ⟨".env", "copy", false,
          some (.wrap "failed to set permissions" (.sys "chmod" "/wt/.env" .EPERM))⟩ ∧
    (syncResource chmodRefusedFS "node_modules" "/main" "/wt" .SyncModeCopy).1
      = ⟨"node_modules", "copy", false,
          some (.wrap "failed to set permissions"
            (.sys "chmod" "/wt/node_modules/a.js" .EPERM))⟩ ∧
    syncResource readOnlyDestFS ".env" "/main" "/wt" .SyncModeCopy
      = (⟨".env", "copy", false,
          some (.wrap "failed to create destination file"
            (.sys "open" "/wt/.env" .EROFS))⟩, readOnlyDestFS) :=
  ⟨rfl, rfl, by decide, by decide, by decide,
    (syncResource_io_failure readOnlyDestFS ".env" "/main" "/wt" .SyncModeCopy
      ⟨false, 0o600⟩ (.sys "lstat" "/wt/.env" .ENOENT) rfl rfl).1.1⟩

/-- C4. Idempotence: when the outcome of a resource in a first run of
`SyncResources` is a successful "symlink" or "copy", then in a second run with the
same inputs, started in the state the first run left, that resource is processed
with outcome "exists", success, no error, and processing it leaves the file
system as it found it. -/
theorem SyncResources_idempotent (fs : FS) (cfg : Config) (sourceDir destDir : String)
    (forceCopy : Bool) (i : Nat) (res1 : SyncResult)
    (h1 : (SyncResources fs cfg sourceDir destDir forceCopy).1.1[i]? = some res1)
    (hok : res1.Success = true ∧ (res1.Mode = "symlink" ∨ res1.Mode = "copy")) :
    (SyncResources (SyncResources fs cfg sourceDir destDir forceCopy).2
        cfg sourceDir destDir forceCopy).1.1[i]?
      = some ⟨res1.Resource, "exists", true, none⟩ ∧
    ∃ job, (syncJobs cfg forceCopy)[i]? = some job ∧
      syncResource
          (runJobs sourceDir destDir ((syncJobs cfg forceCopy).take i)
            (SyncResources fs cfg sourceDir destDir forceCopy).2).2
          job.1 sourceDir destDir job.2
        = (⟨res1.Resource, "exists", true, none⟩,
            (runJobs sourceDir destDir ((syncJobs cfg forceCopy).take i)
              (SyncResources fs cfg sourceDir destDir forceCopy).2).2) := by
  rw [SyncResources_eq_runJobs] at h1
  simp only [SyncResources_eq_runJobs] at h1 ⊢
  obtain ⟨job, hjob, hex, hres⟩ :=
    runJobs_second_run fs sourceDir destDir (syncJobs cfg forceCopy) i res1 h1 hok.1
  exact ⟨hres, job, hjob, hex⟩

/-- C4, witness: the example scenario, where `node_modules` is linked by the first
run. -/
theorem SyncResources_idempotent_witness :
    (SyncResources exampleFS exampleCfg "/main" "/wt" false).1.1[0]?
      = some ⟨"node_modules", "symlink", true, none⟩ ∧
    (SyncResources (SyncResources exampleFS exampleCfg "/main" "/wt" false).2
        exampleCfg "/main" "/wt" false).1.1[0]?
      = some ⟨"node_modules", "exists", true, none⟩ :=
  ⟨rfl,
    (SyncResources_idempotent exampleFS exampleCfg "/main" "/wt" false 0
      ⟨"node_modules", "symlink", true, none⟩ rfl ⟨rfl, Or.inl rfl⟩).1⟩

/-- C5. When `Lstat` finds the source and finds the destination, whatever is
there, `syncResource` in either mode returns "exists" with success and no error,
and the file system is unchanged. -/
theorem syncResource_dest_exists (fs : FS) (resource sourceDir destDir : String)
    (mode : SyncMode) (sourceInfo destInfo : FileInfo)
    (hsrc : osLstat fs (filepathJoin sourceDir resource) = .ok sourceInfo)
    (hdst : osLstat fs (filepathJoin destDir resource) = .ok destInfo) :
    syncResource fs resource sourceDir destDir mode
      = (⟨resource, "exists", true, none⟩, fs) :=
  syncResource_exists_of_lstat fs resource sourceDir destDir mode sourceInfo destInfo hsrc hdst

/-- C5, witness: the destination already has a `.env` of other content. -/
theorem syncResource_dest_exists_witness :
    osLstat destHasEnvFS (filepathJoin "/main" ".env") = .ok ⟨false, 0o600⟩ ∧
    osLstat destHasEnvFS (filepathJoin "/wt" ".env") = .ok ⟨false, 0o644⟩ ∧
    syncResource destHasEnvFS ".env" "/main" "/wt" .SyncModeCopy
      = (⟨".env", "exists", true, none⟩, destHasEnvFS) :=
  ⟨rfl, rfl,
    syncResource_dest_exists destHasEnvFS ".env" "/main" "/wt" .SyncModeCopy
      ⟨false, 0o600⟩ ⟨false, 0o644⟩ rfl rfl⟩

/-- C6, counterexample. In the main worktree `.env` is a regular file, so there is
nothing at `.env/x`: the source does not exist. `Lstat` fails with `ENOTDIR`, not
`ENOENT`, and the outcome is "error" with "failed to stat source", not "skip". -/
theorem syncResource_absent_source_not_skip :
    exampleFS.get ["main", ".env"] = some (.file 0o600 [75, 61, 49]) ∧
    exampleFS.get ["main", ".env", "x"] = none ∧
    osLstat exampleFS (filepathJoin "/main" ".env/x")
      = .error (.sys "lstat" "/main/.env/x" .ENOTDIR) ∧
    syncResource exampleFS ".env/x" "/main" "/wt" .SyncModeCopy
      = (⟨".env/x", "error", false,
          some (.wrap "failed to stat source" (.sys "lstat" "/main/.env/x" .ENOTDIR))⟩,
          exampleFS) ∧
    syncResource exampleFS ".env/x" "/main" "/wt" .SyncModeSymlink
      = (⟨".env/x", "error", false,
          some (.wrap "failed to stat source" (.sys "lstat" "/main/.env/x" .ENOTDIR))⟩,
          exampleFS) :=
  ⟨rfl, rfl, rfl, rfl, rfl⟩

/-- C6, as amended. When `Lstat` does not find the source path, its error is a
system-call error on that path with `ENOENT`, `ENOTDIR`, `ELOOP` or
`ENAMETOOLONG`, and `syncResource` in either mode leaves the file system as it is
and returns no success: with `ENOENT`, "skip" and the error "source does not
exist: " followed by the resource; with any other, "error" and the error "failed to
stat source" wrapping the cause. -/
theorem syncResource_source_not_found (fs : FS) (resource sourceDir destDir : String)
    (mode : SyncMode) (err : GoError)
    (hsrc : osLstat fs (filepathJoin sourceDir resource) = .error err) :
    ∃ errno, err = .sys "lstat" (filepathJoin sourceDir resource) errno ∧
      (errno = .ENOENT ∨ errno = .ENOTDIR ∨ errno = .ELOOP ∨ errno = .ENAMETOOLONG) ∧
      (errno = .ENOENT →
        syncResource fs resource sourceDir destDir mode
          = (⟨resource, "skip", false,
              some (.errorf ("source does not exist: " ++ resource))⟩, fs)) ∧
      (errno ≠ .ENOENT →
        syncResource fs resource sourceDir destDir mode
          = (⟨resource, "error", false, some (.wrap "failed to stat source" err)⟩, fs)) := by
  obtain ⟨errno, herr, hcases⟩ := osLstat_error_cases _ _ _ hsrc
  subst herr
  exact ⟨errno, rfl, hcases,
    syncResource_of_lstat_error fs resource sourceDir destDir mode errno hsrc⟩

/-- C6, witness: the source tree lacks `node_modules`, and `Lstat` reports `ENOENT`. -/
theorem syncResource_source_not_found_witness :
    osLstat noModulesFS (filepathJoin "/main" "node_modules")
      = .error (.sys "lstat" "/main/node_modules" .ENOENT) ∧
    syncResource noModulesFS "node_modules" "/main" "/wt" .SyncModeSymlink
      = (⟨"node_modules", "skip", false,
          some (.errorf "source does not exist: node_modules")⟩, noModulesFS) ∧
    ∃ errno, GoError.sys "lstat" "/main/node_modules" .ENOENT
        = .sys "lstat" (filepathJoin "/main" "node_modules") errno ∧
      (errno = .ENOENT ∨ errno = .ENOTDIR ∨ errno = .ELOOP ∨ errno = .ENAMETOOLONG) ∧
      (errno = .ENOENT →
        syncResource noModulesFS "node_modules" "/main" "/wt" .SyncModeSymlink
          = (⟨"node_modules", "skip", false,
              some (.errorf ("source does not exist: " ++ "node_modules"))⟩, noModulesFS)) ∧
      (errno ≠ .ENOENT →
        syncResource noModulesFS "node_modules" "/main" "/wt" .SyncModeSymlink
          = (⟨"node_modules", "error", false,
              some (.wrap "failed to stat source"
                (.sys "lstat" "/main/node_modules" .ENOENT))⟩, noModulesFS)) :=
  ⟨rfl, rfl,
    syncResource_source_not_found noModulesFS "node_modules" "/main" "/wt"
      .SyncModeSymlink (.sys "lstat" "/main/node_modules" .ENOENT) rfl⟩

/-- C7. Mode override: with `forceCopy` set, every outcome of `SyncResources` has
`Mode` "copy", "skip", "error" or "exists" and none has "symlink"; every symbolic
link of the resulting file system was there before; and the call does exactly
what it does for the config that lists the symlink resources at the head of the
copy list. -/
theorem SyncResources_force_copy (fs : FS) (cfg : Config) (sourceDir destDir : String) :
    (∀ res ∈ (SyncResources fs cfg sourceDir destDir true).1.1,
      res.Mode ≠ "symlink" ∧
      (res.Mode = "copy" ∨ res.Mode = "skip" ∨ res.Mode = "error" ∨ res.Mode = "exists")) ∧
    (∀ k t, (SyncResources fs cfg sourceDir destDir true).2.get k = some (.symlink t) →
      fs.get k = some (.symlink t)) ∧
    SyncResources fs cfg sourceDir destDir true
      = SyncResources fs
          ⟨⟨[], cfg.Resources.Symlink ++ cfg.Resources.Copy⟩,
            cfg.WorktreePath, cfg.Exclude, cfg.Hooks⟩
          sourceDir destDir false := by
  have hjobs : ∀ job ∈ syncJobs cfg true, job.2 = SyncMode.SyncModeCopy := by
    intro job hjob
    rw [syncJobs_force_copy] at hjob
    obtain ⟨r, _, hr⟩ := List.mem_map.mp hjob
    rw [← hr]
  refine ⟨?_, ?_, ?_⟩
  · rw [SyncResources_eq_runJobs]
    refine runJobs_forall sourceDir destDir _ _ fs ?_
    intro job hjob fs0
    rw [hjobs job hjob]
    have hm := syncResource_copy_modes fs0 job.1 sourceDir destDir
    refine ⟨?_, hm⟩
    intro hs
    rw [hs] at hm
    simp at hm
  · rw [SyncResources_eq_runJobs]
    exact runJobs_NoNewLink sourceDir destDir _ fs hjobs
  · rw [SyncResources_eq_runJobs, SyncResources_eq_runJobs]
    simp [syncJobs]

/-- C8, failing input. In the destination `config` is a regular file, so `Lstat`
does not find `config/master.key` there (it fails with `ENOTDIR`, and
`syncResource` itself does not take the destination as existing), yet
`CheckSyncStatus` answers true: only a failure with `ENOENT` makes it answer false
(`checkLoop_eq_true_iff`). -/
theorem CheckSyncStatus_true_though_absent :
    osLstat fileInTheWayFS (filepathJoin "/wt" "config/master.key")
      = .error (.sys "lstat" "/wt/config/master.key" .ENOTDIR) ∧
    (syncResource fileInTheWayFS "config/master.key" "/main" "/wt" .SyncModeCopy).1.Mode
      = "error" ∧
    CheckSyncStatus fileInTheWayFS keyCfg "/main" "/wt" = (true, none) := by
  refine ⟨rfl, ?_, ?_⟩ <;> decide

/-- C9, failing input. Copying the directory `node_modules` (mode 0775) under umask
022 succeeds, and the copy of the directory has mode 0755: the permission bits of
a copied directory are those of the source less the umask, while the file in it
keeps its content and mode. -/
theorem copyDir_directory_mode_masked :
    (syncResource exampleFS "node_modules" "/main" "/wt" .SyncModeCopy).1
      = ⟨"node_modules", "copy", true, none⟩ ∧
    exampleFS.get ["main", "node_modules"] = some (.dir 0o775) ∧
    (syncResource exampleFS "node_modules" "/main" "/wt" .SyncModeCopy).2.get
      ["wt", "node_modules"] = some (.dir 0o755) ∧
    (syncResource exampleFS "node_modules" "/main" "/wt" .SyncModeCopy).2.get
      ["wt", "node_modules", "a.js"] = some (.file 0o644 [97]) := by
  decide

/-- C10. For every outcome of `syncResource`, the error is present exactly when
`Success` is false, and absent exactly when `Success` is true. -/
theorem syncResource_error_iff_not_success (fs : FS) (resource sourceDir destDir : String)
    (mode : SyncMode) :
    ((syncResource fs resource sourceDir destDir mode).1.Error ≠ none ↔
      (syncResource fs resource sourceDir destDir mode).1.Success = false) ∧
    ((syncResource fs resource sourceDir destDir mode).1.Error = none ↔
      (syncResource fs resource sourceDir destDir mode).1.Success = true) := by
  unfold syncResource
  simp only []
  repeat' split
  all_goals simp

/-! ### The worktree path of `create` -/

theorem filepathBase_dotdot_elem (b : String) (h : validName b = true) :
    filepathBase (".." ++ "/" ++ b) = b := by
  obtain ⟨h1, h2, h3, h4⟩ := validName_spec b h
  unfold filepathBase
  have hne : (".." ++ "/" ++ b : String) ≠ "" := by
    intro hh
    have := congrArg String.length hh
    simp only [String.length_append] at this
    have h2l : ("..".length : Nat) = 2 := by decide
    have h0 : ("".length : Nat) = 0 := by decide
    omega
  rw [if_neg hne, splitPath_append_sep, splitPath_sepfree b h4]
  have hs : splitPath ".." = [".."] := by decide
  rw [hs]
  simp [List.dropWhile, h1]

/-- With the default worktree path and no `--path`, a branch name that is a single
path element gives the join of the parent of the current directory and the branch
name. -/
theorem runCreateWorktreePath_element (currentDir b : String) (cfg : Config)
    (hcfg : cfg.WorktreePath = "../{branch}") (h : validName b = true) :
    runCreateWorktreePath currentDir "" cfg b = filepathJoin (filepathDir currentDir) b := by
  have hres : cfg.ResolveWorktreePath b = "../" ++ b ++ "" :=
    ResolveWorktreePath_one cfg b "../" "" (by rw [hcfg]; decide) (by decide) (by decide)
  have hform : ("../" ++ b ++ "" : String) = ".." ++ "/" ++ b := by
    apply String.ext
    simp [String.data_append]
  rw [hform] at hres
  unfold runCreateWorktreePath
  simp only [ne_eq, not_true_eq_false, if_false, hres]
  have hrel : filepathIsAbs (".." ++ "/" ++ b) = false := by
    unfold filepathIsAbs
    rw [String.append_assoc, isRooted_append _ _ (by decide)]
    decide
  rw [hrel, filepathBase_dotdot_elem b h]
  rfl

/-! ### Splitting and trimming -/

theorem hasPrefixChars_nil (l : List Char) : hasPrefixChars l [] = true := by
  cases l <;> rfl

theorem hasPrefixChars_single (x c : Char) (xs : List Char) :
    hasPrefixChars (x :: xs) [c] = decide (x = c) := by
  simp [hasPrefixChars, hasPrefixChars_nil]

theorem splitOnChars_single_sepfree (c : Char) (w : List Char) (h : c ∉ w) :
    splitOnChars [c] 0 w = [w] := by
  induction w with
  | nil => rfl
  | cons x xs ih =>
    have hx : x ≠ c := fun e => h (by simp [e])
    have hxs : c ∉ xs := fun e => h (List.mem_cons_of_mem _ e)
    rw [splitOnChars, hasPrefixChars_single, decide_eq_false hx, ih hxs]
    rfl

theorem splitOnChars_single_append (c : Char) (a b : List Char) (h : c ∉ a) :
    splitOnChars [c] 0 (a ++ c :: b) = a :: splitOnChars [c] 0 b := by
  induction a with
  | nil =>
    show splitOnChars [c] 0 (c :: b) = _
    rw [splitOnChars, hasPrefixChars_single]
    simp
  | cons x xs ih =>
    have hx : x ≠ c := fun e => h (by simp [e])
    have hxs : c ∉ xs := fun e => h (List.mem_cons_of_mem _ e)
    show splitOnChars [c] 0 (x :: (xs ++ c :: b)) = _
    rw [splitOnChars, hasPrefixChars_single, decide_eq_false hx, ih hxs]
    rfl

theorem data_newline : ("\n" : String).data = ['\n'] := by decide

theorem stringsSplit_newline (s : String) :
    stringsSplit s "\n" = (splitOnChars ['\n'] 0 s.data).map String.mk := by
  unfold stringsSplit
  rw [data_newline]

theorem stringsSplit_joinLines (L : List String) (hne : L ≠ [])
    (h : ∀ l ∈ L, '\n' ∉ l.data) : stringsSplit (joinLines L) "\n" = L := by
  rw [stringsSplit_newline]
  induction L with
  | nil => exact absurd rfl hne
  | cons l rest ih =>
    cases rest with
    | nil =>
      show List.map String.mk (splitOnChars ['\n'] 0 l.data) = [l]
      rw [splitOnChars_single_sepfree _ _ (h l (by simp))]
      rfl
    | cons m rest =>
      show List.map String.mk (splitOnChars ['\n'] 0 (l ++ "\n" ++ joinLines (m :: rest)).data) = _
      rw [String.data_append, String.data_append, data_newline, List.append_assoc,
        List.singleton_append, splitOnChars_single_append _ _ _ (h l (by simp)),
        List.map_cons, ih (by simp) (fun x hx => h x (List.mem_cons_of_mem _ hx))]

theorem dropWhile_length_eq (p : Char → Bool) (l : List Char)
    (h : (l.dropWhile p).length = l.length) :
    l.dropWhile p = l ∧ ∀ c t, l = c :: t → p c = false := by
  cases l with
  | nil => exact ⟨rfl, fun c t e => by cases e⟩
  | cons a t =>
    cases hp : p a with
    | true =>
      rw [List.dropWhile_cons_of_pos hp] at h
      have := (List.dropWhile_suffix p (l := t)).length_le
      simp at h
      omega
    | false =>
      refine ⟨List.dropWhile_cons_of_neg (by simp [hp]), fun c u e => ?_⟩
      cases e
      exact hp

theorem trimSpaceChars_fixed (l : List Char) (h : trimSpaceChars l = l) :
    (∀ c t, l = c :: t → isSpace c = false) ∧
    (∀ c t, l.reverse = c :: t → isSpace c = false) := by
  unfold trimSpaceChars at h
  have hlen := congrArg List.length h
  rw [List.length_reverse] at hlen
  have h1 := (List.dropWhile_suffix isSpace (l := (l.dropWhile isSpace).reverse)).length_le
  have h2 := (List.dropWhile_suffix isSpace (l := l)).length_le
  rw [List.length_reverse] at h1
  have hd := dropWhile_length_eq isSpace l (by omega)
  rw [hd.1] at hlen
  have hr := dropWhile_length_eq isSpace l.reverse (by rw [List.length_reverse]; exact hlen)
  exact ⟨hd.2, hr.2⟩

theorem dropWhile_append_all (p : Char → Bool) (a b : List Char) (h : ∀ c ∈ a, p c = true) :
    (a ++ b).dropWhile p = b.dropWhile p := by
  induction a with
  | nil => rfl
  | cons x xs ih =>
    rw [List.cons_append, List.dropWhile_cons_of_pos (h x (by simp))]
    exact ih (fun c hc => h c (List.mem_cons_of_mem _ hc))

theorem dropWhile_head_false (p : Char → Bool) (l : List Char)
    (h : ∀ c t, l = c :: t → p c = false) : l.dropWhile p = l := by
  cases l with
  | nil => rfl
  | cons a t => exact List.dropWhile_cons_of_neg (by simp [h a t rfl])

theorem trimSpaceChars_append_space (body ws : List Char)
    (hh : ∀ c t, body = c :: t → isSpace c = false)
    (hl : ∀ c t, body.reverse = c :: t → isSpace c = false)
    (hne : body ≠ []) (hws : ∀ c ∈ ws, isSpace c = true) :
    trimSpaceChars (body ++ ws) = body := by
  unfold trimSpaceChars
  have h1 : (body ++ ws).dropWhile isSpace = body ++ ws := by
    apply dropWhile_head_false
    intro c t e
    cases body with
    | nil => exact absurd rfl hne
    | cons a u =>
      cases e
      exact hh _ _ rfl
  rw [h1, List.reverse_append,
    dropWhile_append_all _ _ _ (fun c hc => hws c (List.mem_reverse.mp hc)),
    dropWhile_head_false _ _ hl, List.reverse_reverse]

theorem trimSpaceChars_of_edges (body : List Char)
    (hh : ∀ c t, body = c :: t → isSpace c = false)
    (hl : ∀ c t, body.reverse = c :: t → isSpace c = false) :
    trimSpaceChars body = body := by
  unfold trimSpaceChars
  rw [dropWhile_head_false _ _ hh, dropWhile_head_false _ _ hl, List.reverse_reverse]

/-! ### The loop of `parseWorktreeList` -/

theorem worktree_data : ∃ T : List Char, ("worktree " : String).data = 'w' :: T ∧
    '\n' ∉ 'w' :: T := ⟨_, rfl, by decide⟩

theorem string_ne_empty (s : String) (h : s ≠ "") : s.data ≠ [] := by
  intro e
  apply h
  cases s
  simp at e
  simp [e]

theorem worktreeLine_edges (p : String) (hp : pathText p = true) :
    (∀ c t, ("worktree " ++ p).data = c :: t → isSpace c = false) ∧
    (∀ c t, ("worktree " ++ p).data.reverse = c :: t → isSpace c = false) ∧
    '\n' ∉ ("worktree " ++ p).data := by
  unfold pathText at hp
  simp only [Bool.and_eq_true, decide_eq_true_eq, Bool.not_eq_true', ne_eq] at hp
  obtain ⟨⟨hne, htrim⟩, hnl⟩ := hp
  have hfix := trimSpaceChars_fixed p.data (by
    have := congrArg String.data htrim
    exact this)
  have hd := string_ne_empty p hne
  obtain ⟨T, hT, hTn⟩ := worktree_data
  rw [String.data_append, hT]
  refine ⟨?_, ?_, ?_⟩
  · intro c t e
    cases e
    decide
  · intro c t e
    rw [List.reverse_append] at e
    cases hr : p.data.reverse with
    | nil => exact absurd (List.reverse_eq_nil_iff.mp hr) hd
    | cons a u =>
      rw [hr] at e
      cases e
      exact hfix.2 _ _ hr
  · intro hmem
    rw [List.mem_append] at hmem
    cases hmem with
    | inl h => exact hTn h
    | inr h =>
      have : p.data.contains '\n' = true := by simpa using h
      rw [this] at hnl
      cases hnl

theorem stringsTrimSpace_of_edges (s : String)
    (hh : ∀ c t, s.data = c :: t → isSpace c = false)
    (hl : ∀ c t, s.data.reverse = c :: t → isSpace c = false) :
    stringsTrimSpace s = s := by
  unfold stringsTrimSpace
  rw [trimSpaceChars_of_edges _ hh hl]

theorem parseLine_blank (acc : List Worktree) (cur : Worktree) :
    parseLine (acc, some cur) "" = (acc ++ [cur], none) := by
  rfl

theorem parseLine_worktree (acc : List Worktree) (cur : Option Worktree) (p : String)
    (hp : pathText p = true) :
    parseLine (acc, cur) ("worktree " ++ p) = (acc ++ cur.toList, some ⟨p, "", false⟩) := by
  obtain ⟨hh, hl, _⟩ := worktreeLine_edges p hp
  have hne : ("worktree " ++ p) ≠ "" := by
    intro e
    have := congrArg String.data e
    obtain ⟨T, hT, _⟩ := worktree_data
    rw [String.data_append, hT] at this
    cases this
  have hpre : stringsHasPrefix ("worktree " ++ p) "worktree " = true := by
    unfold stringsHasPrefix
    rw [String.data_append]
    exact hasPrefixChars_self_append _ _
  have htp : stringsTrimPrefix ("worktree " ++ p) "worktree " = p := by
    unfold stringsTrimPrefix
    rw [if_pos hpre, String.data_append, List.drop_left]
  unfold parseLine
  simp only [stringsTrimSpace_of_edges _ hh hl, if_neg hne, hpre, htp, if_true]
  cases cur <;> simp

theorem parseLine_attr (acc : List Worktree) (cur : Worktree) (a : String)
    (ha : attrLine a = true) :
    ∃ cur2, parseLine (acc, some cur) a = (acc, some cur2) ∧ cur2.Path = cur.Path ∧
      cur2.IsMain = cur.IsMain := by
  unfold attrLine at ha
  simp only [Bool.and_eq_true, decide_eq_true_eq, Bool.not_eq_true', ne_eq] at ha
  obtain ⟨⟨⟨⟨hne, htrim⟩, _⟩, hw⟩, hb⟩ := ha
  unfold parseLine
  simp only [htrim, if_neg hne, hw, hb, Bool.false_eq_true, if_false]
  split
  · split
    · exact ⟨_, rfl, rfl, rfl⟩
    · exact ⟨_, rfl, rfl, rfl⟩
  · exact ⟨_, rfl, rfl, rfl⟩

theorem foldl_parseLine_attrs (attrs : List String) (h : ∀ a ∈ attrs, attrLine a = true)
    (acc : List Worktree) (cur : Worktree) :
    ∃ cur2, attrs.foldl parseLine (acc, some cur) = (acc, some cur2) ∧
      cur2.Path = cur.Path ∧ cur2.IsMain = cur.IsMain := by
  induction attrs generalizing cur with
  | nil => exact ⟨cur, rfl, rfl, rfl⟩
  | cons a rest ih =>
    obtain ⟨c2, e2, p2, m2⟩ := parseLine_attr acc cur a (h a (by simp))
    obtain ⟨c3, e3, p3, m3⟩ := ih (fun x hx => h x (List.mem_cons_of_mem _ hx)) c2
    exact ⟨c3, by rw [List.foldl_cons, e2, e3], by rw [p3, p2], by rw [m3, m2]⟩

theorem foldl_parseLine_block (b : Block) (hb : b.wellFormed = true)
    (acc : List Worktree) (cur : Option Worktree) :
    ∃ w, b.lines.foldl parseLine (acc, cur) = (acc ++ cur.toList, some w) ∧
      w.Path = b.path ∧ w.IsMain = false := by
  unfold Block.wellFormed at hb
  simp only [Bool.and_eq_true, List.all_eq_true] at hb
  obtain ⟨hp, ha⟩ := hb
  obtain ⟨w, e, p, m⟩ := foldl_parseLine_attrs b.attrs ha (acc ++ cur.toList) ⟨b.path, "", false⟩
  refine ⟨w, ?_, p, m⟩
  unfold Block.lines
  rw [List.foldl_cons, parseLine_worktree acc cur b.path hp, e]

theorem foldl_parseLine_porcelain (b : Block) (rest : List Block)
    (h : ∀ x ∈ b :: rest, x.wellFormed = true) (acc : List Worktree) :
    ∃ ws w, (porcelainLines (b :: rest)).foldl parseLine (acc, none) = (acc ++ ws, some w) ∧
      (ws ++ [w]).map Worktree.Path = (b :: rest).map Block.path ∧
      ∀ x ∈ ws ++ [w], x.IsMain = false := by
  induction rest generalizing b acc with
  | nil =>
    obtain ⟨w, e, p, m⟩ := foldl_parseLine_block b (h b (by simp)) acc none
    refine ⟨[], w, ?_, by simp [p], by simp [m]⟩
    show b.lines.foldl parseLine (acc, none) = _
    rw [e]
    simp
  | cons c rest ih =>
    obtain ⟨wb, e, p, m⟩ := foldl_parseLine_block b (h b (by simp)) acc none
    obtain ⟨ws, w, e2, p2, m2⟩ := ih c (fun x hx => h x (List.mem_cons_of_mem _ hx)) (acc ++ [wb])
    refine ⟨wb :: ws, w, ?_, ?_, ?_⟩
    · show (b.lines ++ "" :: porcelainLines (c :: rest)).foldl parseLine (acc, none) = _
      rw [List.foldl_append, e, List.foldl_cons]
      simp only [Option.toList, List.append_nil]
      rw [parseLine_blank, e2]
      simp
    · simp only [List.cons_append, List.map_cons, p, p2]
    · intro x hx
      simp only [List.cons_append, List.mem_cons] at hx
      cases hx with
      | inl hx => rw [hx]; exact m
      | inr hx => exact m2 x hx

/-! ### Porcelain texts -/

theorem attrLine_edges (a : String) (ha : attrLine a = true) :
    a ≠ "" ∧ (∀ c t, a.data = c :: t → isSpace c = false) ∧
    (∀ c t, a.data.reverse = c :: t → isSpace c = false) ∧ '\n' ∉ a.data := by
  unfold attrLine at ha
  simp only [Bool.and_eq_true, decide_eq_true_eq, Bool.not_eq_true', ne_eq] at ha
  obtain ⟨⟨⟨⟨hne, htrim⟩, hnl⟩, _⟩, _⟩ := ha
  have hfix := trimSpaceChars_fixed a.data (congrArg String.data htrim)
  refine ⟨hne, hfix.1, hfix.2, ?_⟩
  intro h
  have : a.data.contains '\n' = true := by simpa using h
  rw [this] at hnl
  cases hnl

theorem blockLine_edges (b : Block) (hb : b.wellFormed = true) (l : String)
    (hl : l ∈ b.lines) :
    l ≠ "" ∧ (∀ c t, l.data = c :: t → isSpace c = false) ∧
    (∀ c t, l.data.reverse = c :: t → isSpace c = false) ∧ '\n' ∉ l.data := by
  unfold Block.wellFormed at hb
  simp only [Bool.and_eq_true, List.all_eq_true] at hb
  unfold Block.lines at hl
  rw [List.mem_cons] at hl
  cases hl with
  | inl h =>
    subst h
    obtain ⟨h1, h2, h3⟩ := worktreeLine_edges b.path hb.1
    refine ⟨?_, h1, h2, h3⟩
    intro e
    have := congrArg String.data e
    obtain ⟨T, hT, _⟩ := worktree_data
    rw [String.data_append, hT] at this
    cases this
  | inr h => exact attrLine_edges l (hb.2 l h)

theorem porcelainLines_mem (blocks : List Block) (l : String)
    (hl : l ∈ porcelainLines blocks) : l = "" ∨ ∃ b ∈ blocks, l ∈ b.lines := by
  induction blocks with
  | nil => cases hl
  | cons b rest ih =>
    cases rest with
    | nil => exact Or.inr ⟨b, by simp, hl⟩
    | cons c rest =>
      have hl2 : l ∈ b.lines ++ "" :: porcelainLines (c :: rest) := hl
      rw [List.mem_append, List.mem_cons] at hl2
      rcases hl2 with h | h | h
      · exact Or.inr ⟨b, by simp, h⟩
      · exact Or.inl h
      · rcases ih h with h2 | ⟨x, hx, hxl⟩
        · exact Or.inl h2
        · exact Or.inr ⟨x, List.mem_cons_of_mem _ hx, hxl⟩

theorem porcelainLines_getLast (b : Block) (rest : List Block) :
    ∃ l x, (porcelainLines (b :: rest)).getLast? = some l ∧ x ∈ b :: rest ∧ l ∈ x.lines := by
  induction rest generalizing b with
  | nil =>
    refine ⟨b.lines.getLast (by simp [Block.lines]), b, ?_, by simp, List.getLast_mem _⟩
    show b.lines.getLast? = _
    exact List.getLast?_eq_getLast _ _
  | cons c rest ih =>
    obtain ⟨l, x, e, hx, hl⟩ := ih c
    refine ⟨l, x, ?_, List.mem_cons_of_mem _ hx, hl⟩
    show (b.lines ++ "" :: porcelainLines (c :: rest)).getLast? = _
    cases hp : porcelainLines (c :: rest) with
    | nil => rw [hp] at e; cases e
    | cons y ys =>
      rw [hp] at e
      rw [List.getLast?_append, List.getLast?_cons_cons, e]
      rfl

theorem joinLines_cons_data (l : String) (more : List String) :
    ∃ X, (joinLines (l :: more)).data = l.data ++ X := by
  cases more with
  | nil => exact ⟨[], by simp [joinLines]⟩
  | cons m rest =>
    refine ⟨("\n" ++ joinLines (m :: rest)).data, ?_⟩
    show (l ++ "\n" ++ joinLines (m :: rest)).data = _
    rw [String.data_append, String.data_append, String.data_append, List.append_assoc]

theorem joinLines_reverse_data (L : List String) (l : String) (hl : L.getLast? = some l) :
    ∃ X, (joinLines L).data.reverse = l.data.reverse ++ X := by
  induction L with
  | nil => cases hl
  | cons a rest ih =>
    cases rest with
    | nil =>
      simp at hl
      subst hl
      exact ⟨[], by simp [joinLines]⟩
    | cons m rest =>
      rw [List.getLast?_cons_cons] at hl
      obtain ⟨X, hX⟩ := ih hl
      refine ⟨X ++ (a ++ "\n").data.reverse, ?_⟩
      show (a ++ "\n" ++ joinLines (m :: rest)).data.reverse = _
      rw [String.data_append, List.reverse_append, hX, List.append_assoc]

theorem porcelain_trim (b : Block) (rest : List Block)
    (h : ∀ x ∈ b :: rest, x.wellFormed = true) (trailer : String)
    (htr : ∀ c ∈ trailer.data, isSpace c = true) :
    stringsTrimSpace (porcelain (b :: rest) trailer) = joinLines (porcelainLines (b :: rest)) := by
  unfold stringsTrimSpace porcelain
  rw [String.data_append]
  have hfirst : ∃ more, porcelainLines (b :: rest) = ("worktree " ++ b.path) :: more := by
    cases rest with
    | nil => exact ⟨b.attrs, rfl⟩
    | cons c rest => exact ⟨b.attrs ++ "" :: porcelainLines (c :: rest), rfl⟩
  obtain ⟨more, hmore⟩ := hfirst
  obtain ⟨X, hX⟩ := joinLines_cons_data ("worktree " ++ b.path) more
  obtain ⟨l, x, hlast, hx, hlx⟩ := porcelainLines_getLast b rest
  obtain ⟨Y, hY⟩ := joinLines_reverse_data _ l hlast
  obtain ⟨hlne, _, hledge, _⟩ := blockLine_edges x (h x hx) l hlx
  obtain ⟨hwne, hwedge, _, _⟩ := blockLine_edges b (h b (by simp)) ("worktree " ++ b.path)
    (by simp [Block.lines])
  have hwd := string_ne_empty _ hwne
  have hld := string_ne_empty _ hlne
  rw [hmore] at hY
  rw [hmore, trimSpaceChars_append_space _ _ ?_ ?_ ?_ htr]
  · rw [hX]
    intro c t e
    cases hd : ("worktree " ++ b.path).data with
    | nil => exact absurd hd hwd
    | cons a u =>
      rw [hd] at e
      cases e
      exact hwedge _ _ hd
  · rw [hY]
    intro c t e
    cases hd : l.data.reverse with
    | nil => exact absurd (List.reverse_eq_nil_iff.mp hd) hld
    | cons a u =>
      rw [hd] at e
      cases e
      exact hledge _ _ hd
  · rw [hX]
    intro e
    exact hwd (List.append_eq_nil.mp e).1

theorem porcelainLines_newline_free (blocks : List Block)
    (h : ∀ x ∈ blocks, x.wellFormed = true) :
    ∀ l ∈ porcelainLines blocks, '\n' ∉ l.data := by
  intro l hl
  rcases porcelainLines_mem blocks l hl with e | ⟨x, hx, hxl⟩
  · subst e
    decide
  · exact (blockLine_edges x (h x hx) l hxl).2.2.2

theorem parseWorktreeList_porcelain (blocks : List Block) (trailer : String)
    (hne : blocks ≠ []) (hwf : ∀ b ∈ blocks, b.wellFormed = true)
    (htr : ∀ c ∈ trailer.data, isSpace c = true) :
    (parseWorktreeList (porcelain blocks trailer)).map Worktree.Path
      = blocks.map Block.path ∧
    (parseWorktreeList (porcelain blocks trailer)).map Worktree.IsMain
      = true :: List.replicate (blocks.length - 1) false := by
  cases blocks with
  | nil => exact absurd rfl hne
  | cons b rest =>
    obtain ⟨ws, w, e, hp, hm⟩ := foldl_parseLine_porcelain b rest hwf []
    have hlines : ∀ l ∈ porcelainLines (b :: rest), '\n' ∉ l.data :=
      porcelainLines_newline_free _ hwf
    have hnn : porcelainLines (b :: rest) ≠ [] := by
      cases rest <;> simp [porcelainLines, Block.lines]
    unfold parseWorktreeList
    simp only [porcelain_trim b rest hwf trailer htr,
      stringsSplit_joinLines _ hnn hlines, e, List.nil_append]
    cases hws : ws ++ [w] with
    | nil => simp at hws
    | cons first r =>
      rw [hws] at hp hm
      have hfm : first.IsMain = false := hm first (by simp)
      simp only [hfm, Bool.not_false, if_true]
      simp only [List.map_cons] at hp ⊢
      refine ⟨hp, ?_⟩
      have hlen := congrArg List.length hp
      simp only [List.length_cons, List.length_map] at hlen
      have hr : r.map Worktree.IsMain = List.replicate r.length false := by
        apply List.eq_replicate_iff.mpr
        refine ⟨by simp, ?_⟩
        intro x hx
        obtain ⟨y, hy, rfl⟩ := List.mem_map.mp hx
        exact hm y (List.mem_cons_of_mem _ hy)
      rw [hr]
      simp only [List.length_cons, Nat.add_sub_cancel]
      have : r.length = rest.length := by omega
      rw [this]

/-! ## The claims about configuration, `create` and the worktree list -/

/-- C11. When `syncResource` in symlink mode returns `Mode` "symlink" with success,
the destination path names a symbolic link in the resulting file system, its
target is the absolute form of the source path, that target is rooted, and when
the source root is rooted the target is the cleaned join of source root and
resource. -/
theorem syncResource_symlink_target (fs : FS) (resource sourceDir destDir : String)
    (hmode : (syncResource fs resource sourceDir destDir .SyncModeSymlink).1.Mode = "symlink")
    (hok : (syncResource fs resource sourceDir destDir .SyncModeSymlink).1.Success = true) :
    ∃ k target,
      resolve (syncResource fs resource sourceDir destDir .SyncModeSymlink).2
          (filepathJoin destDir resource) false = .ok (k, some (.symlink target)) ∧
      filepathAbs fs (filepathJoin sourceDir resource) = .ok target ∧
      isRooted target = true ∧
      (isRooted sourceDir = true → target = filepathJoin sourceDir resource) :=
  syncResource_symlink_spec fs resource sourceDir destDir hmode hok

/-- C11, witness: linking `node_modules` from the relative source root `.` in the
example state, whose working directory is `/main`. -/
theorem syncResource_symlink_target_witness :
    (syncResource exampleFS "node_modules" "." "/wt" .SyncModeSymlink).1
      = ⟨"node_modules", "symlink", true, none⟩ ∧
    (syncResource exampleFS "node_modules" "." "/wt" .SyncModeSymlink).2.get
      ["wt", "node_modules"] = some (.symlink "/main/node_modules") ∧
    ∃ k target,
      resolve (syncResource exampleFS "node_modules" "." "/wt" .SyncModeSymlink).2
          (filepathJoin "/wt" "node_modules") false = .ok (k, some (.symlink target)) ∧
      filepathAbs exampleFS (filepathJoin "." "node_modules") = .ok target ∧
      isRooted target = true ∧
      (isRooted "." = true → target = filepathJoin "." "node_modules") :=
  ⟨by decide, by decide,
    syncResource_symlink_target exampleFS "node_modules" "." "/wt" (by decide) (by decide)⟩

/-- C12. `ResolveWorktreePath` puts the branch name in the place of the
placeholder: a worktree path made of a part without the placeholder, the
placeholder, and another part without it gives the first part, the branch name and
the second part; a worktree path without the placeholder is returned as it is. -/
theorem ResolveWorktreePath_substitutes (c : Config) (b : String) :
    (∀ pre suf : String, c.WorktreePath = pre ++ "{branch}" ++ suf →
      stringsContains pre "{branch}" = false → stringsContains suf "{branch}" = false →
      c.ResolveWorktreePath b = pre ++ b ++ suf) ∧
    (stringsContains c.WorktreePath "{branch}" = false →
      c.ResolveWorktreePath b = c.WorktreePath) :=
  ⟨fun pre suf hwp hpre hsuf => ResolveWorktreePath_one c b pre suf hwp hpre hsuf,
    fun h => ResolveWorktreePath_none c b h⟩

/-- C12, witness: the worktree path `../` followed by the placeholder, with
`feature-branch`. -/
theorem ResolveWorktreePath_substitutes_witness :
    defaultCfg.WorktreePath = "../" ++ "{branch}" ++ "" ∧
    stringsContains "../" "{branch}" = false ∧ stringsContains "" "{branch}" = false ∧
    defaultCfg.ResolveWorktreePath "feature-branch" = "../feature-branch" :=
  ⟨by decide, by decide, by decide,
    (ResolveWorktreePath_substitutes defaultCfg "feature-branch").1 "../" ""
      (by decide) (by decide) (by decide)⟩

/-- C13, failing input. With the default configuration, no `--path`, current
directory `/repo/main` and branch `feature/login`, `runCreate` computes
`/repo/login`: `filepath.Base` keeps only the last element of the branch name. The
parent of the current directory joined with the full branch name is
`/repo/feature/login`. -/
theorem runCreateWorktreePath_drops_directories :
    GetDefaultConfig = some defaultCfg ∧
    runCreateWorktreePath "/repo/main" "" defaultCfg "feature/login" = "/repo/login" ∧
    filepathJoin (filepathDir "/repo/main") "feature/login" = "/repo/feature/login" ∧
    filepathJoin "/repo/main" "../feature/login" = "/repo/feature/login" := by
  decide

/-- C14. `DetectProjectType` as a function of which markers `os.Stat` finds: node
when `package.json` is found; otherwise rails when `Gemfile` and
`config/application.rb` are both found; otherwise go when `go.mod` is found;
otherwise rust when `Cargo.toml` is found; and default exactly when none of these
holds. -/
theorem DetectProjectType_markers (fs : FS) (dir : String) :
    (fileExists fs (filepathJoinList [dir, "package.json"]) = true →
      DetectProjectType fs dir = ProjectTypeNode) ∧
    (fileExists fs (filepathJoinList [dir, "package.json"]) = false →
      (fileExists fs (filepathJoinList [dir, "Gemfile"]) = true ∧
        fileExists fs (filepathJoinList [dir, "config", "application.rb"]) = true) →
      DetectProjectType fs dir = ProjectTypeRails) ∧
    (fileExists fs (filepathJoinList [dir, "package.json"]) = false →
      ¬(fileExists fs (filepathJoinList [dir, "Gemfile"]) = true ∧
        fileExists fs (filepathJoinList [dir, "config", "application.rb"]) = true) →
      fileExists fs (filepathJoinList [dir, "go.mod"]) = true →
      DetectProjectType fs dir = ProjectTypeGo) ∧
    (fileExists fs (filepathJoinList [dir, "package.json"]) = false →
      ¬(fileExists fs (filepathJoinList [dir, "Gemfile"]) = true ∧
        fileExists fs (filepathJoinList [dir, "config", "application.rb"]) = true) →
      fileExists fs (filepathJoinList [dir, "go.mod"]) = false →
      fileExists fs (filepathJoinList [dir, "Cargo.toml"]) = true →
      DetectProjectType fs dir = ProjectTypeRust) ∧
    (DetectProjectType fs dir = ProjectTypeDefault ↔
      fileExists fs (filepathJoinList [dir, "package.json"]) = false ∧
      ¬(fileExists fs (filepathJoinList [dir, "Gemfile"]) = true ∧
        fileExists fs (filepathJoinList [dir, "config", "application.rb"]) = true) ∧
      fileExists fs (filepathJoinList [dir, "go.mod"]) = false ∧
      fileExists fs (filepathJoinList [dir, "Cargo.toml"]) = false) := by
  unfold DetectProjectType
  cases fileExists fs (filepathJoinList [dir, "package.json"]) <;>
  cases fileExists fs (filepathJoinList [dir, "Gemfile"]) <;>
  cases fileExists fs (filepathJoinList [dir, "config", "application.rb"]) <;>
  cases fileExists fs (filepathJoinList [dir, "go.mod"]) <;>
  cases fileExists fs (filepathJoinList [dir, "Cargo.toml"]) <;>
  decide

/-- C14, witness: a directory with `Gemfile`, `config/application.rb` and `go.mod`
but no `package.json` is detected as rails. -/
theorem DetectProjectType_markers_witness :
    fileExists railsFS (filepathJoinList ["/app", "package.json"]) = false ∧
    fileExists railsFS (filepathJoinList ["/app", "go.mod"]) = true ∧
    DetectProjectType railsFS "/app" = ProjectTypeRails :=
  ⟨by decide, by decide,
    (DetectProjectType_markers railsFS "/app").2.1 (by decide) ⟨by decide, by decide⟩⟩

/-- C15. For every project type, named or not, `GetTemplate` returns a config (not
nil) whose worktree path is not empty and whose symlink and copy lists together
have at least one entry; a type other than node, rails, go and rust gets exactly
the default configuration. -/
theorem GetTemplate_nonempty (projectType : ProjectType) :
    (∃ cfg, GetTemplate projectType = some cfg ∧ cfg.WorktreePath ≠ "" ∧
      0 < cfg.Resources.Symlink.length + cfg.Resources.Copy.length) ∧
    (projectType ≠ ProjectTypeNode → projectType ≠ ProjectTypeRails →
      projectType ≠ ProjectTypeGo → projectType ≠ ProjectTypeRust →
      GetTemplate projectType = GetDefaultConfig) := by
  unfold GetTemplate
  refine ⟨?_, fun h1 h2 h3 h4 => by simp [h1, h2, h3, h4]⟩
  split
  · exact ⟨_, rfl, by decide, by decide⟩
  · split
    · exact ⟨_, rfl, by decide, by decide⟩
    · split
      · exact ⟨_, rfl, by decide, by decide⟩
      · split
        · exact ⟨_, rfl, by decide, by decide⟩
        · exact ⟨_, rfl, by decide, by decide⟩

/-- C15, witness: the unrecognised type `python` gets the default configuration. -/
theorem GetTemplate_nonempty_witness :
    GetTemplate "python" = GetDefaultConfig ∧ GetDefaultConfig = some defaultCfg :=
  ⟨(GetTemplate_nonempty "python").2 (by decide) (by decide) (by decide) (by decide),
    by decide⟩

/-- C16, failing input. For the block with the line
`branch refs/heads/feature/login` the parser sets `Branch` to `login`, the last
piece of the ref between slashes, not to the branch name `feature/login`; a name
without a slash, as `main`, is kept whole. -/
theorem parseWorktreeList_branch_last_piece :
    parseWorktreeList "worktree /repo/login\nbranch refs/heads/feature/login\n"
      = [⟨"/repo/login", "login", true⟩] ∧
    parseWorktreeList "worktree /repo/main\nbranch refs/heads/main\n"
      = [⟨"/repo/main", "main", true⟩] ∧
    parseLine ([], some ⟨"/repo/login", "", false⟩) "branch refs/heads/feature/login"
      = ([], some ⟨"/repo/login", "login", false⟩) ∧
    stringsSplit "refs/heads/feature/login" "/" = ["refs", "heads", "feature", "login"] := by
  decide

/-- C17. For a porcelain text of one or more well-formed blocks (each a line
`worktree` followed by a path that is not empty, has no white space at either end
and no newline, then lines that are not blank, start no worktree and mark no bare
repository), one blank line between two blocks and only white space after the
last, `parseWorktreeList` returns as many worktrees as there are blocks, their
paths are the paths of the blocks in order, `IsMain` is true for the first and
false for every other; and for the empty text it returns the empty list. -/
theorem parseWorktreeList_blocks (blocks : List Block) (trailer : String)
    (hne : blocks ≠ []) (hwf : ∀ b ∈ blocks, b.wellFormed = true)
    (htr : ∀ c ∈ trailer.data, isSpace c = true) :
    (parseWorktreeList (porcelain blocks trailer)).length = blocks.length ∧
    (parseWorktreeList (porcelain blocks trailer)).map Worktree.Path
      = blocks.map Block.path ∧
    (parseWorktreeList (porcelain blocks trailer)).map Worktree.IsMain
      = true :: List.replicate (blocks.length - 1) false ∧
    parseWorktreeList "" = [] := by
  obtain ⟨hp, hm⟩ := parseWorktreeList_porcelain blocks trailer hne hwf htr
  refine ⟨?_, hp, hm, by decide⟩
  have := congrArg List.length hp
  simpa using this

/-- C17, witness: the text of a main worktree and one linked worktree, ended by
two newlines. -/
theorem parseWorktreeList_blocks_witness :
    porcelain exampleBlocks "\n\n"
      = "worktree /repo/main\nHEAD 1111111111111111111111111111111111111111\n" ++
        "branch refs/heads/main\n\nworktree /repo/login\n" ++
        "HEAD 2222222222222222222222222222222222222222\n" ++
        "branch refs/heads/feature/login\n\n" ∧
    (parseWorktreeList (porcelain exampleBlocks "\n\n")).length = exampleBlocks.length ∧
    (parseWorktreeList (porcelain exampleBlocks "\n\n")).map Worktree.Path
      = ["/repo/main", "/repo/login"] ∧
    (parseWorktreeList (porcelain exampleBlocks "\n\n")).map Worktree.IsMain
      = [true, false] ∧
    parseWorktreeList "" = [] :=
  ⟨rfl,
    parseWorktreeList_blocks exampleBlocks "\n\n" (by decide) (by decide) (by decide)⟩

end GitWorktreeSync
